import Mathlib

/-!
# XPM pixmap decoding (`src/fl_draw_pixmap.cxx`)

A shallow embedding of `fl_measure_pixmap`, `make_unused_color_`,
`fl_convert_pixmap` and the mask loop of `fl_draw_pixmap`.

Modelling conventions.

* A `uchar` is a `Fin 256`.  A pointer into character data is the list of the
  bytes that start at the pointer (`*p` is the head, `p++` the tail); a read
  past the end of the list yields 0.  A C string is the part of such a list
  before its first 0 byte.
* `int` variables are `Int`.  A `%d` directive of `sscanf` stores into a 32-bit `int`: the
  numeral is converted as `strtol` does, to a 64-bit `long` (`LONG_MIN` or `LONG_MAX` when
  it lies outside that range), and the low 32 bits of that are stored, as the C library
  does for a numeral that does not fit an `int`.
* The file-scope variables `ncolors`, `chars_per_pixel`, `used_colors`,
  `color_count` and `Fl_Graphics_Driver::need_pixmap_bg_color` are the fields
  of `Globals`, passed in and out of every function.
* `fl_parse_color` and `Fl::get_color` are not part of the file: the colour
  parser is a parameter, and the background colour is given by the RGB triple
  that `Fl::get_color(bg, ...)` yields.
* Freshly allocated memory (the colour table, the pixel buffer) has arbitrary
  content, given as a parameter.
* A function whose loop may run forever returns an `Option`; `none` stands for a
  call that never returns.
-/

namespace FlDrawPixmap

/-! ## Bytes and character classes -/

abbrev uchar := Fin 256

/-- The byte under a pointer: `*p`. -/
def peek (p : List uchar) : uchar := p.headD 0

/-- The `isspace` of the C locale: space, `\t`, `\n`, `\v`, `\f`, `\r`. -/
def isspace (c : uchar) : Bool := c.val == 32 || (9 ≤ c.val && c.val ≤ 13)

/-- The decimal digits `'0'..'9'`. -/
def isdigit (c : uchar) : Bool := 48 ≤ c.val && c.val ≤ 57

/-- The C string that starts at a pointer: the bytes before the first NUL. -/
def cstring : List uchar → List uchar
  | [] => []
  | c :: t => if c.val = 0 then [] else c :: cstring t

/-- The bytes of an ASCII string literal. -/
def ascii (s : String) : List uchar := s.toList.map (fun c => Fin.ofNat c.toNat)

/-! ## `sscanf(s, "%d%d%d%d", ...)` -/

/-- White space skipped in front of a `%d` conversion. -/
def skip_space : List uchar → List uchar
  | [] => []
  | c :: t => if isspace c then skip_space t else c :: t

/-- The longest run of decimal digits and the number it denotes, accumulated in base ten.
This is the magnitude of the numeral; `scan_int` converts it to the `int` that is stored. -/
def scan_digits : List uchar → Nat → Nat × List uchar
  | [], acc => (acc, [])
  | c :: t, acc => if isdigit c then scan_digits t (acc * 10 + (c.val - 48)) else (acc, c :: t)

/-- The value `strtol` yields for a decimal numeral of magnitude `m`, negative when `neg`:
the number itself, or `LONG_MIN` / `LONG_MAX` of the 64-bit `long` when it lies outside
the range of `long`. -/
def strtol_value (neg : Bool) (m : Nat) : Int :=
  if neg then (if m ≤ 9223372036854775808 then -(m : Int) else -9223372036854775808)
  else (if m ≤ 9223372036854775807 then (m : Int) else 9223372036854775807)

/-- The store of a `long` into the `int` variable of a `%d` directive: the low 32 bits,
read as a two's complement number in `-2147483648 .. 2147483647`. -/
def store_int (v : Int) : Int := (v + 2147483648) % 4294967296 - 2147483648

/-- Outcome of one `%d` directive. -/
inductive Conv where
  | value (v : Int) (rest : List uchar)
  | matching_failure
  | input_failure

/-- One `%d` directive: optional white space, an optional sign, at least one digit; the
value stored is a 32-bit `int`.  The end of the string before any character of the item is
an input failure. -/
def scan_int (s : List uchar) : Conv :=
  match skip_space s with
  | [] => Conv.input_failure
  | c :: t =>
    let body := if c.val = 45 ∨ c.val = 43 then t else c :: t
    if isdigit (peek body) then
      let r := scan_digits body 0
      Conv.value (store_int (strtol_value (decide (c.val = 45)) r.1)) r.2
    else Conv.matching_failure

/-- The result of `n` successive `%d` directives: the converted values, in order, and
whether the scan stopped on an input failure. -/
def scan_ints : Nat → List uchar → List Int × Bool
  | 0, _ => ([], false)
  | n + 1, s =>
    match scan_int s with
    | Conv.value v rest => let r := scan_ints n rest; (v :: r.1, r.2)
    | Conv.matching_failure => ([], false)
    | Conv.input_failure => ([], true)

/-- The integers that `sscanf(line, "%d%d%d%d", ...)` converts and assigns. -/
def header_ints (line : List uchar) : List Int := (scan_ints 4 (cstring line)).1

/-- The return value of `sscanf(line, "%d%d%d%d", ...)`: the number of assigned items,
or `EOF` (-1) when the input ends before the first conversion. -/
def sscanf_ret (line : List uchar) : Int :=
  let r := scan_ints 4 (cstring line)
  if r.1.length = 0 ∧ r.2 = true then -1 else (r.1.length : Int)

/-! ## File-scope state -/

structure UsedColor where
  r : uchar
  g : uchar
  b : uchar
deriving DecidableEq, Repr

/-- The static variables of the file.  `used_colors` holds the entries
`used_colors[0 .. color_count)` written so far, so `color_count` is its length; the array
is replaced by an empty one where the source allocates it and sets `color_count = 0`.
When `make_unused_color_` frees the array, `color_count` keeps its value, and so does the
list. -/
structure Globals where
  ncolors : Int
  chars_per_pixel : Int
  used_colors : List UsedColor
  need_pixmap_bg_color : Nat
deriving DecidableEq, Repr

/-- The `color_count` of the file: the number of entries of `used_colors` in use. -/
def Globals.color_count (g : Globals) : Nat := g.used_colors.length

/-! ## `fl_measure_pixmap` -/

structure MeasureResult where
  ret : Int
  w : Int
  h : Int
  g : Globals
deriving DecidableEq, Repr

/-- Model of `fl_measure_pixmap(cdata, w, h)`: `line` is `cdata[0]`, `w0` and `h0` are the
values the caller's `w` and `h` hold before the call (kept by `sscanf` for the items it
does not assign). -/
def fl_measure_pixmap (line : List uchar) (w0 h0 : Int) (g : Globals) : MeasureResult :=
  let i := sscanf_ret line
  let v := header_ints line
  let w := v.getD 0 w0
  let h := v.getD 1 h0
  let g1 : Globals :=
    { g with ncolors := v.getD 2 g.ncolors, chars_per_pixel := v.getD 3 g.chars_per_pixel }
  if i < 4 ∨ w ≤ 0 ∨ h ≤ 0 ∨ (g1.chars_per_pixel ≠ 1 ∧ g1.chars_per_pixel ≠ 2) then
    { ret := 0, w := 0, h := h, g := g1 }
  else
    { ret := 1, w := w, h := h, g := g1 }

/-! ## `Fl_GDI_Graphics_Driver::make_unused_color_` -/

/-- The search `for (i=0; i<color_count; i++) if (used_colors[i] is (r,g,b)) break;`
run on the entries from index `i` on: the value of `i` when the loop is left. -/
def find_used (r g b : uchar) : List UsedColor → Nat → Nat
  | [], i => i
  | u :: t, i => if u.r = r ∧ u.g = g ∧ u.b = b then i else find_used r g b t (i + 1)

/-- The Windows macro `RGB(r,g,b)`. -/
def RGB (r g b : uchar) : Nat := r.val ||| (g.val <<< 8) ||| (b.val <<< 16)

/-- The `while (1)` loop of `make_unused_color_`, at most `fuel` iterations; `none` when the
fuel runs out before the loop returns. -/
def make_unused_color_loop (used : List UsedColor) :
    Nat → uchar → uchar → uchar → Option (uchar × uchar × uchar)
  | 0, _, _, _ => none
  | fuel + 1, r, g, b =>
    if find_used r g b used 0 ≥ used.length then some (r, g, b)
    else if r.val < 255 then make_unused_color_loop used fuel (r + 1) g b
    else if g.val < 255 then make_unused_color_loop used fuel 0 (g + 1) b
    else make_unused_color_loop used fuel 0 0 (b + 1)

/-- Number of RGB triples; after that many iterations the loop of `make_unused_color_`
is back at its first triple. -/
def rgb_space : Nat := 16777216

/-- Model of `make_unused_color_(r, g, b)`: the triple left in `r`, `g`, `b` and the
file-scope variables after the call, with `need_pixmap_bg_color = RGB(r, g, b)`; `none`
when the loop never returns. -/
def make_unused_color_ (g : Globals) : Option ((uchar × uchar × uchar) × Globals) :=
  match make_unused_color_loop g.used_colors rgb_space 2 3 4 with
  | none => none
  | some c => some (c, { g with need_pixmap_bg_color := RGB c.1 c.2.1 c.2.2 })

/-! ## `fl_convert_pixmap` -/

abbrev uchar4 := uchar × uchar × uchar × uchar

/-- The colour table `colors`, indexed by pixel code. -/
abbrev ColorTable := Nat → uchar4

/-- A byte buffer, indexed by byte offset. -/
abbrev Buffer := Nat → uchar

/-- State of the colour-table construction. `transparent_c` is the index of the table entry
the pointer `transparent_c` points to, `none` for the null pointer. -/
structure TableState where
  colors : ColorTable
  used : List UsedColor
  transparent_c : Option Nat
  data : List (List uchar)
  ncolors : Int

/-- The loop `for (i=0; i < ncolors; i++)` of the compressed colormap, `n` iterations from
pointer `p`; also returns the final `p`. -/
def compact_loop (need : Bool) :
    Nat → List uchar → ColorTable → List UsedColor → ColorTable × List UsedColor × List uchar
  | 0, p, colors, used => (colors, used, p)
  | n + 1, p, colors, used =>
    let code := peek p
    let p := p.tail
    let used := if need then used ++ [⟨peek p, peek (p.drop 1), peek (p.drop 2)⟩] else used
    let colors := Function.update colors code.val (peek p, peek (p.drop 1), peek (p.drop 2), 255)
    compact_loop need n (p.drop 3) colors used

/-- The branch `if (ncolors < 0)`: FLTK compressed colormap. -/
def compact_colormap (bg : uchar × uchar × uchar) (need : Bool) (s : TableState) :
    TableState × List uchar :=
  let ncolors := -s.ncolors
  let p := s.data.headD []
  let data := s.data.tail
  if (peek p).val = 32 then
    let colors := Function.update s.colors 32 (bg.1, bg.2.1, bg.2.2, 0)
    let transparent_c := if need then some 32 else s.transparent_c
    let p := p.drop 4
    let ncolors := ncolors - 1
    let r := compact_loop need ncolors.toNat p colors s.used
    ({ colors := r.1, used := r.2.1, transparent_c := transparent_c, data := data,
       ncolors := ncolors }, r.2.2)
  else
    let r := compact_loop need ncolors.toNat p s.colors s.used
    ({ colors := r.1, used := r.2.1, transparent_c := s.transparent_c, data := data,
       ncolors := ncolors }, r.2.2)

/-- The loop `while (*p && isspace(*p)) p++;`. -/
def skip_spaces : List uchar → List uchar
  | [] => []
  | c :: t => if c.val ≠ 0 ∧ isspace c = true then skip_spaces t else c :: t

/-- The loop `while (*p && !isspace(*p)) p++;`. -/
def skip_word : List uchar → List uchar
  | [] => []
  | c :: t => if c.val ≠ 0 ∧ isspace c = false then skip_word t else c :: t

/-- The `for (;;)` loop that looks for "c word", at most `fuel` iterations. -/
def color_word_loop : Nat → List uchar → List uchar → List uchar
  | 0, _, previous_word => previous_word
  | fuel + 1, p, previous_word =>
    let p := skip_spaces p
    let what := peek p
    let p := p.tail
    let p := skip_word p
    let p := skip_spaces p
    if (peek p).val = 0 then previous_word
    else if what.val = 99 then p
    else color_word_loop fuel (skip_word p) p

/-- The pointer handed to `fl_parse_color` for a colour line, `p` being the pointer just
after the pixel code.  Every iteration but the last consumes a byte, so `p.length + 1`
iterations are enough. -/
def color_word (p : List uchar) : List uchar := color_word_loop (p.length + 1) p p

/-- The pixel code at the start of a colour line or of a pixel: one byte, or two bytes
combined as `(first<<8)|second`; with the pointer after the code. -/
def read_code (chars_per_pixel : Int) (p : List uchar) : Nat × List uchar :=
  if chars_per_pixel > 1 then (((peek p).val <<< 8) ||| (peek p.tail).val, p.tail.tail)
  else ((peek p).val, p.tail)

/-- One iteration of the loop of the normal XPM colormap, for the colour line `line`. -/
def named_entry (fl_parse_color : List uchar → Option (uchar × uchar × uchar))
    (bg : uchar × uchar × uchar) (need : Bool) (chars_per_pixel : Int) (line : List uchar)
    (colors : ColorTable) (used : List UsedColor) (transparent_c : Option Nat) :
    ColorTable × List UsedColor × Option Nat :=
  let c := read_code chars_per_pixel line
  let ind := c.1
  let p := color_word c.2
  match fl_parse_color (cstring p) with
  | some rgb =>
    (Function.update colors ind (rgb.1, rgb.2.1, rgb.2.2, 255),
     if need then used ++ [⟨rgb.1, rgb.2.1, rgb.2.2⟩] else used,
     transparent_c)
  | none =>
    (Function.update colors ind (bg.1, bg.2.1, bg.2.2, 255),
     used,
     if need then some ind else transparent_c)

/-- The loop `for (i=0; i<ncolors; i++)` of the normal XPM colormap, `n` iterations. -/
def named_loop (fl_parse_color : List uchar → Option (uchar × uchar × uchar))
    (bg : uchar × uchar × uchar) (need : Bool) (chars_per_pixel : Int) :
    Nat → TableState → TableState
  | 0, s => s
  | n + 1, s =>
    let r := named_entry fl_parse_color bg need chars_per_pixel (s.data.headD [])
      s.colors s.used s.transparent_c
    named_loop fl_parse_color bg need chars_per_pixel n
      { s with colors := r.1, used := r.2.1, transparent_c := r.2.2, data := s.data.tail }

/-- The copy `memcpy(q, c, 4)` for the pixel pointer `q` (an index of 4-byte pixels). -/
def memcpy4 (out : Buffer) (q : Nat) (c : uchar4) : Buffer :=
  fun a =>
    if a = 4 * q then c.1
    else if a = 4 * q + 1 then c.2.1
    else if a = 4 * q + 2 then c.2.2.1
    else if a = 4 * q + 3 then c.2.2.2
    else out a

/-- The inner loops `for (X...; X < w; X++)` of the rasterizer, `n` iterations from row
pointer `p` and pixel pointer `q`. -/
def raster_row (chars_per_pixel : Int) (colors : ColorTable) :
    Nat → List uchar → Nat → Buffer → Buffer × Nat
  | 0, _, q, out => (out, q)
  | n + 1, p, q, out =>
    if chars_per_pixel ≤ 1 then
      raster_row chars_per_pixel colors n p.tail (q + 1) (memcpy4 out q (colors (peek p).val))
    else
      let ind := ((peek p).val <<< 8) ||| (peek p.tail).val
      raster_row chars_per_pixel colors n p.tail.tail (q + 1) (memcpy4 out q (colors ind))

/-- The loop `for (Y...; Y < h; Y++)` of the rasterizer, `n` rows, `data` pointing at the
current row. -/
def raster (chars_per_pixel : Int) (colors : ColorTable) (w : Nat) :
    Nat → List (List uchar) → Nat → Buffer → Buffer
  | 0, _, _, out => out
  | n + 1, data, q, out =>
    let r := raster_row chars_per_pixel colors w (data.headD []) q out
    raster chars_per_pixel colors w n data.tail r.2 r.1

structure ConvertResult where
  ret : Int
  out : Buffer
  g : Globals

/-- Model of `fl_convert_pixmap(cdata, out, bg)`.  `colors0` is the content of the freshly
allocated colour table, `bg` the triple `Fl::get_color(bg, ...)` yields.  The locals `w`
and `h` are uninitialised when `fl_measure_pixmap` is called and only read after it
succeeded, which assigns both; they enter the measure as 0.  The result is `none` when
`make_unused_color_` never returns. -/
def fl_convert_pixmap (fl_parse_color : List uchar → Option (uchar × uchar × uchar))
    (colors0 : ColorTable) (cdata : List (List uchar)) (out : Buffer)
    (bg : uchar × uchar × uchar) (g : Globals) : Option ConvertResult :=
  let m := fl_measure_pixmap (cdata.headD []) 0 0 g
  if m.ret = 0 then some { ret := 0, out := out, g := m.g }
  else if m.g.chars_per_pixel < 1 ∨ m.g.chars_per_pixel > 2 then
    some { ret := 0, out := out, g := m.g }
  else
    let need : Bool := m.g.need_pixmap_bg_color ≠ 0
    let used0 := if need then [] else m.g.used_colors
    let s0 : TableState :=
      { colors := colors0, used := used0, transparent_c := none, data := cdata.tail,
        ncolors := m.g.ncolors }
    let s :=
      if m.g.ncolors < 0 then (compact_colormap bg need s0).1
      else named_loop fl_parse_color bg need m.g.chars_per_pixel m.g.ncolors.toNat s0
    let g1 : Globals := { m.g with ncolors := s.ncolors, used_colors := s.used }
    if need then
      match make_unused_color_ g1 with
      | none => none
      | some (c, g2) =>
        let colors :=
          match s.transparent_c with
          | some ind => Function.update s.colors ind (c.1, c.2.1, c.2.2, (s.colors ind).2.2.2)
          | none => s.colors
        some { ret := 1,
               out := raster m.g.chars_per_pixel colors m.w.toNat m.h.toNat s.data 0 out,
               g := g2 }
    else
      some { ret := 1,
             out := raster m.g.chars_per_pixel s.colors m.w.toNat m.h.toNat s.data 0 out,
             g := g1 }

/-! ## The mask loop of `fl_draw_pixmap` -/

/-- The inner loop `for (X = 0, bit = 1; X < w; X++, p += 4)` of the mask construction,
`n` iterations from column `X`; `p` is the byte offset of the alpha byte read next and
`bitmap` the bytes stored so far through `*bitmap++ = b`. -/
def mask_row (buffer : Buffer) (w : Nat) :
    Nat → Nat → Nat → Nat → Nat → List uchar → Nat × List uchar
  | 0, _, p, _, _, bitmap => (p, bitmap)
  | n + 1, X, p, b, bit, bitmap =>
    let b := if (buffer p).val > 127 then b ||| bit else b
    let bit := bit <<< 1
    if bit > 0x80 ∨ X = w - 1 then
      mask_row buffer w n (X + 1) (p + 4) 0 1 (bitmap ++ [Fin.ofNat b])
    else
      mask_row buffer w n (X + 1) (p + 4) b bit bitmap

/-- The loop `for (Y = 0; Y < h; Y++)` of the mask construction, `n` rows. -/
def mask_rows (buffer : Buffer) (w : Nat) : Nat → Nat → List uchar → Nat × List uchar
  | 0, p, bitmap => (p, bitmap)
  | n + 1, p, bitmap =>
    let r := mask_row buffer w w 0 p 0 1 bitmap
    mask_rows buffer w n r.1 r.2

/-- The mask bitmap that `fl_draw_pixmap` builds from the RGBA `buffer` of a `w` by `h`
image: the bytes stored into the array of `((w+7)/8) * h` bytes. -/
def mask_bitmap (buffer : Buffer) (w h : Nat) : List uchar :=
  (mask_rows buffer w h 3 []).2

/-- Size of the array `new uchar[W * h]` with `W = (w+7)/8`. -/
def mask_size (w h : Nat) : Nat := (w + 7) / 8 * h

structure DrawResult where
  ret : Int
  buffer : Buffer
  mask : Option (List uchar)
  g : Globals

/-- Model of `fl_draw_pixmap(cdata, x, y, bg)` up to the call of `fl_draw_image`: `buffer0`
is the content of the freshly allocated `buffer`, `want_mask` whether
`fl_graphics_driver->mask_bitmap()` asks for a mask. -/
def fl_draw_pixmap (fl_parse_color : List uchar → Option (uchar × uchar × uchar))
    (colors0 : ColorTable) (buffer0 : Buffer) (want_mask : Bool)
    (cdata : List (List uchar)) (bg : uchar × uchar × uchar) (g : Globals) :
    Option DrawResult :=
  let m := fl_measure_pixmap (cdata.headD []) 0 0 g
  if m.ret = 0 then some { ret := 0, buffer := buffer0, mask := none, g := m.g }
  else
    match fl_convert_pixmap fl_parse_color colors0 cdata buffer0 bg m.g with
    | none => none
    | some c =>
      if c.ret = 0 then some { ret := 0, buffer := buffer0, mask := none, g := c.g }
      else
        some { ret := 1, buffer := c.out,
               mask := if want_mask then some (mask_bitmap c.out m.w.toNat m.h.toNat) else none,
               g := c.g }

/-! ## Definitions used in the statements -/

/-- The successor of a triple in the enumeration of `make_unused_color_`. -/
def next_color (c : uchar × uchar × uchar) : uchar × uchar × uchar :=
  if c.1.val < 255 then (c.1 + 1, c.2.1, c.2.2)
  else if c.2.1.val < 255 then (0, c.2.1 + 1, c.2.2)
  else (0, 0, c.2.2 + 1)

/-- Position of a triple in the enumeration order: red counts fastest, blue slowest. -/
def color_index (c : uchar × uchar × uchar) : Nat :=
  c.1.val + 256 * c.2.1.val + 65536 * c.2.2.val

/-- The entry of `used_colors` that holds a triple. -/
def as_used (c : uchar × uchar × uchar) : UsedColor := ⟨c.1, c.2.1, c.2.2⟩

/-- The colour table state that `fl_convert_pixmap` builds for an accepted header with
colour count `n` and `c` bytes per pixel, before the substitute colour is chosen. -/
def colormap (fl_parse_color : List uchar → Option (uchar × uchar × uchar))
    (colors0 : ColorTable) (bg : uchar × uchar × uchar) (need : Bool) (n c : Int)
    (used : List UsedColor) (data : List (List uchar)) : TableState :=
  let s0 : TableState :=
    { colors := colors0, used := if need then [] else used, transparent_c := none,
      data := data, ncolors := n }
  if n < 0 then (compact_colormap bg need s0).1
  else named_loop fl_parse_color bg need c n.toNat s0

/-- The table after `make_unused_color_` stored the triple `c` through `transparent_c`. -/
def substitute (s : TableState) (c : uchar × uchar × uchar) : ColorTable :=
  match s.transparent_c with
  | some ind => Function.update s.colors ind (c.1, c.2.1, c.2.2, (s.colors ind).2.2.2)
  | none => s.colors

/-- The pixel code at column `X` of a pixel row: the byte at position `X`, or the two bytes
at positions `2X` and `2X+1` combined as `first*256 + second`. -/
def pixel_code (chars_per_pixel : Int) (row : List uchar) (X : Nat) : Nat :=
  if chars_per_pixel ≤ 1 then (peek (row.drop X)).val
  else (peek (row.drop (2 * X))).val * 256 + (peek (row.drop (2 * X + 1))).val

/-- The four bytes of the pixel with index `q` in a buffer. -/
def pixel_at (out : Buffer) (q : Nat) : uchar4 :=
  (out (4 * q), out (4 * q + 1), out (4 * q + 2), out (4 * q + 3))

/-- The pixel code that a colour line of the normal XPM colormap defines. -/
def entry_code (chars_per_pixel : Int) (line : List uchar) : Nat :=
  (read_code chars_per_pixel line).1

/-- The text that is handed to the colour parser for a colour line. -/
def entry_spec (chars_per_pixel : Int) (line : List uchar) : List uchar :=
  cstring (color_word (read_code chars_per_pixel line).2)

/-- The table entry that a colour line of the normal XPM colormap stores: the colour the
parser returns, or the background colour when the parser rejects the text; alpha 255. -/
def entry_color (fl_parse_color : List uchar → Option (uchar × uchar × uchar))
    (bg : uchar × uchar × uchar) (chars_per_pixel : Int) (line : List uchar) : uchar4 :=
  match fl_parse_color (entry_spec chars_per_pixel line) with
  | some rgb => (rgb.1, rgb.2.1, rgb.2.2, 255)
  | none => (bg.1, bg.2.1, bg.2.2, 255)

/-- The bytes of a compressed colormap: four bytes (code, r, g, b) per tuple. -/
def compact_bytes : List (uchar × uchar × uchar × uchar) → List uchar
  | [] => []
  | t :: ts => t.1 :: t.2.1 :: t.2.2.1 :: t.2.2.2 :: compact_bytes ts

/-- The renaming that swaps the codes `'a'` and `'b'`. -/
def swap_ab (k : Nat) : Nat := if k = 97 then 98 else if k = 98 then 97 else k

/-! ## Sample inputs -/

/-- A small colour parser, for the evaluation of the decoder on sample images: it knows
the names "red" and "blue" and rejects every other text. -/
def parse_sample (s : List uchar) : Option (uchar × uchar × uchar) :=
  if s = ascii "red" then some (255, 0, 0)
  else if s = ascii "blue" then some (0, 0, 255)
  else none

/-- A colour parser that rejects every text. -/
def parse_nothing (_ : List uchar) : Option (uchar × uchar × uchar) := none

/-- Values of the file-scope variables with background substitution disabled. -/
def sample_globals : Globals :=
  { ncolors := 0, chars_per_pixel := 0, used_colors := [], need_pixmap_bg_color := 0 }

/-- A colour table whose entries are all `(1,1,1,1)`. -/
def sample_table : ColorTable := fun _ => (1, 1, 1, 1)

/-- A buffer whose bytes are all 9. -/
def sample_buffer : Buffer := fun _ => 9

/-! ## The colour section as the table builder reads it -/

/-- The `n` colour lines that the loop of the normal XPM colormap reads from `data`. -/
def take_lines : Nat → List (List uchar) → List (List uchar)
  | 0, _ => []
  | n + 1, data => data.headD [] :: take_lines n data.tail

/-- The `n` tuples (code, r, g, b) that the loop of the compressed colormap reads from the
pointer `p`. -/
def take_tuples : Nat → List uchar → List (uchar × uchar × uchar × uchar)
  | 0, _ => []
  | n + 1, p =>
    (peek p, peek p.tail, peek (p.tail.drop 1), peek (p.tail.drop 2)) ::
      take_tuples n (p.tail.drop 3)

/-- The write to the colour table that a tuple of the compressed colormap makes: the index
and the entry stored. -/
def tuple_update (x : uchar × uchar × uchar × uchar) : Nat × uchar4 :=
  (x.1.val, (x.2.1, x.2.2.1, x.2.2.2, 255))

/-- The colour that a tuple of the compressed colormap appends to `used_colors`. -/
def tuple_used (x : uchar × uchar × uchar × uchar) : UsedColor := ⟨x.2.1, x.2.2.1, x.2.2.2⟩

/-- The write to the colour table that a colour line of the normal XPM colormap makes. -/
def line_update (fl_parse_color : List uchar → Option (uchar × uchar × uchar))
    (bg : uchar × uchar × uchar) (chars_per_pixel : Int) (l : List uchar) : Nat × uchar4 :=
  (entry_code chars_per_pixel l, entry_color fl_parse_color bg chars_per_pixel l)

/-- The colours that the normal XPM colormap appends to `used_colors` for the given colour
lines: the parsed colour of every line the parser accepts, in order. -/
def named_used (fl_parse_color : List uchar → Option (uchar × uchar × uchar))
    (chars_per_pixel : Int) (lines : List (List uchar)) : List UsedColor :=
  lines.filterMap (fun l => (fl_parse_color (entry_spec chars_per_pixel l)).map as_used)

/-- The table index `transparent_c` points to after the given colour lines, from the value
`t` before them: every line the parser rejects assigns the pointer. -/
def named_transparent (fl_parse_color : List uchar → Option (uchar × uchar × uchar))
    (chars_per_pixel : Int) : List (List uchar) → Option Nat → Option Nat
  | [], t => t
  | l :: ls, t =>
    named_transparent fl_parse_color chars_per_pixel ls
      (match fl_parse_color (entry_spec chars_per_pixel l) with
       | none => some (entry_code chars_per_pixel l)
       | some _ => t)

/-- The writes that the table builder of `fl_convert_pixmap` makes to the colour table, in
order, as (index, entry) pairs, for the colour count `n` and `c` bytes per pixel of the
header and the data after the header. -/
def colormap_updates (fl_parse_color : List uchar → Option (uchar × uchar × uchar))
    (bg : uchar × uchar × uchar) (n c : Int) (data : List (List uchar)) :
    List (Nat × uchar4) :=
  if n < 0 then
    if (peek (data.headD [])).val = 32 then
      (32, (bg.1, bg.2.1, bg.2.2, 0)) ::
        (take_tuples (-n - 1).toNat ((data.headD []).drop 4)).map tuple_update
    else (take_tuples (-n).toNat (data.headD [])).map tuple_update
  else (take_lines n.toNat data).map (line_update fl_parse_color bg c)

/-- The colours that the table builder appends to `used_colors` when background
substitution is enabled. -/
def colormap_used (fl_parse_color : List uchar → Option (uchar × uchar × uchar))
    (n c : Int) (data : List (List uchar)) : List UsedColor :=
  if n < 0 then
    if (peek (data.headD [])).val = 32 then
      (take_tuples (-n - 1).toNat ((data.headD []).drop 4)).map tuple_used
    else (take_tuples (-n).toNat (data.headD [])).map tuple_used
  else named_used fl_parse_color c (take_lines n.toNat data)

/-- The table index `transparent_c` points to after the table builder, when background
substitution is enabled. -/
def colormap_transparent (fl_parse_color : List uchar → Option (uchar × uchar × uchar))
    (n c : Int) (data : List (List uchar)) : Option Nat :=
  if n < 0 then
    if (peek (data.headD [])).val = 32 then some 32 else none
  else named_transparent fl_parse_color c (take_lines n.toNat data) none

/-- The pixel rows: the data pointer after the colour section. -/
def colormap_rows (n : Int) (data : List (List uchar)) : List (List uchar) :=
  if n < 0 then data.tail else data.drop n.toNat

/-- The table after the writes `us`, from the table `t`. -/
def apply_updates (us : List (Nat × uchar4)) (t : ColorTable) : ColorTable :=
  us.foldl (fun tb u => Function.update tb u.1 u.2) t

/-- Values of the file-scope variables with background substitution enabled. -/
def sample_globals_subst : Globals :=
  { ncolors := 0, chars_per_pixel := 0, used_colors := [], need_pixmap_bg_color := 1 }

/-! ## The enumeration of RGB triples in the words of the specification -/

/-- One step of the enumeration as the specification words it: red steps first, wrapping
within 0..255; green steps when red wraps from 255 to 0; blue steps when green wraps. -/
def odometer_step (c : uchar × uchar × uchar) : uchar × uchar × uchar :=
  let r := c.1 + 1
  let g := if r = 0 then c.2.1 + 1 else c.2.1
  let b := if r = 0 ∧ g = 0 then c.2.2 + 1 else c.2.2
  (r, g, b)

/-- The `k`-th triple of the enumeration that starts at (2,3,4). -/
def spec_enumeration (k : Nat) : uchar × uchar × uchar := odometer_step^[k] (2, 3, 4)

/-! ## The start of the table construction -/

/-- The state in which the colormap loops of `fl_convert_pixmap` start when background
substitution is enabled: `color_count = 0`, `used_colors` freshly allocated with room for
`abs(ncolors)` entries, `transparent_c` null, `data` at the first line after the header. -/
def start_state (colors0 : ColorTable) (n : Int) (data : List (List uchar)) : TableState :=
  { colors := colors0, used := [], transparent_c := none, data := data, ncolors := n }

/-- The number of entries of the colour table: `new uchar4[1<<(chars_per_pixel*8)]`. -/
def table_size (chars_per_pixel : Int) : Nat := 1 <<< (chars_per_pixel * 8).toNat

/-! ## Key/value pairs of a colour line -/

/-- A token of a colour line: a non-empty run of bytes that are neither NUL nor white
space. -/
def is_token (t : List uchar) : Bool :=
  !t.isEmpty && t.all (fun c => decide (c.val ≠ 0) && !isspace c)

/-- A gap between tokens: a non-empty run of white space. -/
def is_gap (s : List uchar) : Bool := !s.isEmpty && s.all isspace

/-- A key/value pair of a colour line, with the white space in front of the key and
between the key and the value. -/
structure KeyValue where
  gap1 : List uchar
  key : List uchar
  gap2 : List uchar
  value : List uchar

/-- A pair made of two tokens, each behind a gap. -/
def KeyValue.wf (x : KeyValue) : Bool :=
  is_gap x.gap1 && is_token x.key && is_gap x.gap2 && is_token x.value

/-- The bytes of a run of key/value pairs followed by the bytes `rest`. -/
def pairs_bytes : List KeyValue → List uchar → List uchar
  | [], rest => rest
  | x :: xs, rest => x.gap1 ++ (x.key ++ (x.gap2 ++ (x.value ++ pairs_bytes xs rest)))

/-- In the words of the specification: where the text handed to the colour parser starts,
for a line whose complete key/value pairs are `pairs`, followed by `rest`.  It starts at
the value of the first pair whose key begins with `'c'`, and when there is none, at the
value of the last pair; `start` is the place for a line without any pair. -/
def spec_color_word : List KeyValue → List uchar → List uchar → List uchar
  | [], _, start => start
  | x :: xs, rest, _ =>
    if (peek x.key).val = 99 then x.value ++ pairs_bytes xs rest
    else spec_color_word xs rest (x.value ++ pairs_bytes xs rest)

/-! ## The integers of a header line in the words of the specification -/

/-- In the words of the specification: the integer written at the start of a text (optional
white space, an optional sign, decimal digits) as the number it denotes, with the text
behind it; `none` when no integer is written there. -/
def spec_int (s : List uchar) : Option (Int × List uchar) :=
  match skip_space s with
  | [] => none
  | c :: t =>
    let body := if c.val = 45 ∨ c.val = 43 then t else c :: t
    if isdigit (peek body) then
      let r := scan_digits body 0
      some (if c.val = 45 then -(r.1 : Int) else (r.1 : Int), r.2)
    else none

/-- The integers written one after the other at the start of a text, at most `n` of
them. -/
def spec_ints : Nat → List uchar → List Int
  | 0, _ => []
  | n + 1, s =>
    match spec_int s with
    | some (v, rest) => v :: spec_ints n rest
    | none => []

/-- The integers of a header line, as the numbers they denote: the first four at most. -/
def spec_line_ints (line : List uchar) : List Int := spec_ints 4 (cstring line)

/-- The decimal digits of `n`, most significant first, by at most `fuel` divisions. -/
def decimal_digits : Nat → Nat → List uchar
  | 0, _ => []
  | fuel + 1, n =>
    (if n < 10 then [] else decimal_digits fuel (n / 10)) ++ [Fin.ofNat (48 + n % 10)]

/-- The decimal numeral of an integer, with a minus sign when it is negative. -/
def decimal (v : Int) : List uchar :=
  if v < 0 then 45 :: decimal_digits (v.natAbs + 1) v.natAbs
  else decimal_digits (v.natAbs + 1) v.natAbs

/-- The header line that carries four integers: their decimal numerals, separated by single
spaces. -/
def header_line (a b c d : Int) : List uchar :=
  decimal a ++ 32 :: (decimal b ++ 32 :: (decimal c ++ 32 :: decimal d))

/-! ## Colour lines as text -/

/-- A colour line of the normal XPM colormap as it lies in memory: the pixel code, the
complete key/value pairs, a last key without a value (`last_gap` and `last_key`, both empty
when there is none), the white space before the end of the string (`trail`), and the
memory from the terminator of the string on (`behind`): a NUL and whatever is stored behind
the string, or nothing. -/
structure ColorLine where
  code : List uchar
  pairs : List KeyValue
  last_gap : List uchar
  last_key : List uchar
  trail : List uchar
  behind : List uchar

/-- The text of a colour line behind the pixel code, up to the end of the string. -/
def ColorLine.text (l : ColorLine) : List uchar :=
  pairs_bytes l.pairs (l.last_gap ++ (l.last_key ++ l.trail))

/-- The bytes at the pointer of a colour line: the code, the text, and the memory from the
terminator on. -/
def ColorLine.bytes (l : ColorLine) : List uchar :=
  l.code ++ pairs_bytes l.pairs (l.last_gap ++ (l.last_key ++ (l.trail ++ l.behind)))

/-- A colour line on which the scan for the colour text stays inside the string: a code of
`chars_per_pixel` bytes, key/value pairs made of tokens, and either a last key without a
value, or no such key and a pair whose key begins with `'c'`. -/
def ColorLine.wf (chars_per_pixel : Int) (l : ColorLine) : Bool :=
  decide ((l.code.length : Int) = chars_per_pixel) && l.pairs.all KeyValue.wf &&
    l.trail.all isspace && decide ((peek l.behind).val = 0) &&
    ((is_gap l.last_gap && is_token l.last_key) ||
      (l.last_gap.isEmpty && l.last_key.isEmpty &&
        l.pairs.any (fun x => decide ((peek x.key).val = 99))))

/-! ## Facts about the header scan -/

theorem scan_ints_length_le (n : Nat) (s : List uchar) : (scan_ints n s).1.length ≤ n := by
  induction n generalizing s with
  | zero => simp [scan_ints]
  | succ n ih =>
    unfold scan_ints
    split
    · simpa using ih _
    · simp
    · simp

theorem header_ints_length_le (line : List uchar) : (header_ints line).length ≤ 4 :=
  scan_ints_length_le 4 _

theorem sscanf_ret_lt_four (line : List uchar) :
    sscanf_ret line < 4 ↔ (header_ints line).length < 4 := by
  unfold sscanf_ret header_ints
  simp only []
  split
  · rename_i h
    constructor
    · intro _; omega
    · intro _; omega
  · exact Int.ofNat_lt

theorem length_four_cases {α : Type} (v : List α) (h : v.length = 4) :
    ∃ a b c d, v = [a, b, c, d] := by
  match v, h with
  | [a, b, c, d], _ => exact ⟨a, b, c, d, rfl⟩

/-- The outcome of `fl_measure_pixmap` in terms of the integers read from the line. -/
theorem fl_measure_pixmap_eq (line : List uchar) (w0 h0 : Int) (g : Globals) :
    (∃ w h n c, header_ints line = [w, h, n, c] ∧ 0 < w ∧ 0 < h ∧ (c = 1 ∨ c = 2) ∧
      fl_measure_pixmap line w0 h0 g =
        { ret := 1, w := w, h := h, g := { g with ncolors := n, chars_per_pixel := c } }) ∨
    ((¬ ∃ w h n c, header_ints line = [w, h, n, c] ∧ 0 < w ∧ 0 < h ∧ (c = 1 ∨ c = 2)) ∧
      (fl_measure_pixmap line w0 h0 g).ret = 0 ∧ (fl_measure_pixmap line w0 h0 g).w = 0 ∧
      (fl_measure_pixmap line w0 h0 g).g =
        { g with ncolors := (header_ints line).getD 2 g.ncolors,
                 chars_per_pixel := (header_ints line).getD 3 g.chars_per_pixel }) := by
  have hle := header_ints_length_le line
  have hlt := sscanf_ret_lt_four line
  by_cases h4 : (header_ints line).length = 4
  · obtain ⟨w, h, n, c, hv⟩ := length_four_cases _ h4
    have hi : ¬ sscanf_ret line < 4 := by rw [hlt, hv]; simp
    by_cases hok : 0 < w ∧ 0 < h ∧ (c = 1 ∨ c = 2)
    · left
      refine ⟨w, h, n, c, hv, hok.1, hok.2.1, hok.2.2, ?_⟩
      unfold fl_measure_pixmap
      simp only [hv, List.getD_cons_zero, List.getD_cons_succ]
      rw [if_neg]
      rintro (h1 | h1 | h1 | h1)
      · exact hi h1
      · omega
      · omega
      · rcases hok.2.2 with h2 | h2
        · exact h1.1 h2
        · exact h1.2 h2
    · right
      have hcond : sscanf_ret line < 4 ∨ w ≤ 0 ∨ h ≤ 0 ∨ (c ≠ 1 ∧ c ≠ 2) := by
        by_contra hc
        push_neg at hc
        apply hok
        refine ⟨by omega, by omega, ?_⟩
        by_cases h1 : c = 1
        · exact Or.inl h1
        · exact Or.inr (hc.2.2.2 h1)
      refine ⟨?_, ?_, ?_, ?_⟩
      · rintro ⟨w', h', n', c', hv', hpos⟩
        rw [hv] at hv'
        simp only [List.cons.injEq, and_true] at hv'
        obtain ⟨rfl, rfl, rfl, rfl⟩ := hv'
        exact hok hpos
      all_goals
        unfold fl_measure_pixmap
        simp only [hv, List.getD_cons_zero, List.getD_cons_succ]
        rw [if_pos hcond]
  · right
    have hi : sscanf_ret line < 4 := by rw [hlt]; omega
    refine ⟨?_, ?_, ?_, ?_⟩
    · rintro ⟨w', h', n', c', hv', _⟩
      apply h4
      rw [hv']; rfl
    all_goals
      unfold fl_measure_pixmap
      simp only []
      rw [if_pos (Or.inl hi)]

/-- The values that `w` and `h` hold before the call have no influence on the return value,
on the width reported or on the file-scope variables. -/
theorem fl_measure_pixmap_init (line : List uchar) (w0 h0 w1 h1 : Int) (g : Globals) :
    (fl_measure_pixmap line w0 h0 g).ret = (fl_measure_pixmap line w1 h1 g).ret ∧
    (fl_measure_pixmap line w0 h0 g).w = (fl_measure_pixmap line w1 h1 g).w ∧
    (fl_measure_pixmap line w0 h0 g).g = (fl_measure_pixmap line w1 h1 g).g := by
  rcases fl_measure_pixmap_eq line w0 h0 g with ⟨w, h, n, c, hv, hw, hh, hc, he⟩ | ⟨hn, h1', h2, h3⟩
  · rcases fl_measure_pixmap_eq line w1 h1 g with ⟨w', h', n', c', hv', _, _, _, he'⟩ | ⟨hn', _⟩
    · rw [hv] at hv'
      simp only [List.cons.injEq, and_true] at hv'
      obtain ⟨rfl, rfl, rfl, rfl⟩ := hv'
      rw [he, he']
      exact ⟨rfl, rfl, rfl⟩
    · exact absurd ⟨w, h, n, c, hv, hw, hh, hc⟩ hn'
  · rcases fl_measure_pixmap_eq line w1 h1 g with ⟨w', h', n', c', hv', hw, hh, hc, _⟩ | ⟨_, h1'', h2', h3'⟩
    · exact absurd ⟨w', h', n', c', hv', hw, hh, hc⟩ hn
    · rw [h1', h1'', h2, h2', h3, h3']
      exact ⟨rfl, rfl, rfl⟩

theorem skip_spaces_length_le (p : List uchar) : (skip_spaces p).length ≤ p.length := by
  induction p with
  | nil => simp [skip_spaces]
  | cons c t ih =>
    unfold skip_spaces
    split
    · simp only [List.length_cons]
      omega
    · exact Nat.le_refl _

theorem skip_word_length_le (p : List uchar) : (skip_word p).length ≤ p.length := by
  induction p with
  | nil => simp [skip_word]
  | cons c t ih =>
    unfold skip_word
    split
    · simp only [List.length_cons]
      omega
    · exact Nat.le_refl _

theorem peek_ne_zero_length (p : List uchar) (h : (peek p).val ≠ 0) : 0 < p.length := by
  cases p with
  | nil => exact absurd rfl h
  | cons c t => simp

/-- The scan for "c word" leaves its loop before the fuel `p.length + 1` runs out: any
larger fuel gives the same pointer. -/
theorem color_word_loop_fuel :
    ∀ (n fuel1 fuel2 : Nat) (p previous_word : List uchar),
      p.length ≤ n → p.length < fuel1 → p.length < fuel2 →
      color_word_loop fuel1 p previous_word = color_word_loop fuel2 p previous_word := by
  intro n
  induction n with
  | zero =>
    intro fuel1 fuel2 p previous_word hn h1 h2
    obtain ⟨f1, rfl⟩ : ∃ f, fuel1 = f + 1 := ⟨fuel1 - 1, by omega⟩
    obtain ⟨f2, rfl⟩ : ∃ f, fuel2 = f + 1 := ⟨fuel2 - 1, by omega⟩
    have hp : p = [] := List.length_eq_zero.1 (by omega)
    subst hp
    rfl
  | succ n ih =>
    intro fuel1 fuel2 p previous_word hn h1 h2
    obtain ⟨f1, rfl⟩ : ∃ f, fuel1 = f + 1 := ⟨fuel1 - 1, by omega⟩
    obtain ⟨f2, rfl⟩ : ∃ f, fuel2 = f + 1 := ⟨fuel2 - 1, by omega⟩
    rw [color_word_loop, color_word_loop]
    split
    · rfl
    · rename_i hne
      split
      · rfl
      · have hpos := peek_ne_zero_length _ hne
        have ha := skip_spaces_length_le (skip_word (skip_spaces p).tail)
        have hb := skip_word_length_le (skip_spaces p).tail
        have hc := skip_spaces_length_le p
        have hd := skip_word_length_le (skip_spaces (skip_word (skip_spaces p).tail))
        have he : (skip_spaces p).tail.length = (skip_spaces p).length - 1 := List.length_tail _
        exact ih f1 f2 _ _ (by omega) (by omega) (by omega)

theorem color_word_fuel (fuel : Nat) (p : List uchar) (h : p.length < fuel) :
    color_word_loop fuel p p = color_word p :=
  color_word_loop_fuel p.length fuel (p.length + 1) p p (Nat.le_refl _) h (by omega)

theorem find_used_ge (r g b : uchar) (l : List UsedColor) (i : Nat) :
    i + l.length ≤ find_used r g b l i ↔ (⟨r, g, b⟩ : UsedColor) ∉ l := by
  induction l generalizing i with
  | nil => simp [find_used]
  | cons u t ih =>
    unfold find_used
    by_cases hu : u.r = r ∧ u.g = g ∧ u.b = b
    · rw [if_pos hu]
      obtain ⟨rfl, rfl, rfl⟩ := hu
      simp
    · rw [if_neg hu]
      have h1 := ih (i + 1)
      have hne : (⟨r, g, b⟩ : UsedColor) ≠ u := by
        intro he
        apply hu
        rw [← he]
        exact ⟨rfl, rfl, rfl⟩
      simp only [List.length_cons, List.mem_cons, not_or]
      constructor
      · intro h
        exact ⟨hne, h1.1 (by omega)⟩
      · intro h
        have := h1.2 h.2
        omega

theorem find_used_unused (r g b : uchar) (used : List UsedColor) :
    find_used r g b used 0 ≥ used.length ↔ (⟨r, g, b⟩ : UsedColor) ∉ used := by
  have := find_used_ge r g b used 0
  simpa using this

theorem make_unused_color_loop_succ (used : List UsedColor) (fuel : Nat)
    (c : uchar × uchar × uchar) :
    make_unused_color_loop used (fuel + 1) c.1 c.2.1 c.2.2 =
      if (⟨c.1, c.2.1, c.2.2⟩ : UsedColor) ∉ used then some c
      else make_unused_color_loop used fuel (next_color c).1 (next_color c).2.1
        (next_color c).2.2 := by
  obtain ⟨r, g, b⟩ := c
  rw [make_unused_color_loop]
  simp only [find_used_unused, next_color]
  split
  · rfl
  · split
    · rfl
    · split
      · rfl
      · rfl

/-- The loop returns the first triple of the enumeration that is not in the list, when
the fuel reaches that far. -/
theorem make_unused_color_loop_first (used : List UsedColor) :
    ∀ (k fuel : Nat) (c : uchar × uchar × uchar), k < fuel →
      (∀ j < k, (⟨(next_color^[j] c).1, (next_color^[j] c).2.1, (next_color^[j] c).2.2⟩ :
        UsedColor) ∈ used) →
      (⟨(next_color^[k] c).1, (next_color^[k] c).2.1, (next_color^[k] c).2.2⟩ :
        UsedColor) ∉ used →
      make_unused_color_loop used fuel c.1 c.2.1 c.2.2 = some (next_color^[k] c) := by
  intro k
  induction k with
  | zero =>
    intro fuel c hf _ hk
    obtain ⟨f, rfl⟩ : ∃ f, fuel = f + 1 := ⟨fuel - 1, by omega⟩
    rw [make_unused_color_loop_succ, if_pos]
    · rfl
    · simpa using hk
  | succ k ih =>
    intro fuel c hf hj hk
    obtain ⟨f, rfl⟩ : ∃ f, fuel = f + 1 := ⟨fuel - 1, by omega⟩
    rw [make_unused_color_loop_succ, if_neg]
    · rw [ih f (next_color c) (by omega)]
      · rw [Function.iterate_succ_apply]
      · intro j hjk
        have := hj (j + 1) (by omega)
        rwa [Function.iterate_succ_apply] at this
      · rwa [Function.iterate_succ_apply] at hk
    · have := hj 0 (by omega)
      simpa using this

theorem color_index_lt (c : uchar × uchar × uchar) : color_index c < 16777216 := by
  obtain ⟨r, g, b⟩ := c
  have := r.isLt
  have := g.isLt
  have := b.isLt
  simp only [color_index]
  omega

theorem color_index_next (c : uchar × uchar × uchar) :
    color_index (next_color c) = (color_index c + 1) % 16777216 := by
  obtain ⟨r, g, b⟩ := c
  have hr := r.isLt
  have hg := g.isLt
  have hb := b.isLt
  simp only [next_color, color_index]
  split
  · simp only [Fin.val_add, Fin.val_one]
    omega
  · split
    · simp only [Fin.val_add, Fin.val_one, Fin.val_zero]
      omega
    · simp only [Fin.val_add, Fin.val_one, Fin.val_zero]
      omega

theorem color_index_iterate (k : Nat) (c : uchar × uchar × uchar) :
    color_index (next_color^[k] c) = (color_index c + k) % 16777216 := by
  induction k with
  | zero =>
    have := color_index_lt c
    simp only [Function.iterate_zero, id_eq, Nat.add_zero]
    omega
  | succ k ih =>
    rw [Function.iterate_succ_apply', color_index_next, ih]
    omega

theorem color_index_injective (c d : uchar × uchar × uchar)
    (h : color_index c = color_index d) : c = d := by
  obtain ⟨r, g, b⟩ := c
  obtain ⟨r', g', b'⟩ := d
  have := r.isLt
  have := g.isLt
  have := b.isLt
  have := r'.isLt
  have := g'.isLt
  have := b'.isLt
  simp only [color_index] at h
  have h1 : r.val = r'.val := by omega
  have h2 : g.val = g'.val := by omega
  have h3 : b.val = b'.val := by omega
  rw [Fin.ext h1, Fin.ext h2, Fin.ext h3]

theorem as_used_injective : Function.Injective as_used := by
  intro c d h
  obtain ⟨r, g, b⟩ := c
  obtain ⟨r', g', b'⟩ := d
  simp only [as_used, UsedColor.mk.injEq] at h
  obtain ⟨rfl, rfl, rfl⟩ := h
  rfl

/-- Among the first `used.length + 1` triples of the enumeration one is not in the list,
as long as the list has fewer entries than there are triples. -/
theorem exists_unused (used : List UsedColor) (c : uchar × uchar × uchar)
    (h : used.length < 16777216) :
    ∃ k, k ≤ used.length ∧ as_used (next_color^[k] c) ∉ used := by
  by_contra hall
  push_neg at hall
  let L := (List.range (used.length + 1)).map (fun k => as_used (next_color^[k] c))
  have hnd : L.Nodup := by
    refine (List.nodup_range _).map_on ?_
    intro j hj k hk hjk
    have h1 := congrArg color_index (as_used_injective hjk)
    rw [color_index_iterate, color_index_iterate] at h1
    have := color_index_lt c
    rw [List.mem_range] at hj hk
    omega
  have hsub : L ⊆ used := by
    intro x hx
    simp only [L, List.mem_map, List.mem_range] at hx
    obtain ⟨k, hk, rfl⟩ := hx
    exact hall k (by omega)
  have hlen := (hnd.subperm hsub).length_le
  simp only [L, List.length_map, List.length_range] at hlen
  omega

/-- Termination and result of `make_unused_color_` for every list shorter than the number
of RGB triples: it returns the first triple of the enumeration from (2,3,4) that is not
in the list. -/
theorem make_unused_color_first (used : List UsedColor) (h : used.length < 16777216) :
    ∃ k, k ≤ used.length ∧
      (∀ j < k, as_used (next_color^[j] (2, 3, 4)) ∈ used) ∧
      as_used (next_color^[k] (2, 3, 4)) ∉ used ∧
      ∀ fuel, used.length < fuel →
        make_unused_color_loop used fuel 2 3 4 = some (next_color^[k] (2, 3, 4)) := by
  classical
  have hex := exists_unused used (2, 3, 4) h
  refine ⟨Nat.find hex, (Nat.find_spec hex).1, ?_, (Nat.find_spec hex).2, ?_⟩
  · intro j hj
    have := Nat.find_min hex hj
    by_contra hc
    exact this ⟨by have := (Nat.find_spec hex).1; omega, hc⟩
  · intro fuel hf
    refine make_unused_color_loop_first used (Nat.find hex) fuel (2, 3, 4)
      (by have := (Nat.find_spec hex).1; omega) ?_ (Nat.find_spec hex).2
    intro j hj
    have := Nat.find_min hex hj
    by_contra hc
    exact this ⟨by have := (Nat.find_spec hex).1; omega, hc⟩

theorem make_unused_color_loop_none (used : List UsedColor)
    (hall : ∀ c : uchar × uchar × uchar, as_used c ∈ used) :
    ∀ (fuel : Nat) (c : uchar × uchar × uchar),
      make_unused_color_loop used fuel c.1 c.2.1 c.2.2 = none := by
  intro fuel
  induction fuel with
  | zero => intro c; rfl
  | succ fuel ih =>
    intro c
    rw [make_unused_color_loop_succ, if_neg (fun h => h (hall c))]
    exact ih _

/-- Every triple is reached from (2,3,4) in fewer steps than there are triples. -/
theorem next_color_reaches (t : uchar × uchar × uchar) :
    ∃ k, k < 16777216 ∧ next_color^[k] (2, 3, 4) = t := by
  refine ⟨(color_index t + 16777216 - 262914) % 16777216, Nat.mod_lt _ (by omega), ?_⟩
  apply color_index_injective
  rw [color_index_iterate]
  have h0 : color_index ((2, 3, 4) : uchar × uchar × uchar) = 262914 := by decide
  have ht := color_index_lt t
  rw [h0]
  omega

/-- The fuel of `make_unused_color_` is exact: the model yields `none` only when every RGB
triple is in the list, which is when the loop of the source never returns. -/
theorem make_unused_color_loop_none_iff (used : List UsedColor) :
    make_unused_color_loop used rgb_space 2 3 4 = none ↔
      ∀ c : uchar × uchar × uchar, as_used c ∈ used := by
  classical
  constructor
  · intro hnone
    by_contra hex
    push_neg at hex
    obtain ⟨t, ht⟩ := hex
    obtain ⟨k0, hk0, hkt⟩ := next_color_reaches t
    have hex' : ∃ k, as_used (next_color^[k] (2, 3, 4)) ∉ used := ⟨k0, by rw [hkt]; exact ht⟩
    have hle : Nat.find hex' ≤ k0 := Nat.find_min' hex' (by rw [hkt]; exact ht)
    have := make_unused_color_loop_first used (Nat.find hex') rgb_space (2, 3, 4)
      (by unfold rgb_space; omega)
      (fun j hj => by
        by_contra hc
        exact Nat.find_min hex' hj hc)
      (Nat.find_spec hex')
    rw [hnone] at this
    exact absurd this (by simp)
  · intro hall
    exact make_unused_color_loop_none used hall rgb_space (2, 3, 4)

theorem make_unused_color_none_iff (g : Globals) :
    make_unused_color_ g = none ↔ ∀ c : uchar × uchar × uchar, as_used c ∈ g.used_colors := by
  rw [← make_unused_color_loop_none_iff]
  unfold make_unused_color_
  split
  · simp [*]
  · simp [*]

theorem make_unused_color_eq (g : Globals) (c : uchar × uchar × uchar)
    (h : make_unused_color_loop g.used_colors rgb_space 2 3 4 = some c) :
    make_unused_color_ g = some (c, { g with need_pixmap_bg_color := RGB c.1 c.2.1 c.2.2 }) := by
  unfold make_unused_color_
  rw [h]

theorem fl_convert_pixmap_rejected (fl_parse_color : List uchar → Option (uchar × uchar × uchar))
    (colors0 : ColorTable) (cdata : List (List uchar)) (out : Buffer)
    (bg : uchar × uchar × uchar) (g : Globals)
    (h : (fl_measure_pixmap (cdata.headD []) 0 0 g).ret = 0) :
    fl_convert_pixmap fl_parse_color colors0 cdata out bg g =
      some { ret := 0, out := out, g := (fl_measure_pixmap (cdata.headD []) 0 0 g).g } := by
  unfold fl_convert_pixmap
  simp only []
  rw [if_pos h]

/-- The decode of an image whose header is accepted. -/
theorem fl_convert_pixmap_accepted
    (fl_parse_color : List uchar → Option (uchar × uchar × uchar))
    (colors0 : ColorTable) (cdata : List (List uchar)) (out : Buffer)
    (bg : uchar × uchar × uchar) (g : Globals) (w h n c : Int)
    (hv : header_ints (cdata.headD []) = [w, h, n, c]) (hw : 0 < w) (hh : 0 < h)
    (hc : c = 1 ∨ c = 2) :
    fl_convert_pixmap fl_parse_color colors0 cdata out bg g =
      if g.need_pixmap_bg_color ≠ 0 then
        match make_unused_color_loop
          (colormap fl_parse_color colors0 bg true n c g.used_colors cdata.tail).used
          rgb_space 2 3 4 with
        | none => none
        | some u =>
          some { ret := 1,
                 out := raster c
                   (substitute
                     (colormap fl_parse_color colors0 bg true n c g.used_colors cdata.tail) u)
                   w.toNat h.toNat
                   (colormap fl_parse_color colors0 bg true n c g.used_colors cdata.tail).data
                   0 out,
                 g := { ncolors :=
                          (colormap fl_parse_color colors0 bg true n c g.used_colors
                            cdata.tail).ncolors,
                        chars_per_pixel := c,
                        used_colors :=
                          (colormap fl_parse_color colors0 bg true n c g.used_colors
                            cdata.tail).used,
                        need_pixmap_bg_color := RGB u.1 u.2.1 u.2.2 } }
      else
        some { ret := 1,
               out := raster c
                 (colormap fl_parse_color colors0 bg false n c g.used_colors cdata.tail).colors
                 w.toNat h.toNat
                 (colormap fl_parse_color colors0 bg false n c g.used_colors cdata.tail).data
                 0 out,
               g := { ncolors :=
                        (colormap fl_parse_color colors0 bg false n c g.used_colors
                          cdata.tail).ncolors,
                      chars_per_pixel := c,
                      used_colors :=
                        (colormap fl_parse_color colors0 bg false n c g.used_colors
                          cdata.tail).used,
                      need_pixmap_bg_color := g.need_pixmap_bg_color } } := by
  rcases fl_measure_pixmap_eq (cdata.headD []) 0 0 g with
    ⟨w', h', n', c', hv', -, -, -, he⟩ | ⟨hn, -, -, -⟩
  · rw [hv] at hv'
    simp only [List.cons.injEq, and_true] at hv'
    obtain ⟨rfl, rfl, rfl, rfl⟩ := hv'
    have hc1 : ¬ (c < 1 ∨ c > 2) := by omega
    unfold fl_convert_pixmap
    simp only [he]
    rw [if_neg Int.one_ne_zero, if_neg hc1]
    by_cases hneed : g.need_pixmap_bg_color = 0
    · simp [hneed, colormap]
    · simp only [ne_eq, hneed, not_false_eq_true, decide_True, if_true, colormap, substitute,
        make_unused_color_]
      generalize make_unused_color_loop _ rgb_space 2 3 4 = res
      cases res <;> rfl
  · exact absurd ⟨w, h, n, c, hv, hw, hh, hc⟩ hn

theorem shl_or_eq (a b : uchar) : (a.val <<< 8) ||| b.val = a.val * 256 + b.val := by
  have hb : b.val < 2 ^ 8 := b.isLt
  rw [Nat.shiftLeft_eq, Nat.mul_comm, ← Nat.mul_add_lt_is_or hb]

theorem drop_tail_eq (p : List uchar) (n : Nat) : p.tail.drop n = p.drop (n + 1) := by
  cases p <;> simp

theorem memcpy4_pixel (out : Buffer) (q : Nat) (c : uchar4) :
    pixel_at (memcpy4 out q c) q = c := by
  simp [pixel_at, memcpy4]

theorem memcpy4_other (out : Buffer) (q : Nat) (c : uchar4) (a : Nat)
    (h : a < 4 * q ∨ 4 * q + 4 ≤ a) : memcpy4 out q c a = out a := by
  unfold memcpy4
  rw [if_neg (by omega), if_neg (by omega), if_neg (by omega), if_neg (by omega)]

theorem pixel_at_congr (o1 o2 : Buffer) (q : Nat)
    (h : ∀ a, 4 * q ≤ a → a < 4 * q + 4 → o1 a = o2 a) : pixel_at o1 q = pixel_at o2 q := by
  unfold pixel_at
  rw [h _ (by omega) (by omega), h _ (by omega) (by omega), h _ (by omega) (by omega),
    h _ (by omega) (by omega)]

/-- One row of the rasterizer: pixel `q + X` receives the table entry of the code at
column `X`, for `X < n`; no other byte changes; the pixel pointer ends at `q + n`. -/
theorem raster_row_spec (c : Int) (colors : ColorTable) :
    ∀ (n : Nat) (p : List uchar) (q : Nat) (out : Buffer),
      (raster_row c colors n p q out).2 = q + n ∧
      (∀ X, X < n → pixel_at (raster_row c colors n p q out).1 (q + X) =
        colors (pixel_code c p X)) ∧
      (∀ a, a < 4 * q ∨ 4 * (q + n) ≤ a → (raster_row c colors n p q out).1 a = out a) := by
  intro n
  induction n with
  | zero =>
    intro p q out
    simp [raster_row]
  | succ n ih =>
    intro p q out
    by_cases hc : c ≤ 1
    · have hstep : raster_row c colors (n + 1) p q out =
          raster_row c colors n p.tail (q + 1) (memcpy4 out q (colors (peek p).val)) := by
        rw [raster_row, if_pos hc]
      obtain ⟨h1, h2, h3⟩ := ih p.tail (q + 1) (memcpy4 out q (colors (peek p).val))
      rw [hstep]
      refine ⟨by rw [h1]; omega, ?_, ?_⟩
      · intro X hX
        cases X with
        | zero =>
          show pixel_at _ q = _
          rw [pixel_at_congr _ (memcpy4 out q (colors (peek p).val)) q
            (fun a ha hb => h3 a (by omega))]
          rw [memcpy4_pixel]
          simp [pixel_code, hc]
        | succ X =>
          have := h2 X (by omega)
          rw [show q + (X + 1) = q + 1 + X by omega, this]
          simp only [pixel_code, if_pos hc, drop_tail_eq]
      · intro a ha
        rw [h3 a (by omega), memcpy4_other _ _ _ _ (by omega)]
    · have hstep : raster_row c colors (n + 1) p q out =
          raster_row c colors n p.tail.tail (q + 1)
            (memcpy4 out q (colors (((peek p).val <<< 8) ||| (peek p.tail).val))) := by
        rw [raster_row, if_neg hc]
      obtain ⟨h1, h2, h3⟩ := ih p.tail.tail (q + 1)
        (memcpy4 out q (colors (((peek p).val <<< 8) ||| (peek p.tail).val)))
      rw [hstep]
      refine ⟨by rw [h1]; omega, ?_, ?_⟩
      · intro X hX
        cases X with
        | zero =>
          show pixel_at _ q = _
          rw [pixel_at_congr _ (memcpy4 out q
            (colors (((peek p).val <<< 8) ||| (peek p.tail).val))) q
            (fun a ha hb => h3 a (by omega))]
          rw [memcpy4_pixel, shl_or_eq]
          simp only [pixel_code, if_neg hc, Nat.mul_zero, Nat.zero_add, List.drop_zero,
            List.drop_one]
        | succ X =>
          have := h2 X (by omega)
          rw [show q + (X + 1) = q + 1 + X by omega, this]
          simp only [pixel_code, if_neg hc, drop_tail_eq]
          rfl
      · intro a ha
        rw [h3 a (by omega), memcpy4_other _ _ _ _ (by omega)]

/-- The rasterizer writes row-major, top to bottom: pixel `q + Y*w + X` receives the table
entry of the code at column `X` of row `Y`; no byte outside the `n*w` pixels changes. -/
theorem raster_spec (c : Int) (colors : ColorTable) (w : Nat) :
    ∀ (n : Nat) (data : List (List uchar)) (q : Nat) (out : Buffer),
      (∀ Y X, Y < n → X < w → pixel_at (raster c colors w n data q out) (q + (Y * w + X)) =
        colors (pixel_code c (data.getD Y []) X)) ∧
      (∀ a, a < 4 * q ∨ 4 * (q + n * w) ≤ a → raster c colors w n data q out a = out a) := by
  intro n
  induction n with
  | zero =>
    intro data q out
    simp [raster]
  | succ n ih =>
    intro data q out
    obtain ⟨r1, r2, r3⟩ := raster_row_spec c colors w (data.headD []) q out
    have hstep : raster c colors w (n + 1) data q out =
        raster c colors w n data.tail (raster_row c colors w (data.headD []) q out).2
          (raster_row c colors w (data.headD []) q out).1 := by
      rw [raster]
    rw [hstep, r1]
    obtain ⟨h2, h3⟩ := ih data.tail (q + w) (raster_row c colors w (data.headD []) q out).1
    refine ⟨?_, ?_⟩
    · intro Y X hY hX
      cases Y with
      | zero =>
        rw [pixel_at_congr _ (raster_row c colors w (data.headD []) q out).1 _
          (fun a ha hb => h3 a (by left; simp only [Nat.zero_mul, Nat.zero_add] at ha hb; omega))]
        simp only [Nat.zero_mul, Nat.zero_add]
        rw [r2 X hX]
        cases data <;> simp
      | succ Y =>
        have := h2 Y X (by omega) hX
        rw [show q + ((Y + 1) * w + X) = q + w + (Y * w + X) by
          rw [Nat.add_mul]; omega, this]
        cases data <;> simp
    · intro a ha
      have hmul : (n + 1) * w = n * w + w := by rw [Nat.add_mul]; omega
      rw [hmul] at ha
      rw [h3 a (by omega), r3 a (by omega)]

theorem foldl_update_other {α : Type} (f : α → Nat) (v : α → uchar4) (i : Nat) :
    ∀ (l : List α) (t0 : ColorTable), (∀ x ∈ l, f x ≠ i) →
      (l.foldl (fun t x => Function.update t (f x) (v x)) t0) i = t0 i := by
  intro l
  induction l with
  | nil => intro t0 _; rfl
  | cons x xs ih =>
    intro t0 h
    rw [List.foldl_cons, ih _ (fun y hy => h y (List.mem_cons_of_mem _ hy))]
    exact Function.update_noteq (Ne.symm (h x (List.mem_cons_self _ _))) _ _

theorem foldl_update_mem {α : Type} (f : α → Nat) (v : α → uchar4) :
    ∀ (l : List α) (t0 : ColorTable), l.Pairwise (fun a b => f a ≠ f b) →
      ∀ e ∈ l, (l.foldl (fun t x => Function.update t (f x) (v x)) t0) (f e) = v e := by
  intro l
  induction l with
  | nil => intro t0 _ e he; cases he
  | cons x xs ih =>
    intro t0 hp e he
    rw [List.pairwise_cons] at hp
    rw [List.foldl_cons]
    rcases List.mem_cons.1 he with rfl | hmem
    · rw [foldl_update_other f v (f e) xs _ (fun y hy => Ne.symm (hp.1 y hy))]
      exact Function.update_same _ _ _
    · exact ih _ hp.2 e hmem

theorem named_entry_colors (fl_parse_color : List uchar → Option (uchar × uchar × uchar))
    (bg : uchar × uchar × uchar) (need : Bool) (c : Int) (line : List uchar)
    (colors : ColorTable) (used : List UsedColor) (t : Option Nat) :
    (named_entry fl_parse_color bg need c line colors used t).1 =
      Function.update colors (entry_code c line) (entry_color fl_parse_color bg c line) := by
  unfold named_entry entry_color entry_spec entry_code
  simp only []
  cases fl_parse_color (cstring (color_word (read_code c line).2)) <;> rfl

/-- The colormap loop over the colour lines `lines`: the table is updated line by line,
the data pointer ends after the lines. -/
theorem named_loop_lines (fl_parse_color : List uchar → Option (uchar × uchar × uchar))
    (bg : uchar × uchar × uchar) (need : Bool) (c : Int) (rest : List (List uchar))
    (nc : Int) :
    ∀ (lines : List (List uchar)) (colors : ColorTable) (used : List UsedColor)
      (t : Option Nat),
      (named_loop fl_parse_color bg need c lines.length
        { colors := colors, used := used, transparent_c := t, data := lines ++ rest,
          ncolors := nc }).colors =
        lines.foldl (fun tb l => Function.update tb (entry_code c l)
          (entry_color fl_parse_color bg c l)) colors ∧
      (named_loop fl_parse_color bg need c lines.length
        { colors := colors, used := used, transparent_c := t, data := lines ++ rest,
          ncolors := nc }).data = rest ∧
      (named_loop fl_parse_color bg need c lines.length
        { colors := colors, used := used, transparent_c := t, data := lines ++ rest,
          ncolors := nc }).ncolors = nc := by
  intro lines
  induction lines with
  | nil => intro colors used t; exact ⟨rfl, rfl, rfl⟩
  | cons l ls ih =>
    intro colors used t
    simp only [List.length_cons, named_loop, List.cons_append, List.headD_cons, List.tail_cons,
      List.foldl_cons]
    rw [named_entry_colors]
    exact ih _ _ _

/-- The compressed-colormap loop over the tuples `tuples`. -/
theorem compact_loop_tuples (need : Bool) (rest : List uchar) :
    ∀ (tuples : List (uchar × uchar × uchar × uchar)) (colors : ColorTable)
      (used : List UsedColor),
      compact_loop need tuples.length (compact_bytes tuples ++ rest) colors used =
        (tuples.foldl (fun (tb : ColorTable) x =>
            Function.update tb x.1.val (x.2.1, x.2.2.1, x.2.2.2, 255)) colors,
          used ++ (if need then tuples.map (fun x => UsedColor.mk x.2.1 x.2.2.1 x.2.2.2)
            else []),
          rest) := by
  intro tuples
  induction tuples with
  | nil => intro colors used; cases need <;> simp [compact_loop, compact_bytes]
  | cons x xs ih =>
    intro colors used
    simp only [List.length_cons, compact_loop, compact_bytes, List.cons_append, peek,
      List.headD_cons, List.tail_cons, List.drop_succ_cons, List.drop_zero, List.foldl_cons]
    rw [ih]
    cases need <;> simp

/-- The decode of an image whose header is accepted, with background substitution
disabled. -/
theorem fl_convert_pixmap_plain
    (fl_parse_color : List uchar → Option (uchar × uchar × uchar))
    (colors0 : ColorTable) (cdata : List (List uchar)) (out : Buffer)
    (bg : uchar × uchar × uchar) (g : Globals) (w h : Nat) (n c : Int)
    (hv : header_ints (cdata.headD []) = [(w : Int), (h : Int), n, c]) (hw : 0 < w)
    (hh : 0 < h) (hc : c = 1 ∨ c = 2) (hneed : g.need_pixmap_bg_color = 0) :
    ∃ r, fl_convert_pixmap fl_parse_color colors0 cdata out bg g = some r ∧ r.ret = 1 ∧
      r.out = raster c
        (colormap fl_parse_color colors0 bg false n c g.used_colors cdata.tail).colors w h
        (colormap fl_parse_color colors0 bg false n c g.used_colors cdata.tail).data 0 out ∧
      r.g.ncolors =
        (colormap fl_parse_color colors0 bg false n c g.used_colors cdata.tail).ncolors := by
  rw [fl_convert_pixmap_accepted fl_parse_color colors0 cdata out bg g w h n c hv
    (by omega) (by omega) hc]
  rw [if_neg (by simp [hneed])]
  exact ⟨_, rfl, rfl, by simp, rfl⟩

theorem colormap_named (fl_parse_color : List uchar → Option (uchar × uchar × uchar))
    (colors0 : ColorTable) (bg : uchar × uchar × uchar) (need : Bool) (c : Int)
    (used : List UsedColor) (lines rows : List (List uchar)) :
    (colormap fl_parse_color colors0 bg need (lines.length : Int) c used
        (lines ++ rows)).colors =
      lines.foldl (fun tb l => Function.update tb (entry_code c l)
        (entry_color fl_parse_color bg c l)) colors0 ∧
    (colormap fl_parse_color colors0 bg need (lines.length : Int) c used
        (lines ++ rows)).data = rows ∧
    (colormap fl_parse_color colors0 bg need (lines.length : Int) c used
        (lines ++ rows)).ncolors = lines.length := by
  unfold colormap
  simp only []
  rw [if_neg (by omega), Int.toNat_natCast]
  exact named_loop_lines fl_parse_color bg need c rows _ lines colors0 _ none

/-- The compressed colormap whose first tuple has the code `' '`: that entry becomes the
background colour with alpha 0, the other tuples are stored with alpha 255. -/
theorem colormap_compact_space (fl_parse_color : List uchar → Option (uchar × uchar × uchar))
    (colors0 : ColorTable) (bg : uchar × uchar × uchar) (c : Int)
    (used : List UsedColor) (t : uchar × uchar × uchar × uchar)
    (ts : List (uchar × uchar × uchar × uchar)) (rest : List uchar)
    (rows : List (List uchar)) (ht : t.1 = 32) :
    (colormap fl_parse_color colors0 bg false (-((t :: ts).length : Int)) c used
        ((compact_bytes (t :: ts) ++ rest) :: rows)).colors =
      ts.foldl (fun (tb : ColorTable) x =>
          Function.update tb x.1.val (x.2.1, x.2.2.1, x.2.2.2, 255))
        (Function.update colors0 32 (bg.1, bg.2.1, bg.2.2, 0)) ∧
    (colormap fl_parse_color colors0 bg false (-((t :: ts).length : Int)) c used
        ((compact_bytes (t :: ts) ++ rest) :: rows)).data = rows ∧
    (colormap fl_parse_color colors0 bg false (-((t :: ts).length : Int)) c used
        ((compact_bytes (t :: ts) ++ rest) :: rows)).ncolors = ts.length ∧
    (compact_colormap bg false
        { colors := colors0, used := used, transparent_c := none,
          data := (compact_bytes (t :: ts) ++ rest) :: rows,
          ncolors := -((t :: ts).length : Int) }).2 = rest := by
  have hlen : (-(-((t :: ts).length : Int)) - 1).toNat = ts.length := by
    simp only [List.length_cons, Int.neg_neg]
    omega
  have hlen2 : -(-((t :: ts).length : Int)) - 1 = ts.length := by
    simp only [List.length_cons, Int.neg_neg]
    omega
  have hp : (peek (compact_bytes (t :: ts) ++ rest)).val = 32 := by
    simp only [compact_bytes, peek, List.cons_append, List.headD_cons, ht]
    rfl
  have hdrop : (compact_bytes (t :: ts) ++ rest).drop 4 = compact_bytes ts ++ rest := by
    simp [compact_bytes]
  unfold colormap
  simp only []
  rw [if_pos (by simp only [List.length_cons]; omega)]
  unfold compact_colormap
  simp only [List.headD_cons, List.tail_cons, Bool.false_eq_true, if_false]
  rw [if_pos hp, hdrop, hlen, hlen2, compact_loop_tuples]
  exact ⟨rfl, rfl, rfl, rfl⟩

/-- The compressed colormap whose first tuple has a code other than `' '`: every tuple is
stored with alpha 255. -/
theorem colormap_compact_plain (fl_parse_color : List uchar → Option (uchar × uchar × uchar))
    (colors0 : ColorTable) (bg : uchar × uchar × uchar) (c : Int)
    (used : List UsedColor) (t : uchar × uchar × uchar × uchar)
    (ts : List (uchar × uchar × uchar × uchar)) (rest : List uchar)
    (rows : List (List uchar)) (ht : t.1 ≠ 32) :
    (colormap fl_parse_color colors0 bg false (-((t :: ts).length : Int)) c used
        ((compact_bytes (t :: ts) ++ rest) :: rows)).colors =
      (t :: ts).foldl (fun (tb : ColorTable) x =>
          Function.update tb x.1.val (x.2.1, x.2.2.1, x.2.2.2, 255)) colors0 ∧
    (colormap fl_parse_color colors0 bg false (-((t :: ts).length : Int)) c used
        ((compact_bytes (t :: ts) ++ rest) :: rows)).data = rows ∧
    (colormap fl_parse_color colors0 bg false (-((t :: ts).length : Int)) c used
        ((compact_bytes (t :: ts) ++ rest) :: rows)).ncolors = (t :: ts).length := by
  have hlen : (-(-((t :: ts).length : Int))).toNat = (t :: ts).length := by
    rw [Int.neg_neg, Int.toNat_natCast]
  have hp : ¬ (peek (compact_bytes (t :: ts) ++ rest)).val = 32 := by
    simp only [compact_bytes, peek, List.cons_append, List.headD_cons]
    intro h
    exact ht (Fin.ext h)
  unfold colormap
  simp only []
  rw [if_pos (by simp only [List.length_cons]; omega)]
  unfold compact_colormap
  simp only [List.headD_cons, List.tail_cons]
  rw [if_neg hp, hlen, compact_loop_tuples, Int.neg_neg]
  exact ⟨rfl, rfl, rfl⟩

theorem raster_pixel (c : Int) (colors : ColorTable) (w h : Nat) (data : List (List uchar))
    (out : Buffer) (Y X : Nat) (hY : Y < h) (hX : X < w) :
    pixel_at (raster c colors w h data 0 out) (Y * w + X) =
      colors (pixel_code c (data.getD Y []) X) := by
  have := (raster_spec c colors w h data 0 out).1 Y X hY hX
  rwa [Nat.zero_add] at this

theorem raster_outside (c : Int) (colors : ColorTable) (w h : Nat) (data : List (List uchar))
    (out : Buffer) (a : Nat) (ha : 4 * (h * w) ≤ a) :
    raster c colors w h data 0 out a = out a :=
  (raster_spec c colors w h data 0 out).2 a (Or.inr (by omega))

theorem compact_loop_used_length (need : Bool) :
    ∀ (n : Nat) (p : List uchar) (colors : ColorTable) (used : List UsedColor),
      (compact_loop need n p colors used).2.1.length ≤ used.length + n := by
  intro n
  induction n with
  | zero => intro p colors used; simp [compact_loop]
  | succ n ih =>
    intro p colors used
    rw [compact_loop]
    refine le_trans (ih _ _ _) ?_
    cases need <;> simp
    omega

theorem named_entry_used_length (fl_parse_color : List uchar → Option (uchar × uchar × uchar))
    (bg : uchar × uchar × uchar) (need : Bool) (c : Int) (line : List uchar)
    (colors : ColorTable) (used : List UsedColor) (t : Option Nat) :
    (named_entry fl_parse_color bg need c line colors used t).2.1.length ≤ used.length + 1 := by
  unfold named_entry
  simp only []
  cases fl_parse_color (cstring (color_word (read_code c line).2)) with
  | none => simp
  | some rgb => cases need <;> simp

theorem named_loop_used_length (fl_parse_color : List uchar → Option (uchar × uchar × uchar))
    (bg : uchar × uchar × uchar) (need : Bool) (c : Int) :
    ∀ (n : Nat) (s : TableState),
      (named_loop fl_parse_color bg need c n s).used.length ≤ s.used.length + n := by
  intro n
  induction n with
  | zero => intro s; simp [named_loop]
  | succ n ih =>
    intro s
    rw [named_loop]
    refine le_trans (ih _) ?_
    have := named_entry_used_length fl_parse_color bg need c (s.data.headD []) s.colors
      s.used s.transparent_c
    simp only []
    omega

/-- With background substitution enabled, `used_colors` receives at most `abs(ncolors)`
entries. -/
theorem colormap_used_length (fl_parse_color : List uchar → Option (uchar × uchar × uchar))
    (colors0 : ColorTable) (bg : uchar × uchar × uchar) (n c : Int)
    (used : List UsedColor) (data : List (List uchar)) :
    (colormap fl_parse_color colors0 bg true n c used data).used.length ≤ n.natAbs := by
  unfold colormap
  simp only [if_true]
  split
  · unfold compact_colormap
    simp only []
    split
    · refine le_trans (compact_loop_used_length _ _ _ _ _) ?_
      simp only [List.length_nil]
      omega
    · refine le_trans (compact_loop_used_length _ _ _ _ _) ?_
      simp only [List.length_nil]
      omega
  · refine le_trans (named_loop_used_length _ _ _ _ _ _) ?_
    simp only [List.length_nil]
    omega

/-- The decode returns 1 for every accepted header, when background substitution is
disabled or the colour count is below the number of RGB triples. -/
theorem fl_convert_pixmap_returns
    (fl_parse_color : List uchar → Option (uchar × uchar × uchar))
    (colors0 : ColorTable) (cdata : List (List uchar)) (out : Buffer)
    (bg : uchar × uchar × uchar) (g : Globals) (w h n c : Int)
    (hv : header_ints (cdata.headD []) = [w, h, n, c]) (hw : 0 < w) (hh : 0 < h)
    (hc : c = 1 ∨ c = 2)
    (hterm : g.need_pixmap_bg_color = 0 ∨ n.natAbs < 16777216) :
    ∃ r, fl_convert_pixmap fl_parse_color colors0 cdata out bg g = some r ∧ r.ret = 1 := by
  rw [fl_convert_pixmap_accepted fl_parse_color colors0 cdata out bg g w h n c hv hw hh hc]
  by_cases hneed : g.need_pixmap_bg_color = 0
  · rw [if_neg (by simp [hneed])]
    exact ⟨_, rfl, rfl⟩
  · rw [if_pos hneed]
    have hn : n.natAbs < 16777216 := by
      rcases hterm with h0 | h0
      · exact absurd h0 hneed
      · exact h0
    have hlen := colormap_used_length fl_parse_color colors0 bg n c g.used_colors cdata.tail
    obtain ⟨k, -, -, -, hf⟩ := make_unused_color_first
      (colormap fl_parse_color colors0 bg true n c g.used_colors cdata.tail).used
      (by omega)
    have hm : make_unused_color_loop
        (colormap fl_parse_color colors0 bg true n c g.used_colors cdata.tail).used
        rgb_space 2 3 4 =
        some (next_color^[k] (2, 3, 4)) := hf rgb_space (by unfold rgb_space; omega)
    rw [hm]
    exact ⟨_, rfl, rfl⟩

/-- Whatever `fl_convert_pixmap` returns, it is 0 for a rejected header and 1 for an
accepted one. -/
theorem fl_convert_pixmap_ret
    (fl_parse_color : List uchar → Option (uchar × uchar × uchar))
    (colors0 : ColorTable) (cdata : List (List uchar)) (out : Buffer)
    (bg : uchar × uchar × uchar) (g : Globals) (r : ConvertResult)
    (hr : fl_convert_pixmap fl_parse_color colors0 cdata out bg g = some r) :
    ((fl_measure_pixmap (cdata.headD []) 0 0 g).ret = 0 ∧ r.ret = 0 ∧ r.out = out) ∨
    ((fl_measure_pixmap (cdata.headD []) 0 0 g).ret ≠ 0 ∧ r.ret = 1) := by
  rcases fl_measure_pixmap_eq (cdata.headD []) 0 0 g with
    ⟨w, h, n, c, hv, hw, hh, hc, he⟩ | ⟨-, h0, -, -⟩
  · right
    refine ⟨by rw [he]; exact Int.one_ne_zero, ?_⟩
    rw [fl_convert_pixmap_accepted fl_parse_color colors0 cdata out bg g w h n c hv hw hh hc]
      at hr
    split at hr
    · split at hr
      · exact absurd hr (by simp)
      · simp only [Option.some.injEq] at hr
        rw [← hr]
    · simp only [Option.some.injEq] at hr
      rw [← hr]
  · left
    rw [fl_convert_pixmap_rejected fl_parse_color colors0 cdata out bg g h0] at hr
    simp only [Option.some.injEq] at hr
    rw [← hr]
    exact ⟨h0, rfl, rfl⟩

/-- Pixels of a named-encoding image with pairwise distinct codes, substitution disabled. -/
theorem convert_named_pixels
    (fl_parse_color : List uchar → Option (uchar × uchar × uchar))
    (colors0 : ColorTable) (out : Buffer) (bg : uchar × uchar × uchar) (g : Globals)
    (header : List uchar) (lines rows : List (List uchar)) (w h : Nat) (c : Int)
    (hv : header_ints header = [(w : Int), (h : Int), (lines.length : Int), c])
    (hw : 0 < w) (hh : 0 < h) (hc : c = 1 ∨ c = 2)
    (hd : lines.Pairwise (fun a b => entry_code c a ≠ entry_code c b))
    (hneed : g.need_pixmap_bg_color = 0) :
    ∃ r, fl_convert_pixmap fl_parse_color colors0 (header :: (lines ++ rows)) out bg g =
        some r ∧ r.ret = 1 ∧
      (∀ Y X, Y < h → X < w → ∀ line ∈ lines,
        entry_code c line = pixel_code c (rows.getD Y []) X →
        pixel_at r.out (Y * w + X) = entry_color fl_parse_color bg c line) ∧
      (∀ a, 4 * (h * w) ≤ a → r.out a = out a) := by
  obtain ⟨r, hr, hret, hout, -⟩ := fl_convert_pixmap_plain fl_parse_color colors0
    (header :: (lines ++ rows)) out bg g w h lines.length c hv hw hh hc hneed
  obtain ⟨hcol, hdata, -⟩ := colormap_named fl_parse_color colors0 bg false c g.used_colors
    lines rows
  refine ⟨r, hr, hret, ?_, ?_⟩
  · intro Y X hY hX line hline hcode
    rw [hout, List.tail_cons, hcol, hdata, raster_pixel _ _ _ _ _ _ _ _ hY hX, ← hcode]
    exact foldl_update_mem (entry_code c) (entry_color fl_parse_color bg c) lines colors0 hd
      line hline
  · intro a ha
    rw [hout, raster_outside _ _ _ _ _ _ _ ha]

/-- A compact-encoding image with one tuple, of code `' '`, whose pixels all have the
code `' '`: every pixel is the background colour with alpha 0. -/
theorem convert_single_compact
    (fl_parse_color : List uchar → Option (uchar × uchar × uchar))
    (colors0 : ColorTable) (out : Buffer) (bg : uchar × uchar × uchar) (g : Globals)
    (header table : List uchar) (rows : List (List uchar)) (w h : Nat) (c : Int)
    (hv : header_ints header = [(w : Int), (h : Int), -1, c])
    (hw : 0 < w) (hh : 0 < h) (hc : c = 1 ∨ c = 2)
    (hneed : g.need_pixmap_bg_color = 0)
    (hcode : (peek table).val = 32)
    (hpix : ∀ Y X, Y < h → X < w → pixel_code c (rows.getD Y []) X = 32) :
    ∃ r, fl_convert_pixmap fl_parse_color colors0 (header :: table :: rows) out bg g =
        some r ∧ r.ret = 1 ∧
      (∀ Y X, Y < h → X < w → pixel_at r.out (Y * w + X) = (bg.1, bg.2.1, bg.2.2, 0)) ∧
      (∀ a, 4 * (h * w) ≤ a → r.out a = out a) := by
  obtain ⟨r, hr, hret, hout, -⟩ := fl_convert_pixmap_plain fl_parse_color colors0
    (header :: table :: rows) out bg g w h (-1) c hv hw hh hc hneed
  have hcm : colormap fl_parse_color colors0 bg false (-1) c g.used_colors (table :: rows) =
      { colors := Function.update colors0 32 (bg.1, bg.2.1, bg.2.2, 0),
        used := g.used_colors, transparent_c := none, data := rows, ncolors := 0 } := by
    unfold colormap
    simp only []
    rw [if_pos (by omega)]
    unfold compact_colormap
    simp only [List.headD_cons, List.tail_cons, Bool.false_eq_true, if_false]
    rw [if_pos hcode]
    rfl
  rw [List.tail_cons, hcm] at hout
  refine ⟨r, hr, hret, ?_, ?_⟩
  · intro Y X hY hX
    rw [hout, raster_pixel _ _ _ _ _ _ _ _ hY hX, hpix Y X hY hX]
    simp only [Function.update_same]
  · intro a ha
    rw [hout, raster_outside _ _ _ _ _ _ _ ha]

/-- A named-encoding image with one colour line, rejected by the colour parser, whose
pixels all have the code of that line: every pixel is the background colour with
alpha 255. -/
theorem convert_single_named
    (fl_parse_color : List uchar → Option (uchar × uchar × uchar))
    (colors0 : ColorTable) (out : Buffer) (bg : uchar × uchar × uchar) (g : Globals)
    (header line : List uchar) (rows : List (List uchar)) (w h : Nat) (c : Int)
    (hv : header_ints header = [(w : Int), (h : Int), 1, c])
    (hw : 0 < w) (hh : 0 < h) (hc : c = 1 ∨ c = 2)
    (hneed : g.need_pixmap_bg_color = 0)
    (hparse : fl_parse_color (entry_spec c line) = none)
    (hpix : ∀ Y X, Y < h → X < w → pixel_code c (rows.getD Y []) X = entry_code c line) :
    ∃ r, fl_convert_pixmap fl_parse_color colors0 (header :: line :: rows) out bg g =
        some r ∧ r.ret = 1 ∧
      (∀ Y X, Y < h → X < w → pixel_at r.out (Y * w + X) = (bg.1, bg.2.1, bg.2.2, 255)) ∧
      (∀ a, 4 * (h * w) ≤ a → r.out a = out a) := by
  obtain ⟨r, hr, hret, hpx, hrest⟩ := convert_named_pixels fl_parse_color colors0 out bg g
    header [line] rows w h c hv hw hh hc (List.pairwise_singleton _ _) hneed
  refine ⟨r, hr, hret, ?_, hrest⟩
  intro Y X hY hX
  rw [hpx Y X hY hX line (List.mem_singleton_self _) (hpix Y X hY hX).symm]
  unfold entry_color
  rw [hparse]

theorem pow_shift (r : Nat) : (2 ^ r) <<< 1 = 2 ^ (r + 1) := by
  rw [Nat.shiftLeft_eq]
  ring

theorem pow_flush (r : Nat) (hr : r < 8) : 2 ^ (r + 1) > 0x80 ↔ r = 7 := by
  interval_cases r <;> simp

theorem ofNat_val_lt (b : Nat) (h : b < 256) : (Fin.ofNat b : uchar).val = b := by
  show b % 256 = b
  omega

theorem pow_le_256 (r : Nat) (hr : r < 8) : 2 ^ (r + 1) ≤ 256 := by
  interval_cases r <;> simp

/-- The byte accumulated in `b` after one more pixel. -/
theorem mask_bit_step (b r : Nat) (alpha : Prop) [Decidable alpha] (hb : b < 2 ^ r) :
    (if alpha then b ||| 2 ^ r else b) < 2 ^ (r + 1) ∧
    (if alpha then b ||| 2 ^ r else b).testBit r = decide alpha ∧
    ∀ j, j < r → (if alpha then b ||| 2 ^ r else b).testBit j = b.testBit j := by
  have h2 : 2 ^ r < 2 ^ (r + 1) := Nat.pow_lt_pow_right (by omega) (by omega)
  have hb0 : b.testBit r = false := Nat.testBit_lt_two_pow hb
  by_cases ha : alpha
  · rw [if_pos ha]
    refine ⟨Nat.or_lt_two_pow (by omega) h2, ?_, ?_⟩
    · rw [Nat.testBit_or, hb0, Nat.testBit_two_pow_self]
      simp [ha]
    · intro j hj
      rw [Nat.testBit_or, Nat.testBit_two_pow_of_ne (by omega)]
      simp
  · rw [if_neg ha]
    refine ⟨by omega, ?_, fun _ _ => rfl⟩
    rw [hb0]
    simp [ha]

/-- One row of the mask loop, from column `X` on: the bytes it stores. -/
theorem mask_row_spec (buffer : Buffer) (w : Nat) :
    ∀ (n X p b : Nat) (bm : List uchar), X + n = w → b < 2 ^ (X % 8) →
      ∃ bytes : List uchar,
        mask_row buffer w n X p b (2 ^ (X % 8)) bm = (p + 4 * n, bm ++ bytes) ∧
        bytes.length = (if n = 0 then 0 else (w + 7) / 8 - X / 8) ∧
        (∀ X', X ≤ X' → X' < w →
          (bytes.getD (X' / 8 - X / 8) 0).val.testBit (X' % 8) =
            decide ((buffer (p + 4 * (X' - X))).val > 127)) ∧
        (0 < n → ∀ j, j < X % 8 → (bytes.getD 0 0).val.testBit j = b.testBit j) := by
  intro n
  induction n with
  | zero =>
    intro X p b bm hX _
    refine ⟨[], ?_, rfl, ?_, ?_⟩
    · simp [mask_row]
    · intro X' h1 h2
      omega
    · intro h
      omega
  | succ n ih =>
    intro X p b bm hX hb
    have hr : X % 8 < 8 := Nat.mod_lt _ (by omega)
    obtain ⟨hb', ht, hpres⟩ := mask_bit_step b (X % 8) ((buffer p).val > 127) hb
    have h256 := pow_le_256 (X % 8) hr
    rw [mask_row, pow_shift]
    by_cases hflush : 2 ^ (X % 8 + 1) > 0x80 ∨ X = w - 1
    · rw [if_pos hflush]
      have hval := ofNat_val_lt (if (buffer p).val > 127 then b ||| 2 ^ (X % 8) else b)
        (by omega)
      cases n with
      | zero =>
        refine ⟨[Fin.ofNat (if (buffer p).val > 127 then b ||| 2 ^ (X % 8) else b)], ?_, ?_,
          ?_, ?_⟩
        · simp [mask_row]
        · simp only [List.length_singleton]
          rw [if_neg (by omega)]
          omega
        · intro X' h1 h2
          have hXX : X' = X := by omega
          subst hXX
          rw [Nat.sub_self, List.getD_cons_zero, hval, ht, Nat.sub_self, Nat.mul_zero,
            Nat.add_zero]
        · intro _ j hj
          rw [List.getD_cons_zero, hval]
          exact hpres j hj
      | succ m =>
        have h7 : X % 8 = 7 := by
          rcases hflush with h | h
          · exact (pow_flush _ hr).1 h
          · omega
        have h0 : (X + 1) % 8 = 0 := by omega
        obtain ⟨bytes, he, hl, hbits, -⟩ := ih (X + 1) (p + 4) 0
          (bm ++ [Fin.ofNat (if (buffer p).val > 127 then b ||| 2 ^ (X % 8) else b)])
          (by omega) (by rw [h0]; simp)
        rw [h0, pow_zero] at he
        refine ⟨Fin.ofNat (if (buffer p).val > 127 then b ||| 2 ^ (X % 8) else b) :: bytes,
          ?_, ?_, ?_, ?_⟩
        · rw [he]
          simp only [List.append_assoc, List.singleton_append, Prod.mk.injEq, and_true]
          omega
        · rw [List.length_cons, hl, if_neg (by omega), if_neg (by omega)]
          omega
        · intro X' h1 h2
          by_cases hXX : X' = X
          · subst hXX
            rw [Nat.sub_self, List.getD_cons_zero, hval, ht, Nat.sub_self, Nat.mul_zero,
              Nat.add_zero]
          · have hidx : X' / 8 - X / 8 = (X' / 8 - (X + 1) / 8) + 1 := by omega
            rw [hidx, List.getD_cons_succ, hbits X' (by omega) h2]
            rw [show p + 4 + 4 * (X' - (X + 1)) = p + 4 * (X' - X) by omega]
        · intro _ j hj
          rw [List.getD_cons_zero, hval]
          exact hpres j hj
    · rw [if_neg hflush]
      have hn7 : X % 8 ≠ 7 := fun h => hflush (Or.inl ((pow_flush _ hr).2 h))
      have hnl : X ≠ w - 1 := fun h => hflush (Or.inr h)
      have hmod : (X + 1) % 8 = X % 8 + 1 := by omega
      obtain ⟨bytes, he, hl, hbits, hkeep⟩ := ih (X + 1) (p + 4)
        (if (buffer p).val > 127 then b ||| 2 ^ (X % 8) else b) bm (by omega)
        (by rw [hmod]; exact hb')
      rw [hmod] at he hkeep
      have hnpos : 0 < n := by omega
      refine ⟨bytes, ?_, ?_, ?_, ?_⟩
      · rw [he]
        simp only [Prod.mk.injEq, and_true]
        omega
      · rw [hl, if_neg (by omega), if_neg (by omega)]
        omega
      · intro X' h1 h2
        by_cases hXX : X' = X
        · subst hXX
          rw [Nat.sub_self, hkeep hnpos (X' % 8) (by omega), ht, Nat.sub_self, Nat.mul_zero,
            Nat.add_zero]
        · have hidx : X' / 8 - X / 8 = X' / 8 - (X + 1) / 8 := by omega
          rw [hidx, hbits X' (by omega) h2]
          rw [show p + 4 + 4 * (X' - (X + 1)) = p + 4 * (X' - X) by omega]
      · intro _ j hj
        rw [hkeep hnpos j (by omega)]
        exact hpres j hj

/-- The rows of the mask loop: `(w+7)/8` bytes per row, bit `X % 8` of byte `X / 8` of row
`Y` telling whether the alpha byte at offset `p + 4*(Y*w+X)` exceeds 127. -/
theorem mask_rows_spec (buffer : Buffer) (w : Nat) :
    ∀ (n p : Nat) (bm : List uchar),
      ∃ bytes : List uchar,
        mask_rows buffer w n p bm = (p + 4 * (n * w), bm ++ bytes) ∧
        bytes.length = n * ((w + 7) / 8) ∧
        ∀ Y X, Y < n → X < w →
          (bytes.getD (Y * ((w + 7) / 8) + X / 8) 0).val.testBit (X % 8) =
            decide ((buffer (p + 4 * (Y * w + X))).val > 127) := by
  intro n
  induction n with
  | zero =>
    intro p bm
    exact ⟨[], by simp [mask_rows], by simp, fun Y X hY _ => absurd hY (by omega)⟩
  | succ n ih =>
    intro p bm
    obtain ⟨row, he, hl, hbits, -⟩ := mask_row_spec buffer w w 0 p 0 bm (by omega)
      (by simp)
    have he1 : mask_row buffer w w 0 p 0 1 bm = (p + 4 * w, bm ++ row) := he
    have hl1 : row.length = (w + 7) / 8 := by
      rw [hl]
      split <;> omega
    obtain ⟨rest, hr, hrl, hrbits⟩ := ih (p + 4 * w) (bm ++ row)
    refine ⟨row ++ rest, ?_, ?_, ?_⟩
    · rw [mask_rows, he1, hr, List.append_assoc, Nat.succ_mul n w]
      simp only [Prod.mk.injEq, and_true]
      omega
    · rw [List.length_append, hl1, hrl, Nat.succ_mul n ((w + 7) / 8)]
      omega
    · intro Y X hY hX
      cases Y with
      | zero =>
        have hidx : X / 8 < row.length := by omega
        rw [Nat.zero_mul, Nat.zero_add, Nat.zero_mul, Nat.zero_add,
          List.getD_append _ _ _ _ hidx]
        have := hbits X (by omega) hX
        simpa using this
      | succ Y =>
        have hidx : row.length ≤ (Y + 1) * ((w + 7) / 8) + X / 8 := by
          rw [Nat.succ_mul Y ((w + 7) / 8)]
          omega
        rw [List.getD_append_right _ _ _ _ hidx, hl1]
        have hsub : (Y + 1) * ((w + 7) / 8) + X / 8 - (w + 7) / 8 =
            Y * ((w + 7) / 8) + X / 8 := by
          rw [Nat.succ_mul Y ((w + 7) / 8)]
          omega
        rw [hsub, hrbits Y X (by omega) hX]
        have hadd : p + 4 * w + 4 * (Y * w + X) = p + 4 * ((Y + 1) * w + X) := by
          rw [Nat.succ_mul Y w]
          omega
        rw [hadd]

theorem buffers_agree (o1 o2 : Buffer) (w h : Nat)
    (hp : ∀ Y X, Y < h → X < w → pixel_at o1 (Y * w + X) = pixel_at o2 (Y * w + X)) :
    ∀ a, a < 4 * (h * w) → o1 a = o2 a := by
  intro a ha
  have hw : 0 < w := by
    rcases Nat.eq_zero_or_pos w with h0 | h0
    · rw [h0, Nat.mul_zero] at ha
      omega
    · exact h0
  have hq : a / 4 < h * w := by omega
  have hY : a / 4 / w < h := (Nat.div_lt_iff_lt_mul hw).2 hq
  have hX : a / 4 % w < w := Nat.mod_lt _ hw
  have hdm : a / 4 / w * w + a / 4 % w = a / 4 := by
    rw [Nat.mul_comm]
    exact Nat.div_add_mod _ _
  have := hp _ _ hY hX
  rw [hdm] at this
  simp only [pixel_at, Prod.mk.injEq] at this
  obtain ⟨h0, h1, h2, h3⟩ := this
  have hk : a = 4 * (a / 4) ∨ a = 4 * (a / 4) + 1 ∨ a = 4 * (a / 4) + 2 ∨
      a = 4 * (a / 4) + 3 := by omega
  rcases hk with hk | hk | hk | hk
  · rw [hk]; exact h0
  · rw [hk]; exact h1
  · rw [hk]; exact h2
  · rw [hk]; exact h3

/-- Two rasterizations agree when the second grid is the first with its codes renamed by
`σ` and the second table holds at `σ k` what the first holds at `k`, for every code `k` of
the first grid. -/
theorem raster_agree (c : Int) (TA TB : ColorTable) (w h : Nat)
    (rowsA rowsB : List (List uchar)) (outA outB : Buffer) (σ : Nat → Nat)
    (hgrid : ∀ Y X, Y < h → X < w →
      pixel_code c (rowsB.getD Y []) X = σ (pixel_code c (rowsA.getD Y []) X))
    (htab : ∀ Y X, Y < h → X < w →
      TB (σ (pixel_code c (rowsA.getD Y []) X)) = TA (pixel_code c (rowsA.getD Y []) X)) :
    ∀ a, a < 4 * (h * w) →
      raster c TA w h rowsA 0 outA a = raster c TB w h rowsB 0 outB a := by
  apply buffers_agree
  intro Y X hY hX
  rw [raster_pixel _ _ _ _ _ _ _ _ hY hX, raster_pixel _ _ _ _ _ _ _ _ hY hX,
    hgrid Y X hY hX, htab Y X hY hX]

/-- The table entry of a colour line depends on the line only through the text after the
pixel code. -/
theorem entry_color_rest (fl_parse_color : List uchar → Option (uchar × uchar × uchar))
    (bg : uchar × uchar × uchar) (c : Int) (l l' : List uchar)
    (h : (read_code c l).2 = (read_code c l').2) :
    entry_color fl_parse_color bg c l = entry_color fl_parse_color bg c l' := by
  unfold entry_color entry_spec
  rw [h]

/-- Two named-encoding images whose colour lines are a permutation of each other up to a
renaming `σ` of the codes, the pixel grid renamed alike, decode to the same pixels. -/
theorem convert_permuted_named
    (fl_parse_color : List uchar → Option (uchar × uchar × uchar))
    (colorsA colorsB : ColorTable) (outA outB : Buffer) (bg : uchar × uchar × uchar)
    (gA gB : Globals) (headerA headerB : List uchar) (linesA linesB : List (List uchar))
    (rowsA rowsB : List (List uchar)) (w h : Nat) (c : Int) (σ : Nat → Nat)
    (hvA : header_ints headerA = [(w : Int), (h : Int), (linesA.length : Int), c])
    (hvB : header_ints headerB = [(w : Int), (h : Int), (linesB.length : Int), c])
    (hw : 0 < w) (hh : 0 < h) (hc : c = 1 ∨ c = 2)
    (hdA : linesA.Pairwise (fun a b => entry_code c a ≠ entry_code c b))
    (hdB : linesB.Pairwise (fun a b => entry_code c a ≠ entry_code c b))
    (hperm : List.Perm
      (linesA.map (fun l => (σ (entry_code c l), (read_code c l).2)))
      (linesB.map (fun l => (entry_code c l, (read_code c l).2))))
    (hlisted : ∀ Y X, Y < h → X < w →
      ∃ l ∈ linesA, entry_code c l = pixel_code c (rowsA.getD Y []) X)
    (hgrid : ∀ Y X, Y < h → X < w →
      pixel_code c (rowsB.getD Y []) X = σ (pixel_code c (rowsA.getD Y []) X))
    (hneedA : gA.need_pixmap_bg_color = 0) (hneedB : gB.need_pixmap_bg_color = 0) :
    ∃ rA rB,
      fl_convert_pixmap fl_parse_color colorsA (headerA :: (linesA ++ rowsA)) outA bg gA =
        some rA ∧
      fl_convert_pixmap fl_parse_color colorsB (headerB :: (linesB ++ rowsB)) outB bg gB =
        some rB ∧
      rA.ret = 1 ∧ rB.ret = 1 ∧ ∀ a, a < 4 * (h * w) → rA.out a = rB.out a := by
  obtain ⟨rA, hrA, hretA, houtA, -⟩ := fl_convert_pixmap_plain fl_parse_color colorsA
    (headerA :: (linesA ++ rowsA)) outA bg gA w h linesA.length c hvA hw hh hc hneedA
  obtain ⟨rB, hrB, hretB, houtB, -⟩ := fl_convert_pixmap_plain fl_parse_color colorsB
    (headerB :: (linesB ++ rowsB)) outB bg gB w h linesB.length c hvB hw hh hc hneedB
  obtain ⟨hcolA, hdataA, -⟩ := colormap_named fl_parse_color colorsA bg false c
    gA.used_colors linesA rowsA
  obtain ⟨hcolB, hdataB, -⟩ := colormap_named fl_parse_color colorsB bg false c
    gB.used_colors linesB rowsB
  refine ⟨rA, rB, hrA, hrB, hretA, hretB, ?_⟩
  rw [houtA, houtB, List.tail_cons, List.tail_cons, hcolA, hcolB, hdataA, hdataB]
  apply raster_agree c _ _ w h rowsA rowsB outA outB σ hgrid
  intro Y X hY hX
  obtain ⟨l, hl, hcode⟩ := hlisted Y X hY hX
  have hmem : (σ (entry_code c l), (read_code c l).2) ∈
      linesB.map (fun l => (entry_code c l, (read_code c l).2)) :=
    hperm.subset (List.mem_map.2 ⟨l, hl, rfl⟩)
  obtain ⟨l', hl', he⟩ := List.mem_map.1 hmem
  simp only [Prod.mk.injEq] at he
  rw [← hcode, ← he.1,
    foldl_update_mem (entry_code c) (entry_color fl_parse_color bg c) linesB colorsB hdB l' hl',
    foldl_update_mem (entry_code c) (entry_color fl_parse_color bg c) linesA colorsA hdA l hl]
  exact entry_color_rest fl_parse_color bg c l' l he.2

/-- Two compact-encoding images whose tuples are a permutation of each other up to a
renaming `σ` of the codes, the pixel grid renamed alike, decode to the same pixels when
either both first tuples are the transparent `' '` tuple, kept in place, or neither first
tuple has the code `' '`. -/
theorem convert_permuted_compact
    (fl_parse_color : List uchar → Option (uchar × uchar × uchar))
    (colorsA colorsB : ColorTable) (outA outB : Buffer) (bg : uchar × uchar × uchar)
    (gA gB : Globals) (headerA headerB : List uchar)
    (tA tB : uchar × uchar × uchar × uchar) (tsA tsB : List (uchar × uchar × uchar × uchar))
    (restA restB : List uchar)
    (rowsA rowsB : List (List uchar)) (w h : Nat) (c : Int) (σ : Nat → Nat)
    (hvA : header_ints headerA = [(w : Int), (h : Int), -((tA :: tsA).length : Int), c])
    (hvB : header_ints headerB = [(w : Int), (h : Int), -((tB :: tsB).length : Int), c])
    (hw : 0 < w) (hh : 0 < h) (hc : c = 1 ∨ c = 2)
    (hdA : (tA :: tsA).Pairwise (fun a b => a.1 ≠ b.1))
    (hdB : (tB :: tsB).Pairwise (fun a b => a.1 ≠ b.1))
    (hperm :
      (tA.1 = 32 ∧ tB.1 = 32 ∧ σ 32 = 32 ∧
        List.Perm (tsA.map (fun t => (σ t.1.val, t.2))) (tsB.map (fun t => (t.1.val, t.2)))) ∨
      (tA.1 ≠ 32 ∧ tB.1 ≠ 32 ∧
        List.Perm ((tA :: tsA).map (fun t => (σ t.1.val, t.2)))
          ((tB :: tsB).map (fun t => (t.1.val, t.2)))))
    (hlisted : ∀ Y X, Y < h → X < w →
      ∃ t ∈ tA :: tsA, t.1.val = pixel_code c (rowsA.getD Y []) X)
    (hgrid : ∀ Y X, Y < h → X < w →
      pixel_code c (rowsB.getD Y []) X = σ (pixel_code c (rowsA.getD Y []) X))
    (hneedA : gA.need_pixmap_bg_color = 0) (hneedB : gB.need_pixmap_bg_color = 0) :
    ∃ rA rB,
      fl_convert_pixmap fl_parse_color colorsA
        (headerA :: (compact_bytes (tA :: tsA) ++ restA) :: rowsA) outA bg gA = some rA ∧
      fl_convert_pixmap fl_parse_color colorsB
        (headerB :: (compact_bytes (tB :: tsB) ++ restB) :: rowsB) outB bg gB = some rB ∧
      rA.ret = 1 ∧ rB.ret = 1 ∧ ∀ a, a < 4 * (h * w) → rA.out a = rB.out a := by
  obtain ⟨rA, hrA, hretA, houtA, -⟩ := fl_convert_pixmap_plain fl_parse_color colorsA
    (headerA :: (compact_bytes (tA :: tsA) ++ restA) :: rowsA) outA bg gA w h _ c hvA hw hh
    hc hneedA
  obtain ⟨rB, hrB, hretB, houtB, -⟩ := fl_convert_pixmap_plain fl_parse_color colorsB
    (headerB :: (compact_bytes (tB :: tsB) ++ restB) :: rowsB) outB bg gB w h _ c hvB hw hh
    hc hneedB
  refine ⟨rA, rB, hrA, hrB, hretA, hretB, ?_⟩
  have hdvA : (tA :: tsA).Pairwise (fun a b => a.1.val ≠ b.1.val) :=
    hdA.imp (fun hab hv => hab (Fin.ext hv))
  have hdvB : (tB :: tsB).Pairwise (fun a b => a.1.val ≠ b.1.val) :=
    hdB.imp (fun hab hv => hab (Fin.ext hv))
  rw [houtA, houtB, List.tail_cons, List.tail_cons]
  rcases hperm with ⟨hA32, hB32, hσ, hp⟩ | ⟨hA32, hB32, hp⟩
  · obtain ⟨hcolA, hdataA, -, -⟩ := colormap_compact_space fl_parse_color colorsA bg c
      gA.used_colors tA tsA restA rowsA hA32
    obtain ⟨hcolB, hdataB, -, -⟩ := colormap_compact_space fl_parse_color colorsB bg c
      gB.used_colors tB tsB restB rowsB hB32
    rw [hcolA, hcolB, hdataA, hdataB]
    apply raster_agree c _ _ w h rowsA rowsB outA outB σ hgrid
    intro Y X hY hX
    obtain ⟨t, ht, hcode⟩ := hlisted Y X hY hX
    rw [List.pairwise_cons] at hdA hdB hdvA hdvB
    rcases List.mem_cons.1 ht with rfl | hmemA
    · have hk : t.1.val = 32 := by rw [hA32]; rfl
      rw [← hcode, hk]
      rw [foldl_update_other (fun x : uchar × uchar × uchar × uchar => x.1.val) _ 32 tsA _
        (fun x hx hx32 => hdA.1 x hx (by rw [hA32]; exact Fin.ext hx32.symm))]
      rw [hσ]
      rw [foldl_update_other (fun x : uchar × uchar × uchar × uchar => x.1.val) _ 32 tsB _
        (fun x hx hx32 => hdB.1 x hx (by rw [hB32]; exact Fin.ext hx32.symm))]
      simp only [Function.update_same]
    · have hmem : (σ t.1.val, t.2) ∈ tsB.map (fun t => (t.1.val, t.2)) :=
        hp.subset (List.mem_map.2 ⟨t, hmemA, rfl⟩)
      obtain ⟨t', ht', he⟩ := List.mem_map.1 hmem
      simp only [Prod.mk.injEq] at he
      rw [← hcode, ← he.1,
        foldl_update_mem (fun x : uchar × uchar × uchar × uchar => x.1.val)
          (fun x => (x.2.1, x.2.2.1, x.2.2.2, 255)) tsB _ hdvB.2 t' ht',
        foldl_update_mem (fun x : uchar × uchar × uchar × uchar => x.1.val)
          (fun x => (x.2.1, x.2.2.1, x.2.2.2, 255)) tsA _ hdvA.2 t hmemA, he.2]
  · obtain ⟨hcolA, hdataA, -⟩ := colormap_compact_plain fl_parse_color colorsA bg c
      gA.used_colors tA tsA restA rowsA hA32
    obtain ⟨hcolB, hdataB, -⟩ := colormap_compact_plain fl_parse_color colorsB bg c
      gB.used_colors tB tsB restB rowsB hB32
    rw [hcolA, hcolB, hdataA, hdataB]
    apply raster_agree c _ _ w h rowsA rowsB outA outB σ hgrid
    intro Y X hY hX
    obtain ⟨t, ht, hcode⟩ := hlisted Y X hY hX
    have hmem : (σ t.1.val, t.2) ∈ (tB :: tsB).map (fun t => (t.1.val, t.2)) :=
      hp.subset (List.mem_map.2 ⟨t, ht, rfl⟩)
    obtain ⟨t', ht', he⟩ := List.mem_map.1 hmem
    simp only [Prod.mk.injEq] at he
    rw [← hcode, ← he.1,
      foldl_update_mem (fun x : uchar × uchar × uchar × uchar => x.1.val)
        (fun x => (x.2.1, x.2.2.1, x.2.2.2, 255)) (tB :: tsB) _ hdvB t' ht',
      foldl_update_mem (fun x : uchar × uchar × uchar × uchar => x.1.val)
        (fun x => (x.2.1, x.2.2.1, x.2.2.2, 255)) (tA :: tsA) _ hdvA t ht, he.2]

/-- The mask that `fl_draw_pixmap` hands over is the result of the mask loop on the decoded
buffer, for the width and height of the header. -/
theorem fl_draw_pixmap_mask (fl_parse_color : List uchar → Option (uchar × uchar × uchar))
    (colors0 : ColorTable) (buffer0 : Buffer) (want_mask : Bool)
    (cdata : List (List uchar)) (bg : uchar × uchar × uchar) (g : Globals) (d : DrawResult)
    (hd : fl_draw_pixmap fl_parse_color colors0 buffer0 want_mask cdata bg g = some d)
    (hret : d.ret = 1) :
    d.mask =
      if want_mask then
        some (mask_bitmap d.buffer (fl_measure_pixmap (cdata.headD []) 0 0 g).w.toNat
          (fl_measure_pixmap (cdata.headD []) 0 0 g).h.toNat)
      else none := by
  unfold fl_draw_pixmap at hd
  simp only [] at hd
  split at hd
  · simp only [Option.some.injEq] at hd
    rw [← hd] at hret
    exact absurd hret (by simp)
  · split at hd
    · exact absurd hd (by simp)
    · split at hd
      · simp only [Option.some.injEq] at hd
        rw [← hd] at hret
        exact absurd hret (by simp)
      · simp only [Option.some.injEq] at hd
        rw [← hd]

/-- The measure fails exactly on its four failure conditions, and on success reports the
first two integers of the line. -/
theorem measure_failure_iff (line : List uchar) (w0 h0 : Int) (g : Globals) :
    ((fl_measure_pixmap line w0 h0 g).ret = 0 ↔
      ((header_ints line).length < 4 ∨ (header_ints line).getD 0 0 ≤ 0 ∨
        (header_ints line).getD 1 0 ≤ 0 ∨
        ((header_ints line).getD 3 0 ≠ 1 ∧ (header_ints line).getD 3 0 ≠ 2))) ∧
    ((fl_measure_pixmap line w0 h0 g).ret ≠ 0 →
      (header_ints line)[0]? = some (fl_measure_pixmap line w0 h0 g).w ∧
      (header_ints line)[1]? = some (fl_measure_pixmap line w0 h0 g).h) := by
  rcases fl_measure_pixmap_eq line w0 h0 g with ⟨w, h, n, c, hv, hw, hh, hc, he⟩ | ⟨hn, h1, -, -⟩
  · rw [he, hv]
    refine ⟨⟨fun h => absurd h Int.one_ne_zero, ?_⟩, fun _ => ⟨rfl, rfl⟩⟩
    simp only [List.length_cons, List.length_nil, List.getD_cons_zero, List.getD_cons_succ]
    rintro (h1 | h1 | h1 | h1)
    · omega
    · omega
    · omega
    · rcases hc with h2 | h2
      · exact absurd h2 h1.1
      · exact absurd h2 h1.2
  · refine ⟨⟨fun _ => ?_, fun _ => h1⟩, fun h => absurd h1 h⟩
    by_contra hc
    push_neg at hc
    have h4 : (header_ints line).length = 4 := by
      have := header_ints_length_le line
      omega
    obtain ⟨w, h, n, c, hv⟩ := length_four_cases _ h4
    rw [hv] at hc
    simp only [List.getD_cons_zero, List.getD_cons_succ] at hc
    apply hn
    refine ⟨w, h, n, c, hv, hc.2.1, hc.2.2.1, ?_⟩
    by_cases h1 : c = 1
    · exact Or.inl h1
    · exact Or.inr (hc.2.2.2 h1)

/-! ## The header scan and the integers of the line -/

theorem store_int_in_range (v : Int) (h1 : -2147483648 ≤ v) (h2 : v ≤ 2147483647) :
    store_int v = v := by
  unfold store_int
  omega

theorem store_int_range (v : Int) : -2147483648 ≤ store_int v ∧ store_int v ≤ 2147483647 := by
  unfold store_int
  omega

/-- A `%d` directive stores the integer written in the text when that integer fits an
`int`. -/
theorem scan_int_of_spec (s : List uchar) (v : Int) (rest : List uchar)
    (h : spec_int s = some (v, rest)) (h1 : -2147483648 ≤ v) (h2 : v ≤ 2147483647) :
    scan_int s = Conv.value v rest := by
  unfold spec_int at h
  unfold scan_int
  cases hs : skip_space s with
  | nil => rw [hs] at h; exact absurd h (by simp)
  | cons c t =>
    rw [hs] at h
    simp only [] at h ⊢
    generalize (if c.val = 45 ∨ c.val = 43 then t else c :: t) = body at h ⊢
    by_cases hd : isdigit (peek body) = true
    · rw [if_pos hd] at h ⊢
      simp only [Option.some.injEq, Prod.mk.injEq] at h
      obtain ⟨hv, hrest⟩ := h
      rw [hrest]
      congr 1
      by_cases hc : c.val = 45
      · rw [if_pos hc] at hv
        simp only [hc, decide_True, strtol_value, if_true]
        rw [if_pos (by omega), hv]
        exact store_int_in_range v h1 h2
      · rw [if_neg hc] at hv
        simp only [hc, decide_False, strtol_value, Bool.false_eq_true, if_false]
        rw [if_pos (by omega), hv]
        exact store_int_in_range v h1 h2
    · rw [if_neg hd] at h
      exact absurd h (by simp)

/-- A `%d` directive fails when no integer is written in the text. -/
theorem scan_int_of_spec_none (s : List uchar) (h : spec_int s = none) :
    scan_int s = Conv.matching_failure ∨ scan_int s = Conv.input_failure := by
  unfold spec_int at h
  unfold scan_int
  cases hs : skip_space s with
  | nil => right; rfl
  | cons c t =>
    rw [hs] at h
    simp only [] at h ⊢
    generalize (if c.val = 45 ∨ c.val = 43 then t else c :: t) = body at h ⊢
    by_cases hd : isdigit (peek body) = true
    · rw [if_pos hd] at h
      exact absurd h (by simp)
    · left
      rw [if_neg hd]

/-- The `%d` directives store the integers written on the line when these fit an `int`. -/
theorem scan_ints_eq_spec :
    ∀ (n : Nat) (s : List uchar),
      (∀ v ∈ spec_ints n s, -2147483648 ≤ v ∧ v ≤ 2147483647) →
      (scan_ints n s).1 = spec_ints n s := by
  intro n
  induction n with
  | zero => intro s _; rfl
  | succ n ih =>
    intro s hr
    unfold scan_ints
    unfold spec_ints at hr ⊢
    cases hsp : spec_int s with
    | none =>
      rcases scan_int_of_spec_none s hsp with h | h <;> rw [h]
    | some p =>
      obtain ⟨v, rest⟩ := p
      rw [hsp] at hr
      simp only [List.mem_cons, forall_eq_or_imp] at hr
      rw [scan_int_of_spec s v rest hsp hr.1.1 hr.1.2]
      simp only []
      rw [ih rest hr.2]

theorem header_ints_eq_spec (line : List uchar)
    (hr : ∀ v ∈ spec_line_ints line, -2147483648 ≤ v ∧ v ≤ 2147483647) :
    header_ints line = spec_line_ints line :=
  scan_ints_eq_spec 4 (cstring line) hr

/-- The scan of a run of digits that ends before a byte that is not a digit. -/
theorem scan_digits_append (rest : List uchar) (hr : isdigit (peek rest) = false) :
    ∀ (l : List uchar) (a : Nat), (∀ c ∈ l, isdigit c = true) →
      scan_digits (l ++ rest) a = (l.foldl (fun a c => a * 10 + (c.val - 48)) a, rest) := by
  intro l
  induction l with
  | nil =>
    intro a _
    cases rest with
    | nil => rfl
    | cons c t =>
      have hc : isdigit c = false := hr
      simp [scan_digits, hc]
  | cons c cs ih =>
    intro a h
    have hc := h c (List.mem_cons_self _ _)
    rw [List.cons_append, scan_digits, if_pos hc, List.foldl_cons]
    exact ih _ (fun d hd => h d (List.mem_cons_of_mem _ hd))

theorem digit_val (k : Nat) (hk : k < 10) : ((Fin.ofNat (48 + k) : uchar)).val = 48 + k := by
  show (48 + k) % 256 = 48 + k
  omega

theorem digit_isdigit (k : Nat) (hk : k < 10) : isdigit (Fin.ofNat (48 + k) : uchar) = true := by
  unfold isdigit
  rw [digit_val k hk]
  simp
  omega

theorem decimal_digits_isdigit :
    ∀ (fuel n : Nat), ∀ c ∈ decimal_digits fuel n, isdigit c = true := by
  intro fuel
  induction fuel with
  | zero => intro n c hc; cases hc
  | succ fuel ih =>
    intro n c hc
    rw [decimal_digits, List.mem_append] at hc
    rcases hc with hc | hc
    · split at hc
      · cases hc
      · exact ih _ c hc
    · rw [List.mem_singleton] at hc
      rw [hc]
      exact digit_isdigit _ (Nat.mod_lt _ (by decide))

theorem decimal_digits_value :
    ∀ (fuel n : Nat), n < fuel →
      (decimal_digits fuel n).foldl (fun a c => a * 10 + (c.val - 48)) 0 = n := by
  intro fuel
  induction fuel with
  | zero => intro n h; omega
  | succ fuel ih =>
    intro n h
    rw [decimal_digits, List.foldl_append, List.foldl_cons, List.foldl_nil,
      digit_val _ (Nat.mod_lt _ (by decide))]
    by_cases h10 : n < 10
    · rw [if_pos h10, List.foldl_nil]
      omega
    · rw [if_neg h10, ih (n / 10) (by omega)]
      omega

theorem decimal_digits_ne_nil (fuel n : Nat) : decimal_digits (fuel + 1) n ≠ [] := by
  rw [decimal_digits]
  simp

/-- The first byte of a run of decimal digits is a digit. -/
theorem decimal_digits_peek (fuel n : Nat) (rest : List uchar) :
    isdigit (peek (decimal_digits (fuel + 1) n ++ rest)) = true := by
  have hne := decimal_digits_ne_nil fuel n
  cases hd : decimal_digits (fuel + 1) n with
  | nil => exact absurd hd hne
  | cons c cs =>
    have := decimal_digits_isdigit (fuel + 1) n c (by rw [hd]; exact List.mem_cons_self _ _)
    exact this

theorem isdigit_not_space (c : uchar) (h : isdigit c = true) :
    isspace c = false ∧ c.val ≠ 45 ∧ c.val ≠ 43 ∧ c.val ≠ 0 := by
  unfold isdigit at h
  unfold isspace
  simp only [Bool.and_eq_true, decide_eq_true_eq] at h
  refine ⟨?_, by omega, by omega, by omega⟩
  simp
  omega

/-- The integer written at the start of a text that begins with a decimal numeral is the
number of the numeral. -/
theorem spec_int_decimal (v : Int) (rest : List uchar) (hr : isdigit (peek rest) = false) :
    spec_int (decimal v ++ rest) = some (v, rest) := by
  have hval := decimal_digits_value (v.natAbs + 1) v.natAbs (by omega)
  have hdig := decimal_digits_isdigit (v.natAbs + 1) v.natAbs
  have hpk := decimal_digits_peek v.natAbs v.natAbs rest
  have hscan := scan_digits_append rest hr (decimal_digits (v.natAbs + 1) v.natAbs) 0 hdig
  rw [hval] at hscan
  unfold decimal
  by_cases hv : v < 0
  · rw [if_pos hv, List.cons_append]
    unfold spec_int
    have hsk : skip_space (45 :: (decimal_digits (v.natAbs + 1) v.natAbs ++ rest)) =
        45 :: (decimal_digits (v.natAbs + 1) v.natAbs ++ rest) := by
      rw [skip_space, if_neg (by decide)]
    have e45 : ((45 : uchar)).val = 45 := rfl
    rw [hsk]
    simp only [e45, true_or, if_true, hpk, hscan]
    congr 2
    omega
  · rw [if_neg hv]
    cases hd : decimal_digits (v.natAbs + 1) v.natAbs with
    | nil => exact absurd hd (decimal_digits_ne_nil _ _)
    | cons c cs =>
      have hc := hdig c (by rw [hd]; exact List.mem_cons_self _ _)
      obtain ⟨hsp, h45, h43, -⟩ := isdigit_not_space c hc
      rw [hd] at hscan hpk
      rw [List.cons_append] at hscan hpk ⊢
      unfold spec_int
      have hsk : skip_space (c :: (cs ++ rest)) = c :: (cs ++ rest) := by
        rw [skip_space, hsp]
        rfl
      rw [hsk]
      simp only [h45, h43, or_self, if_false, hpk, hscan, if_true]
      congr 2
      omega

theorem cstring_of_nonzero : ∀ l : List uchar, (∀ c ∈ l, c.val ≠ 0) → cstring l = l := by
  intro l
  induction l with
  | nil => intro _; rfl
  | cons c cs ih =>
    intro h
    rw [cstring, if_neg (h c (List.mem_cons_self _ _)),
      ih (fun d hd => h d (List.mem_cons_of_mem _ hd))]

theorem decimal_nonzero (v : Int) : ∀ c ∈ decimal v, c.val ≠ 0 := by
  intro c hc
  unfold decimal at hc
  have hdig := decimal_digits_isdigit (v.natAbs + 1) v.natAbs
  split at hc
  · rcases List.mem_cons.1 hc with rfl | hc
    · decide
    · exact (isdigit_not_space c (hdig c hc)).2.2.2
  · exact (isdigit_not_space c (hdig c hc)).2.2.2

theorem spec_int_space (s : List uchar) : spec_int (32 :: s) = spec_int s := by
  unfold spec_int
  have h : skip_space (32 :: s) = skip_space s := by
    rw [skip_space, if_pos (by decide)]
  rw [h]

/-- The integers of the header line that carries `a`, `b`, `c` and `d` are these four. -/
theorem spec_line_ints_header_line (a b c d : Int) :
    spec_line_ints (header_line a b c d) = [a, b, c, d] := by
  have hnz : ∀ x ∈ header_line a b c d, x.val ≠ 0 := by
    intro x hx
    unfold header_line at hx
    simp only [List.mem_append, List.mem_cons] at hx
    rcases hx with hx | rfl | hx | rfl | hx | rfl | hx
    · exact decimal_nonzero a x hx
    · decide
    · exact decimal_nonzero b x hx
    · decide
    · exact decimal_nonzero c x hx
    · decide
    · exact decimal_nonzero d x hx
  unfold spec_line_ints
  rw [cstring_of_nonzero _ hnz]
  unfold header_line
  have hd : spec_int (decimal d) = some (d, []) := by
    have := spec_int_decimal d [] rfl
    rwa [List.append_nil] at this
  simp only [spec_ints, spec_int_decimal _ (32 :: _) rfl, spec_int_space, hd]

/-- C1, as the code behaves: `sscanf` stores each integer of the line into a 32-bit `int`.
The line "4294967296 1 1 1" carries four integers, with positive width and height and one
byte per pixel, so none of the four failure conditions holds for the integers of the line;
the width is stored as 0 and `fl_measure_pixmap` returns 0.  For the line
"4294967297 1 1 1" it returns 1 and reports the width 1, which is not the first integer of
the line. -/
theorem fl_measure_pixmap_numeral_out_of_range :
    spec_line_ints (ascii "4294967296 1 1 1") = [4294967296, 1, 1, 1] ∧
    (fl_measure_pixmap (ascii "4294967296 1 1 1") 0 0 sample_globals).ret = 0 ∧
    ¬ ((fl_measure_pixmap (ascii "4294967296 1 1 1") 0 0 sample_globals).ret = 0 ↔
      ((spec_line_ints (ascii "4294967296 1 1 1")).length < 4 ∨
        (spec_line_ints (ascii "4294967296 1 1 1")).getD 0 0 ≤ 0 ∨
        (spec_line_ints (ascii "4294967296 1 1 1")).getD 1 0 ≤ 0 ∨
        ((spec_line_ints (ascii "4294967296 1 1 1")).getD 3 0 ≠ 1 ∧
          (spec_line_ints (ascii "4294967296 1 1 1")).getD 3 0 ≠ 2))) ∧
    spec_line_ints (ascii "4294967297 1 1 1") = [4294967297, 1, 1, 1] ∧
    (fl_measure_pixmap (ascii "4294967297 1 1 1") 0 0 sample_globals).ret = 1 ∧
    (fl_measure_pixmap (ascii "4294967297 1 1 1") 0 0 sample_globals).w = 1 := by
  refine ⟨by decide, by decide, by decide, by decide, by decide, by decide⟩

/-- C1 as amended: for every first data line whose integers fit the 32-bit `int` type
(each is at least -2147483648 and at most 2147483647), `sscanf` stores exactly the integers
of the line, `fl_measure_pixmap` returns 0 exactly when the line has fewer than four
integers, or the width is not positive, or the height is not positive, or the number of
bytes per pixel is neither 1 nor 2; and when it returns non-zero, the `w` and `h` it
reports are the first and the second integer of the line.  The integers of a line are the
numbers its numerals denote: the line made of the decimal numerals of `a`, `b`, `c`, `d`
has the integers `a`, `b`, `c`, `d`. -/
theorem fl_measure_pixmap_failure_iff (line : List uchar) (w0 h0 : Int) (g : Globals)
    (hrange : ∀ v ∈ spec_line_ints line, -2147483648 ≤ v ∧ v ≤ 2147483647) :
    header_ints line = spec_line_ints line ∧
    ((fl_measure_pixmap line w0 h0 g).ret = 0 ↔
      ((spec_line_ints line).length < 4 ∨ (spec_line_ints line).getD 0 0 ≤ 0 ∨
        (spec_line_ints line).getD 1 0 ≤ 0 ∨
        ((spec_line_ints line).getD 3 0 ≠ 1 ∧ (spec_line_ints line).getD 3 0 ≠ 2))) ∧
    ((fl_measure_pixmap line w0 h0 g).ret ≠ 0 →
      (spec_line_ints line)[0]? = some (fl_measure_pixmap line w0 h0 g).w ∧
      (spec_line_ints line)[1]? = some (fl_measure_pixmap line w0 h0 g).h) ∧
    (∀ a b c d : Int, spec_line_ints (header_line a b c d) = [a, b, c, d]) := by
  have he := header_ints_eq_spec line hrange
  have hm := measure_failure_iff line w0 h0 g
  rw [he] at hm
  exact ⟨he, hm.1, hm.2, spec_line_ints_header_line⟩

/-- C1 as amended, at the header "3 2 5 1": the integers of the line are 3, 2, 5 and 1,
the measure succeeds and reports the width 3 and the height 2. -/
theorem fl_measure_pixmap_failure_iff_witness :
    spec_line_ints (ascii "3 2 5 1") = [3, 2, 5, 1] ∧
    header_line 3 2 5 1 = ascii "3 2 5 1" ∧
    (fl_measure_pixmap (ascii "3 2 5 1") 0 0 ⟨0, 0, [], 0⟩).ret = 1 ∧
    (fl_measure_pixmap (ascii "3 2 5 1") 0 0 ⟨0, 0, [], 0⟩).w = 3 ∧
    (fl_measure_pixmap (ascii "3 2 5 1") 0 0 ⟨0, 0, [], 0⟩).h = 2 := by
  have hs : spec_line_ints (ascii "3 2 5 1") = [3, 2, 5, 1] := by decide
  obtain ⟨-, -, hwh, -⟩ := fl_measure_pixmap_failure_iff (ascii "3 2 5 1") 0 0 ⟨0, 0, [], 0⟩
    (by decide)
  obtain ⟨hw, hh⟩ := hwh (by decide)
  rw [hs] at hw hh
  simp only [List.getElem?_cons_zero, List.getElem?_cons_succ, Option.some.injEq] at hw hh
  exact ⟨hs, by decide, by decide, hw.symm, hh.symm⟩

/-- C2: whenever one of the failure conditions of `fl_measure_pixmap` holds (fewer than four
integers read, width or height not positive, bytes per pixel neither 1 nor 2), it returns 0
and reports the width 0, whatever was read before; the header "0 0 abc" is such a case. -/
theorem fl_measure_pixmap_failure_width (line : List uchar) (w0 h0 : Int) (g : Globals) :
    (((header_ints line).length < 4 ∨ (header_ints line).getD 0 0 ≤ 0 ∨
        (header_ints line).getD 1 0 ≤ 0 ∨
        ((header_ints line).getD 3 0 ≠ 1 ∧ (header_ints line).getD 3 0 ≠ 2)) →
      (fl_measure_pixmap line w0 h0 g).ret = 0 ∧ (fl_measure_pixmap line w0 h0 g).w = 0) ∧
    ((fl_measure_pixmap line w0 h0 g).ret = 0 → (fl_measure_pixmap line w0 h0 g).w = 0) ∧
    (fl_measure_pixmap (ascii "0 0 abc") w0 h0 g).ret = 0 ∧
    (fl_measure_pixmap (ascii "0 0 abc") w0 h0 g).w = 0 := by
  have key : ∀ l : List uchar, (fl_measure_pixmap l w0 h0 g).ret = 0 →
      (fl_measure_pixmap l w0 h0 g).w = 0 := by
    intro l hr
    rcases fl_measure_pixmap_eq l w0 h0 g with ⟨w, h, n, c, -, -, -, -, he⟩ | ⟨-, -, h2, -⟩
    · rw [he] at hr
      exact absurd hr Int.one_ne_zero
    · exact h2
  have hex : (fl_measure_pixmap (ascii "0 0 abc") w0 h0 g).ret = 0 := by
    rcases fl_measure_pixmap_eq (ascii "0 0 abc") w0 h0 g with
      ⟨w, h, n, c, hv, -, -, -, -⟩ | ⟨-, h1, -, -⟩
    · have hl : (header_ints (ascii "0 0 abc")).length = 2 := by decide
      rw [hv] at hl
      simp at hl
    · exact h1
  refine ⟨fun hc => ?_, key line, hex, key _ hex⟩
  have hr := (measure_failure_iff line w0 h0 g).1.2 hc
  exact ⟨hr, key line hr⟩

/-- C2 at the header "5 abc", where 5 was read into `w` before the failure. -/
theorem fl_measure_pixmap_failure_width_witness :
    (fl_measure_pixmap (ascii "5 abc") 7 7 ⟨0, 0, [], 0⟩).ret = 0 ∧
      (fl_measure_pixmap (ascii "5 abc") 7 7 ⟨0, 0, [], 0⟩).w = 0 :=
  (fl_measure_pixmap_failure_width (ascii "5 abc") 7 7 ⟨0, 0, [], 0⟩).1 (by decide)

/-- C3: `fl_convert_pixmap` returns 0 exactly when `fl_measure_pixmap` fails on the same
data, whatever the colour parser does with the colour specifications; when it returns 0 the
output buffer is unchanged; otherwise it returns 1, and it does return when background
substitution is disabled or the colour count is below the number of RGB triples. -/
theorem fl_convert_pixmap_zero_iff
    (fl_parse_color : List uchar → Option (uchar × uchar × uchar))
    (colors0 : ColorTable) (cdata : List (List uchar)) (out : Buffer)
    (bg : uchar × uchar × uchar) (g : Globals) (w0 h0 : Int) :
    ((∃ r, fl_convert_pixmap fl_parse_color colors0 cdata out bg g = some r ∧ r.ret = 0) ↔
      (fl_measure_pixmap (cdata.headD []) w0 h0 g).ret = 0) ∧
    (∀ r, fl_convert_pixmap fl_parse_color colors0 cdata out bg g = some r → r.ret = 0 →
      r.out = out) ∧
    ((fl_measure_pixmap (cdata.headD []) w0 h0 g).ret ≠ 0 →
      (g.need_pixmap_bg_color = 0 ∨
        ((header_ints (cdata.headD [])).getD 2 0).natAbs < 16777216) →
      ∃ r, fl_convert_pixmap fl_parse_color colors0 cdata out bg g = some r ∧ r.ret = 1) := by
  have hinit := (fl_measure_pixmap_init (cdata.headD []) w0 h0 0 0 g).1
  rw [hinit]
  refine ⟨⟨?_, ?_⟩, ?_, ?_⟩
  · rintro ⟨r, hr, h0⟩
    rcases fl_convert_pixmap_ret fl_parse_color colors0 cdata out bg g r hr with h | h
    · exact h.1
    · rw [h.2] at h0
      exact absurd h0 Int.one_ne_zero
  · intro h
    exact ⟨_, fl_convert_pixmap_rejected fl_parse_color colors0 cdata out bg g h, rfl⟩
  · intro r hr h0
    rcases fl_convert_pixmap_ret fl_parse_color colors0 cdata out bg g r hr with h | h
    · exact h.2.2
    · rw [h.2] at h0
      exact absurd h0 Int.one_ne_zero
  · intro hm hterm
    rcases fl_measure_pixmap_eq (cdata.headD []) 0 0 g with
      ⟨w, h, n, c, hv, hw, hh, hc, -⟩ | ⟨-, h0, -, -⟩
    · rw [hv] at hterm
      exact fl_convert_pixmap_returns fl_parse_color colors0 cdata out bg g w h n c hv hw hh
        hc hterm
    · exact absurd h0 hm

/-- C3 at an image with the header "1 1 1 1" and a colour line the parser rejects: the
decode returns 1. -/
theorem fl_convert_pixmap_zero_iff_witness :
    ∃ r, fl_convert_pixmap parse_nothing sample_table
        [ascii "1 1 1 1", ascii "a c None", ascii "a"] sample_buffer (7, 8, 9)
        sample_globals = some r ∧ r.ret = 1 :=
  (fl_convert_pixmap_zero_iff parse_nothing sample_table
    [ascii "1 1 1 1", ascii "a c None", ascii "a"] sample_buffer (7, 8, 9) sample_globals
    0 0).2.2 (by decide) (Or.inl rfl)

/-- C4: for a valid image in named encoding (colour count >= 0, 1 or 2 bytes per pixel)
whose colour lines have pairwise distinct codes, decoded with background substitution
disabled, `fl_convert_pixmap` returns 1 and the four bytes at offset `4*(Y*width+X)` are
`(r,g,b,255)`, where `(r,g,b)` is what the colour parser returns for the colour line whose
code is the pixel code at column `X` of row `Y`, or the background colour when the parser
rejects the text of that line. -/
theorem fl_convert_pixmap_named_pixels
    (fl_parse_color : List uchar → Option (uchar × uchar × uchar))
    (colors0 : ColorTable) (out : Buffer) (bg : uchar × uchar × uchar) (g : Globals)
    (header : List uchar) (lines rows : List (List uchar)) (w h : Nat) (c : Int)
    (hv : header_ints header = [(w : Int), (h : Int), (lines.length : Int), c])
    (hw : 0 < w) (hh : 0 < h) (hc : c = 1 ∨ c = 2)
    (hd : lines.Pairwise (fun a b => entry_code c a ≠ entry_code c b))
    (hneed : g.need_pixmap_bg_color = 0) :
    ∃ r, fl_convert_pixmap fl_parse_color colors0 (header :: (lines ++ rows)) out bg g =
        some r ∧ r.ret = 1 ∧
      ∀ Y X, Y < h → X < w → ∀ line ∈ lines,
        entry_code c line = pixel_code c (rows.getD Y []) X →
        (r.out (4 * (Y * w + X)), r.out (4 * (Y * w + X) + 1), r.out (4 * (Y * w + X) + 2),
            r.out (4 * (Y * w + X) + 3)) =
          match fl_parse_color (entry_spec c line) with
          | some rgb => (rgb.1, rgb.2.1, rgb.2.2, 255)
          | none => (bg.1, bg.2.1, bg.2.2, 255) := by
  obtain ⟨r, hr, hret, hpx, -⟩ := convert_named_pixels fl_parse_color colors0 out bg g
    header lines rows w h c hv hw hh hc hd hneed
  exact ⟨r, hr, hret, fun Y X hY hX line hl hcode => hpx Y X hY hX line hl hcode⟩

/-- C4 at the image "2 1 2 1" / "a c red" / "b c None" / "ab": the first pixel is red, the
second is the background colour, both with alpha 255. -/
theorem fl_convert_pixmap_named_pixels_witness :
    ∃ r, fl_convert_pixmap parse_sample sample_table
        (ascii "2 1 2 1" :: ([ascii "a c red", ascii "b c None"] ++ [ascii "ab"]))
        sample_buffer (7, 8, 9) sample_globals = some r ∧
      (r.out 0, r.out 1, r.out 2, r.out 3) = (255, 0, 0, 255) ∧
      (r.out 4, r.out 5, r.out 6, r.out 7) = (7, 8, 9, 255) := by
  obtain ⟨r, hr, -, hpx⟩ := fl_convert_pixmap_named_pixels parse_sample sample_table
    sample_buffer (7, 8, 9) sample_globals (ascii "2 1 2 1")
    [ascii "a c red", ascii "b c None"] [ascii "ab"] 2 1 1 (by decide) (by decide)
    (by decide) (by decide) (by decide) rfl
  refine ⟨r, hr, ?_, ?_⟩
  · have h0 := hpx 0 0 (by decide) (by decide) (ascii "a c red") (by decide) (by decide)
    have e : parse_sample (entry_spec 1 (ascii "a c red")) = some (255, 0, 0) := by decide
    rw [e] at h0
    exact h0
  · have h1 := hpx 0 1 (by decide) (by decide) (ascii "b c None") (by decide) (by decide)
    have e : parse_sample (entry_spec 1 (ascii "b c None")) = none := by decide
    rw [e] at h1
    exact h1

/-- C5: for a valid image in compact encoding (colour count `-N < 0`, 1 byte per pixel)
whose `N` tuples have pairwise distinct codes, decoded with background substitution
disabled: when the first tuple has the code `' '`, every pixel with the code `' '` is
`(bgR,bgG,bgB,0)` and the loop reads exactly the remaining `N-1` tuples; every tuple
`(code,r,g,b)` other than a first `' '` tuple makes the pixels with its code `(r,g,b,255)`,
a `' '` tuple in a later place included. -/
theorem fl_convert_pixmap_compact_pixels
    (fl_parse_color : List uchar → Option (uchar × uchar × uchar))
    (colors0 : ColorTable) (out : Buffer) (bg : uchar × uchar × uchar) (g : Globals)
    (header : List uchar) (tuples : List (uchar × uchar × uchar × uchar)) (rest : List uchar)
    (rows : List (List uchar)) (w h : Nat)
    (hv : header_ints header = [(w : Int), (h : Int), -(tuples.length : Int), 1])
    (hw : 0 < w) (hh : 0 < h) (hN : 0 < tuples.length)
    (hd : tuples.Pairwise (fun a b => a.1 ≠ b.1))
    (hneed : g.need_pixmap_bg_color = 0) :
    ∃ r, fl_convert_pixmap fl_parse_color colors0
        (header :: (compact_bytes tuples ++ rest) :: rows) out bg g = some r ∧ r.ret = 1 ∧
      (∀ t0, tuples.head? = some t0 → t0.1 = 32 →
        (∀ Y X, Y < h → X < w → pixel_code 1 (rows.getD Y []) X = 32 →
          pixel_at r.out (Y * w + X) = (bg.1, bg.2.1, bg.2.2, 0)) ∧
        r.g.ncolors = (tuples.length : Int) - 1 ∧
        (compact_colormap bg false
          { colors := colors0, used := g.used_colors, transparent_c := none,
            data := (compact_bytes tuples ++ rest) :: rows,
            ncolors := -(tuples.length : Int) }).2 = rest) ∧
      (∀ j t, tuples[j]? = some t → ¬ (j = 0 ∧ t.1 = 32) →
        ∀ Y X, Y < h → X < w → pixel_code 1 (rows.getD Y []) X = t.1.val →
          pixel_at r.out (Y * w + X) = (t.2.1, t.2.2.1, t.2.2.2, 255)) := by
  obtain ⟨r, hr, hret, hout, hnc⟩ := fl_convert_pixmap_plain fl_parse_color colors0
    (header :: (compact_bytes tuples ++ rest) :: rows) out bg g w h
    (-(tuples.length : Int)) 1 hv hw hh (Or.inl rfl) hneed
  refine ⟨r, hr, hret, ?_⟩
  rw [List.tail_cons] at hout hnc
  have hdv : tuples.Pairwise (fun a b => a.1.val ≠ b.1.val) :=
    hd.imp (fun hab hv => hab (Fin.ext hv))
  match tuples, hN, hd, hdv, hout, hnc with
  | t :: ts, _, hd, hdv, hout, hnc =>
    by_cases ht : t.1 = 32
    · obtain ⟨hcol, hdata, hncol, hp⟩ := colormap_compact_space fl_parse_color colors0 bg 1
        g.used_colors t ts rest rows ht
      rw [List.pairwise_cons] at hd hdv
      refine ⟨?_, ?_⟩
      · intro t0 _ _
        refine ⟨?_, ?_, hp⟩
        · intro Y X hY hX hcode
          rw [hout, hcol, hdata, raster_pixel _ _ _ _ _ _ _ _ hY hX, hcode]
          rw [foldl_update_other (fun x : uchar × uchar × uchar × uchar => x.1.val) _ 32 ts _
            (fun x hx hx32 => hd.1 x hx (by rw [ht]; exact Fin.ext hx32.symm))]
          exact Function.update_same _ _ _
        · rw [hnc, hncol]
          simp only [List.length_cons]
          omega
      · intro j u hj hnot Y X hY hX hcode
        rw [hout, hcol, hdata, raster_pixel _ _ _ _ _ _ _ _ hY hX, hcode]
        cases j with
        | zero =>
          simp only [List.getElem?_cons_zero, Option.some.injEq] at hj
          exact absurd ⟨rfl, hj ▸ ht⟩ hnot
        | succ j =>
          simp only [List.getElem?_cons_succ] at hj
          have hmem : u ∈ ts := List.getElem?_mem hj
          exact foldl_update_mem (fun x : uchar × uchar × uchar × uchar => x.1.val)
            (fun x => (x.2.1, x.2.2.1, x.2.2.2, 255)) ts _ hdv.2 u hmem
    · obtain ⟨hcol, hdata, -⟩ := colormap_compact_plain fl_parse_color colors0 bg 1
        g.used_colors t ts rest rows ht
      refine ⟨?_, ?_⟩
      · intro t0 h0 h32
        simp only [List.head?_cons, Option.some.injEq] at h0
        exact absurd (h0 ▸ h32) ht
      · intro j u hj hnot Y X hY hX hcode
        rw [hout, hcol, hdata, raster_pixel _ _ _ _ _ _ _ _ hY hX, hcode]
        have hmem : u ∈ t :: ts := List.getElem?_mem hj
        exact foldl_update_mem (fun x : uchar × uchar × uchar × uchar => x.1.val)
          (fun x => (x.2.1, x.2.2.1, x.2.2.2, 255)) (t :: ts) _ hdv u hmem

/-- C5 at the image "2 1 -2 1" with the tuples (' ',10,20,30), ('a',1,2,3) and the pixel
row " a": the first pixel is the background colour with alpha 0, the second is (1,2,3,255),
and one tuple is read after the transparent one. -/
theorem fl_convert_pixmap_compact_pixels_witness :
    ∃ r, fl_convert_pixmap parse_nothing sample_table
        (ascii "2 1 -2 1" :: (compact_bytes [(32, 10, 20, 30), (97, 1, 2, 3)] ++ []) ::
          [ascii " a"])
        sample_buffer (7, 8, 9) sample_globals = some r ∧
      pixel_at r.out 0 = (7, 8, 9, 0) ∧ pixel_at r.out 1 = (1, 2, 3, 255) ∧
      r.g.ncolors = 1 := by
  obtain ⟨r, hr, -, h1, h2⟩ := fl_convert_pixmap_compact_pixels parse_nothing sample_table
    sample_buffer (7, 8, 9) sample_globals (ascii "2 1 -2 1")
    [(32, 10, 20, 30), (97, 1, 2, 3)] [] [ascii " a"] 2 1 (by decide) (by decide) (by decide)
    (by decide) (by decide) rfl
  obtain ⟨ha, hb, -⟩ := h1 (32, 10, 20, 30) rfl rfl
  exact ⟨r, hr, ha 0 0 (by decide) (by decide) (by decide),
    h2 1 (97, 1, 2, 3) rfl (by decide) 0 1 (by decide) (by decide) (by decide), hb⟩

/-- C6, as the code behaves: with the header "2 1 1 1" the colour count is positive, so the
entry `(' ', 10, 20, 30)` is read as a colour line of the named encoding.  With a parser
that rejects its text both pixels are the background colour with alpha 255, and with no
parser, background colour or table content is the alpha byte of the first pixel 0. -/
theorem fl_convert_pixmap_scenario_alpha_opaque :
    (fl_convert_pixmap parse_nothing sample_table
        [ascii "2 1 1 1", [32, 10, 20, 30], ascii "  "] sample_buffer (7, 8, 9)
        sample_globals).map (fun r => (r.ret, (List.range 8).map r.out)) =
      some (1, [7, 8, 9, 255, 7, 8, 9, 255]) ∧
    ¬ ∃ (fl_parse_color : List uchar → Option (uchar × uchar × uchar))
        (colors0 : ColorTable) (out : Buffer) (bg : uchar × uchar × uchar) (g : Globals)
        (r : ConvertResult),
        g.need_pixmap_bg_color = 0 ∧
        fl_convert_pixmap fl_parse_color colors0
          [ascii "2 1 1 1", [32, 10, 20, 30], ascii "  "] out bg g = some r ∧
        r.out 3 = 0 := by
  refine ⟨by decide, ?_⟩
  rintro ⟨fl_parse_color, colors0, out, bg, g, r, hneed, hr, h3⟩
  obtain ⟨r', hr', -, hpx, -⟩ := convert_named_pixels fl_parse_color colors0 out bg g
    (ascii "2 1 1 1") [[32, 10, 20, 30]] [ascii "  "] 2 1 1 (by decide) (by decide)
    (by decide) (by decide) (List.pairwise_singleton _ _) hneed
  have hrr : r' = r := by
    have : some r' = some r := by rw [← hr', ← hr]; rfl
    exact Option.some.inj this
  subst hrr
  have h0 := hpx 0 0 (by decide) (by decide) [32, 10, 20, 30] (by simp) (by decide)
  have ha : r'.out 3 = 255 := by
    have := congrArg (fun p : uchar4 => p.2.2.2) h0
    simp only [pixel_at] at this
    rw [this]
    unfold entry_color
    cases fl_parse_color (entry_spec 1 [32, 10, 20, 30]) <;> rfl
  rw [ha] at h3
  exact absurd h3 (by decide)

/-- C6 as amended: for the image with the header line "2 1 -1 1" (a negative colour count
selects the compact encoding), the tuple `(' ', 10, 20, 30)` and one pixel row of two
space codes, decoded with background substitution disabled and any background colour, the
output buffer is `[(bgR,bgG,bgB,0), (bgR,bgG,bgB,0)]`; the literal (10,20,30) is ignored
and no byte after the two pixels is written. -/
theorem fl_convert_pixmap_scenario_compact
    (fl_parse_color : List uchar → Option (uchar × uchar × uchar))
    (colors0 : ColorTable) (out : Buffer) (bg : uchar × uchar × uchar) (g : Globals)
    (hneed : g.need_pixmap_bg_color = 0) :
    ∃ r, fl_convert_pixmap fl_parse_color colors0
        [ascii "2 1 -1 1", [32, 10, 20, 30], ascii "  "] out bg g = some r ∧ r.ret = 1 ∧
      (List.range 8).map r.out = [bg.1, bg.2.1, bg.2.2, 0, bg.1, bg.2.1, bg.2.2, 0] ∧
      ∀ a, 8 ≤ a → r.out a = out a := by
  obtain ⟨r, hr, hret, hpx, hrest⟩ := convert_single_compact fl_parse_color colors0 out bg g
    (ascii "2 1 -1 1") [32, 10, 20, 30] [ascii "  "] 2 1 1 (by decide) (by decide)
    (by decide) (by decide) hneed (by decide)
    (by
      intro Y X hY hX
      have hY0 : Y = 0 := by omega
      subst hY0
      have hX' : X = 0 ∨ X = 1 := by omega
      rcases hX' with rfl | rfl <;> decide)
  refine ⟨r, hr, hret, ?_, fun a ha => hrest a (by omega)⟩
  have h0 := hpx 0 0 (by decide) (by decide)
  have h1 := hpx 0 1 (by decide) (by decide)
  simp only [pixel_at, Prod.mk.injEq] at h0 h1
  simp only [List.range, List.range.loop, List.map_cons, List.map_nil]
  obtain ⟨a0, a1, a2, a3⟩ := h0
  obtain ⟨b0, b1, b2, b3⟩ := h1
  simp only [Nat.zero_mul, Nat.zero_add, Nat.mul_zero, Nat.mul_one] at a0 a1 a2 a3 b0 b1 b2 b3
  rw [a0, a1, a2, a3, b0, b1, b2, b3]

/-- C6 as amended, at the background colour (7,8,9). -/
theorem fl_convert_pixmap_scenario_compact_witness :
    ∃ r, fl_convert_pixmap parse_nothing sample_table
        [ascii "2 1 -1 1", [32, 10, 20, 30], ascii "  "] sample_buffer (7, 8, 9)
        sample_globals = some r ∧ r.ret = 1 ∧
      (List.range 8).map r.out = [7, 8, 9, 0, 7, 8, 9, 0] ∧
      ∀ a, 8 ≤ a → r.out a = sample_buffer a :=
  fl_convert_pixmap_scenario_compact parse_nothing sample_table sample_buffer (7, 8, 9)
    sample_globals rfl

/-- C7: a valid image with exactly one colour entry, that entry being the transparent
marker, whose pixels all use the code of that entry, decoded with background substitution
disabled, gives a uniform buffer: every one of the `width*height` pixels is the background
colour, with alpha 0 in compact encoding (first tuple of code `' '`) and with alpha 255 in
named encoding (colour specification rejected by the parser). -/
theorem fl_convert_pixmap_single_transparent
    (fl_parse_color : List uchar → Option (uchar × uchar × uchar))
    (colors0 : ColorTable) (out : Buffer) (bg : uchar × uchar × uchar) (g : Globals)
    (header entry : List uchar) (rows : List (List uchar)) (w h : Nat) (c : Int)
    (hw : 0 < w) (hh : 0 < h) (hc : c = 1 ∨ c = 2)
    (hneed : g.need_pixmap_bg_color = 0) :
    (header_ints header = [(w : Int), (h : Int), -1, c] → (peek entry).val = 32 →
      (∀ Y X, Y < h → X < w → pixel_code c (rows.getD Y []) X = 32) →
      ∃ r, fl_convert_pixmap fl_parse_color colors0 (header :: entry :: rows) out bg g =
          some r ∧ r.ret = 1 ∧
        ∀ Y X, Y < h → X < w → pixel_at r.out (Y * w + X) = (bg.1, bg.2.1, bg.2.2, 0)) ∧
    (header_ints header = [(w : Int), (h : Int), 1, c] →
      fl_parse_color (entry_spec c entry) = none →
      (∀ Y X, Y < h → X < w → pixel_code c (rows.getD Y []) X = entry_code c entry) →
      ∃ r, fl_convert_pixmap fl_parse_color colors0 (header :: entry :: rows) out bg g =
          some r ∧ r.ret = 1 ∧
        ∀ Y X, Y < h → X < w → pixel_at r.out (Y * w + X) = (bg.1, bg.2.1, bg.2.2, 255)) := by
  refine ⟨fun hv hcode hpix => ?_, fun hv hparse hpix => ?_⟩
  · obtain ⟨r, hr, hret, hpx, -⟩ := convert_single_compact fl_parse_color colors0 out bg g
      header entry rows w h c hv hw hh hc hneed hcode hpix
    exact ⟨r, hr, hret, hpx⟩
  · obtain ⟨r, hr, hret, hpx, -⟩ := convert_single_named fl_parse_color colors0 out bg g
      header entry rows w h c hv hw hh hc hneed hparse hpix
    exact ⟨r, hr, hret, hpx⟩

/-- C7 at the named image "1 2 1 1" / "x c None" / "x" / "x": both pixels are the
background colour with alpha 255. -/
theorem fl_convert_pixmap_single_transparent_witness :
    ∃ r, fl_convert_pixmap parse_sample sample_table
        (ascii "1 2 1 1" :: ascii "x c None" :: [ascii "x", ascii "x"]) sample_buffer
        (7, 8, 9) sample_globals = some r ∧ r.ret = 1 ∧
      ∀ Y X, Y < 2 → X < 1 → pixel_at r.out (Y * 1 + X) = (7, 8, 9, 255) :=
  (fl_convert_pixmap_single_transparent parse_sample sample_table sample_buffer (7, 8, 9)
    sample_globals (ascii "1 2 1 1") (ascii "x c None") [ascii "x", ascii "x"] 1 2 1
    (by decide) (by decide) (by decide) rfl).2 (by decide) (by decide)
    (by
      intro Y X hY hX
      have hX0 : X = 0 := by omega
      subst hX0
      have hY' : Y = 0 ∨ Y = 1 := by omega
      rcases hY' with rfl | rfl <;> decide)

/-- C9: for every width and height (in particular every width > 0 and height > 0) and
every RGBA buffer, the mask that `fl_draw_pixmap` builds has exactly `ceil(width/8) * height` bytes, and for every row `Y` and column
`X < width`, bit `X mod 8` (counted from the least significant bit) of the mask byte
`Y * ceil(width/8) + floor(X/8)` is set exactly when the alpha byte of pixel `(X,Y)` is
greater than 127; so each row starts on a fresh byte. -/
theorem mask_bitmap_bits (buffer : Buffer) (w h : Nat) :
    (mask_bitmap buffer w h).length = mask_size w h ∧
    mask_size w h = (w + 7) / 8 * h ∧
    ∀ Y X, Y < h → X < w →
      Y * ((w + 7) / 8) + X / 8 < (mask_bitmap buffer w h).length ∧
      ((((mask_bitmap buffer w h).getD (Y * ((w + 7) / 8) + X / 8) 0).val.testBit (X % 8)
          = true) ↔
        (buffer (4 * (Y * w + X) + 3)).val > 127) := by
  obtain ⟨bytes, he, hl, hbits⟩ := mask_rows_spec buffer w h 3 []
  have hm : mask_bitmap buffer w h = bytes := by
    unfold mask_bitmap
    rw [he]
    rfl
  rw [hm, hl]
  refine ⟨by unfold mask_size; rw [Nat.mul_comm], rfl, ?_⟩
  intro Y X hY hX
  refine ⟨?_, ?_⟩
  · have h1 : (Y + 1) * ((w + 7) / 8) ≤ h * ((w + 7) / 8) :=
      Nat.mul_le_mul_right _ (by omega)
    rw [Nat.succ_mul Y ((w + 7) / 8)] at h1
    omega
  · rw [hbits Y X hY hX, decide_eq_true_iff, show 3 + 4 * (Y * w + X) = 4 * (Y * w + X) + 3 by
      omega]

/-- C9 at a 9 by 2 image in which every second pixel is opaque, starting with the first:
the mask is the four bytes 0x55, 0x01, 0xAA, 0x00. -/
theorem mask_bitmap_bits_witness :
    mask_bitmap (fun a => if a % 8 = 3 then 200 else 0) 9 2 = [85, 1, 170, 0] ∧
    (mask_bitmap (fun a => if a % 8 = 3 then 200 else 0) 9 2).length = mask_size 9 2 ∧
    mask_size 9 2 = (9 + 7) / 8 * 2 ∧
    ∀ Y X, Y < 2 → X < 9 →
      Y * ((9 + 7) / 8) + X / 8 <
        (mask_bitmap (fun a => if a % 8 = 3 then 200 else 0) 9 2).length ∧
      ((((mask_bitmap (fun a => if a % 8 = 3 then 200 else 0) 9 2).getD
          (Y * ((9 + 7) / 8) + X / 8) 0).val.testBit (X % 8) = true) ↔
        ((fun a => if a % 8 = 3 then 200 else 0 : Buffer) (4 * (Y * 9 + X) + 3)).val > 127) :=
  ⟨by decide, mask_bitmap_bits (fun a => if a % 8 = 3 then 200 else 0) 9 2⟩

/-- C10: for every `used_colors` list of 0 to 65536 triples, `make_unused_color_`
terminates, within `color_count + 1` iterations of its loop, and the triple `(r,g,b)` it
returns differs from every triple of the list. -/
theorem make_unused_color_unused (G : Globals) (hlen : G.color_count ≤ 65536) :
    ∃ r g b,
      make_unused_color_ G = some ((r, g, b), { G with need_pixmap_bg_color := RGB r g b }) ∧
      (∀ u ∈ G.used_colors, ¬ (u.r = r ∧ u.g = g ∧ u.b = b)) ∧
      ∀ fuel, G.color_count < fuel →
        make_unused_color_loop G.used_colors fuel 2 3 4 = some (r, g, b) := by
  have hlen' : G.used_colors.length ≤ 65536 := hlen
  obtain ⟨k, -, -, hk, hf⟩ := make_unused_color_first G.used_colors (by omega)
  refine ⟨(next_color^[k] (2, 3, 4)).1, (next_color^[k] (2, 3, 4)).2.1,
    (next_color^[k] (2, 3, 4)).2.2,
    make_unused_color_eq G _ (hf rgb_space (by unfold rgb_space; omega)), ?_, hf⟩
  intro u hu hrgb
  apply hk
  obtain ⟨h1, h2, h3⟩ := hrgb
  unfold as_used
  rw [← h1, ← h2, ← h3]
  exact hu

/-- C10 at the list [(2,3,4), (3,3,4)]: the result is (4,3,4). -/
theorem make_unused_color_unused_witness :
    (make_unused_color_ ⟨0, 0, [⟨2, 3, 4⟩, ⟨3, 3, 4⟩], 1⟩).map (fun x => x.1) = some (4, 3, 4) ∧
    ∃ r g b,
      make_unused_color_ ⟨0, 0, [⟨2, 3, 4⟩, ⟨3, 3, 4⟩], 1⟩ =
        some ((r, g, b),
          { (⟨0, 0, [⟨2, 3, 4⟩, ⟨3, 3, 4⟩], 1⟩ : Globals) with
            need_pixmap_bg_color := RGB r g b }) ∧
      (∀ u ∈ (⟨0, 0, [⟨2, 3, 4⟩, ⟨3, 3, 4⟩], 1⟩ : Globals).used_colors,
        ¬ (u.r = r ∧ u.g = g ∧ u.b = b)) ∧
      ∀ fuel, (⟨0, 0, [⟨2, 3, 4⟩, ⟨3, 3, 4⟩], 1⟩ : Globals).color_count < fuel →
        make_unused_color_loop (⟨0, 0, [⟨2, 3, 4⟩, ⟨3, 3, 4⟩], 1⟩ : Globals).used_colors
          fuel 2 3 4 = some (r, g, b) :=
  ⟨by decide, make_unused_color_unused ⟨0, 0, [⟨2, 3, 4⟩, ⟨3, 3, 4⟩], 1⟩ (by decide)⟩


/-! ## The table builder in closed form -/

theorem compact_loop_eq (need : Bool) :
    ∀ (n : Nat) (p : List uchar) (colors : ColorTable) (used : List UsedColor),
      (compact_loop need n p colors used).1 =
        apply_updates ((take_tuples n p).map tuple_update) colors ∧
      (compact_loop need n p colors used).2.1 =
        used ++ (if need then (take_tuples n p).map tuple_used else []) := by
  intro n
  induction n with
  | zero => intro p colors used; cases need <;> simp [compact_loop, take_tuples, apply_updates]
  | succ n ih =>
    intro p colors used
    rw [compact_loop]
    obtain ⟨h1, h2⟩ := ih (p.tail.drop 3)
      (Function.update colors (peek p).val
        (peek p.tail, peek (p.tail.drop 1), peek (p.tail.drop 2), 255))
      (if need then used ++ [⟨peek p.tail, peek (p.tail.drop 1), peek (p.tail.drop 2)⟩]
        else used)
    refine ⟨?_, ?_⟩
    · rw [h1]
      simp only [take_tuples, List.map_cons, apply_updates, List.foldl_cons, tuple_update]
    · rw [h2]
      cases need <;> simp [take_tuples, tuple_used]

theorem named_entry_eq (fl_parse_color : List uchar → Option (uchar × uchar × uchar))
    (bg : uchar × uchar × uchar) (need : Bool) (c : Int) (line : List uchar)
    (colors : ColorTable) (used : List UsedColor) (t : Option Nat) :
    named_entry fl_parse_color bg need c line colors used t =
      (Function.update colors (entry_code c line) (entry_color fl_parse_color bg c line),
       used ++ (if need then named_used fl_parse_color c [line] else []),
       if need then named_transparent fl_parse_color c [line] t else t) := by
  unfold named_entry
  simp only []
  have hs : cstring (color_word (read_code c line).2) = entry_spec c line := rfl
  rw [hs]
  cases h : fl_parse_color (entry_spec c line) <;> cases need <;>
    simp [named_used, named_transparent, entry_color, entry_code, h, as_used]

theorem named_used_cons (fl_parse_color : List uchar → Option (uchar × uchar × uchar))
    (c : Int) (l : List uchar) (ls : List (List uchar)) :
    named_used fl_parse_color c (l :: ls) =
      named_used fl_parse_color c [l] ++ named_used fl_parse_color c ls := by
  unfold named_used
  cases h : fl_parse_color (entry_spec c l) <;> simp [List.filterMap_cons, h]

theorem named_transparent_cons (fl_parse_color : List uchar → Option (uchar × uchar × uchar))
    (c : Int) (l : List uchar) (ls : List (List uchar)) (t : Option Nat) :
    named_transparent fl_parse_color c (l :: ls) t =
      named_transparent fl_parse_color c ls (named_transparent fl_parse_color c [l] t) := by
  simp only [named_transparent]

/-- The loop of the normal XPM colormap in closed form. -/
theorem named_loop_eq (fl_parse_color : List uchar → Option (uchar × uchar × uchar))
    (bg : uchar × uchar × uchar) (need : Bool) (c : Int) :
    ∀ (n : Nat) (s : TableState),
      (named_loop fl_parse_color bg need c n s).colors =
        apply_updates ((take_lines n s.data).map (line_update fl_parse_color bg c)) s.colors ∧
      (named_loop fl_parse_color bg need c n s).used =
        s.used ++ (if need then named_used fl_parse_color c (take_lines n s.data) else []) ∧
      (named_loop fl_parse_color bg need c n s).transparent_c =
        (if need then named_transparent fl_parse_color c (take_lines n s.data) s.transparent_c
          else s.transparent_c) ∧
      (named_loop fl_parse_color bg need c n s).data = s.data.drop n ∧
      (named_loop fl_parse_color bg need c n s).ncolors = s.ncolors := by
  intro n
  induction n with
  | zero =>
    intro s
    cases need <;> simp [named_loop, take_lines, apply_updates, named_used, named_transparent]
  | succ n ih =>
    intro s
    rw [named_loop, named_entry_eq]
    obtain ⟨h1, h2, h3, h4, h5⟩ := ih
      { s with
        colors := Function.update s.colors (entry_code c (s.data.headD []))
          (entry_color fl_parse_color bg c (s.data.headD [])),
        used := s.used ++
          (if need then named_used fl_parse_color c [s.data.headD []] else []),
        transparent_c :=
          if need then named_transparent fl_parse_color c [s.data.headD []] s.transparent_c
          else s.transparent_c,
        data := s.data.tail }
    refine ⟨?_, ?_, ?_, ?_, ?_⟩
    · rw [h1]
      simp only [take_lines, List.map_cons, apply_updates, List.foldl_cons, line_update]
    · rw [h2]
      have e := named_used_cons fl_parse_color c (s.data.headD []) (take_lines n s.data.tail)
      cases need
      · simp
      · simp only [take_lines, e, if_true, List.append_assoc]
    · rw [h3]
      have e := named_transparent_cons fl_parse_color c (s.data.headD [])
        (take_lines n s.data.tail) s.transparent_c
      cases need
      · simp
      · simp only [take_lines, e, if_true]
    · rw [h4]
      simp only []
      cases s.data <;> simp
    · rw [h5]

/-- The table builder of `fl_convert_pixmap` in closed form. -/
theorem colormap_eq (fl_parse_color : List uchar → Option (uchar × uchar × uchar))
    (colors0 : ColorTable) (bg : uchar × uchar × uchar) (need : Bool) (n c : Int)
    (used : List UsedColor) (data : List (List uchar)) :
    (colormap fl_parse_color colors0 bg need n c used data).colors =
      apply_updates (colormap_updates fl_parse_color bg n c data) colors0 ∧
    (colormap fl_parse_color colors0 bg need n c used data).used =
      (if need then colormap_used fl_parse_color n c data else used) ∧
    (colormap fl_parse_color colors0 bg need n c used data).transparent_c =
      (if need then colormap_transparent fl_parse_color n c data else none) ∧
    (colormap fl_parse_color colors0 bg need n c used data).data = colormap_rows n data ∧
    (colormap fl_parse_color colors0 bg need n c used data).ncolors =
      (if n < 0 then (if (peek (data.headD [])).val = 32 then -n - 1 else -n) else n) := by
  unfold colormap colormap_updates colormap_used colormap_transparent colormap_rows
  simp only []
  by_cases hn : n < 0
  · simp only [if_pos hn]
    unfold compact_colormap
    simp only []
    by_cases h32 : (peek (data.headD [])).val = 32
    · simp only [if_pos h32]
      obtain ⟨h1, h2⟩ := compact_loop_eq need (-n - 1).toNat ((data.headD []).drop 4)
        (Function.update colors0 32 (bg.1, bg.2.1, bg.2.2, 0)) (if need then [] else used)
      rw [h1, h2]
      cases need <;> simp [apply_updates]
    · simp only [if_neg h32]
      obtain ⟨h1, h2⟩ := compact_loop_eq need (-n).toNat (data.headD []) colors0
        (if need then [] else used)
      rw [h1, h2]
      cases need <;> simp [apply_updates]
  · simp only [if_neg hn]
    obtain ⟨h1, h2, h3, h4, h5⟩ := named_loop_eq fl_parse_color bg need c n.toNat
      { colors := colors0, used := if need then [] else used, transparent_c := none,
        data := data, ncolors := n }
    rw [h1, h2, h3, h4, h5]
    cases need <;> simp [apply_updates]

/-- What the loop of `make_unused_color_` returns is the first triple, in the enumeration
from its start triple, that is not in the list. -/
theorem make_unused_color_loop_some (used : List UsedColor) :
    ∀ (fuel : Nat) (c u : uchar × uchar × uchar),
      make_unused_color_loop used fuel c.1 c.2.1 c.2.2 = some u →
      ∃ k, k < fuel ∧ u = next_color^[k] c ∧ as_used u ∉ used ∧
        ∀ j, j < k → as_used (next_color^[j] c) ∈ used := by
  intro fuel
  induction fuel with
  | zero =>
    intro c u h
    simp [make_unused_color_loop] at h
  | succ fuel ih =>
    intro c u h
    rw [make_unused_color_loop_succ] at h
    by_cases hc : (⟨c.1, c.2.1, c.2.2⟩ : UsedColor) ∉ used
    · rw [if_pos hc] at h
      simp only [Option.some.injEq] at h
      subst h
      exact ⟨0, by omega, rfl, hc, fun j hj => absurd hj (by omega)⟩
    · rw [if_neg hc] at h
      obtain ⟨k, hk, hu, hnot, hall⟩ := ih (next_color c) u h
      refine ⟨k + 1, by omega, ?_, hnot, ?_⟩
      · rw [hu, Function.iterate_succ_apply]
      · intro j hj
        cases j with
        | zero =>
          simp only [Function.iterate_zero, id_eq]
          exact not_not.1 hc
        | succ j =>
          rw [Function.iterate_succ_apply]
          exact hall j (by omega)

theorem take_lines_append (lines rest : List (List uchar)) :
    take_lines lines.length (lines ++ rest) = lines := by
  induction lines with
  | nil => rfl
  | cons l ls ih => simp [take_lines, ih]

theorem take_tuples_bytes (tuples : List (uchar × uchar × uchar × uchar)) (rest : List uchar) :
    take_tuples tuples.length (compact_bytes tuples ++ rest) = tuples := by
  induction tuples with
  | nil => rfl
  | cons t ts ih => simp [take_tuples, compact_bytes, peek, ih]

theorem named_transparent_append (fl_parse_color : List uchar → Option (uchar × uchar × uchar))
    (c : Int) (l1 l2 : List (List uchar)) (t : Option Nat) :
    named_transparent fl_parse_color c (l1 ++ l2) t =
      named_transparent fl_parse_color c l2 (named_transparent fl_parse_color c l1 t) := by
  induction l1 generalizing t with
  | nil => rfl
  | cons l ls ih =>
    rw [List.cons_append, named_transparent, named_transparent, ih]

theorem named_transparent_accepted (fl_parse_color : List uchar → Option (uchar × uchar × uchar))
    (c : Int) (ls : List (List uchar)) (t : Option Nat)
    (h : ∀ l ∈ ls, fl_parse_color (entry_spec c l) ≠ none) :
    named_transparent fl_parse_color c ls t = t := by
  induction ls generalizing t with
  | nil => rfl
  | cons l ls ih =>
    have hl := h l (List.mem_cons_self _ _)
    simp only [named_transparent]
    rw [ih _ (fun x hx => h x (List.mem_cons_of_mem _ hx))]
    cases hp : fl_parse_color (entry_spec c l) with
    | none => exact absurd hp hl
    | some v => rfl

/-- After the colour lines, `transparent_c` points to the entry of the last line that the
parser rejects. -/
theorem named_transparent_last (fl_parse_color : List uchar → Option (uchar × uchar × uchar))
    (c : Int) (pre post : List (List uchar)) (last : List uchar) (t : Option Nat)
    (hlast : fl_parse_color (entry_spec c last) = none)
    (hpost : ∀ l ∈ post, fl_parse_color (entry_spec c l) ≠ none) :
    named_transparent fl_parse_color c (pre ++ last :: post) t = some (entry_code c last) := by
  rw [named_transparent_append]
  simp only [named_transparent]
  rw [named_transparent_accepted fl_parse_color c post _ hpost, hlast]

theorem mem_named_used (fl_parse_color : List uchar → Option (uchar × uchar × uchar))
    (c : Int) (lines : List (List uchar)) (l : List uchar) (rgb : uchar × uchar × uchar)
    (hl : l ∈ lines) (hp : fl_parse_color (entry_spec c l) = some rgb) :
    as_used rgb ∈ named_used fl_parse_color c lines := by
  unfold named_used
  rw [List.mem_filterMap]
  exact ⟨l, hl, by rw [hp]; rfl⟩

/-- The decode of an image whose header is accepted, with background substitution enabled:
the resolver runs on the list the table builder collected and its triple is stored through
`transparent_c`. -/
theorem fl_convert_pixmap_subst
    (fl_parse_color : List uchar → Option (uchar × uchar × uchar))
    (colors0 : ColorTable) (cdata : List (List uchar)) (out : Buffer)
    (bg : uchar × uchar × uchar) (g : Globals) (w h : Nat) (n c : Int)
    (hv : header_ints (cdata.headD []) = [(w : Int), (h : Int), n, c]) (hw : 0 < w)
    (hh : 0 < h) (hc : c = 1 ∨ c = 2) (hneed : g.need_pixmap_bg_color ≠ 0)
    (r : ConvertResult)
    (hr : fl_convert_pixmap fl_parse_color colors0 cdata out bg g = some r) :
    ∃ u, make_unused_color_loop
          (colormap fl_parse_color colors0 bg true n c g.used_colors cdata.tail).used
          rgb_space 2 3 4 = some u ∧
      r.ret = 1 ∧
      r.out = raster c
        (substitute (colormap fl_parse_color colors0 bg true n c g.used_colors cdata.tail) u)
        w h (colormap fl_parse_color colors0 bg true n c g.used_colors cdata.tail).data 0 out ∧
      r.g =
        { ncolors :=
            (colormap fl_parse_color colors0 bg true n c g.used_colors cdata.tail).ncolors,
          chars_per_pixel := c,
          used_colors :=
            (colormap fl_parse_color colors0 bg true n c g.used_colors cdata.tail).used,
          need_pixmap_bg_color := RGB u.1 u.2.1 u.2.2 } := by
  rw [fl_convert_pixmap_accepted fl_parse_color colors0 cdata out bg g w h n c hv
    (by omega) (by omega) hc, if_pos hneed] at hr
  cases hu : make_unused_color_loop
      (colormap fl_parse_color colors0 bg true n c g.used_colors cdata.tail).used
      rgb_space 2 3 4 with
  | none =>
    rw [hu] at hr
    exact absurd hr (by simp)
  | some u =>
    rw [hu] at hr
    simp only [Option.some.injEq] at hr
    refine ⟨u, rfl, ?_, ?_, ?_⟩
    · rw [← hr]
    · rw [← hr]
      simp
    · rw [← hr]

theorem apply_updates_map {α : Type} (g : α → Nat × uchar4) (l : List α) (t : ColorTable) :
    apply_updates (l.map g) t =
      l.foldl (fun tb x => Function.update tb (g x).1 (g x).2) t := by
  unfold apply_updates
  rw [List.foldl_map]

theorem substitute_same (s : TableState) (u : uchar × uchar × uchar) (k : Nat)
    (hk : s.transparent_c = some k) :
    substitute s u k = (u.1, u.2.1, u.2.2, (s.colors k).2.2.2) := by
  unfold substitute
  rw [hk]
  simp only [Function.update_same]

theorem substitute_other (s : TableState) (u : uchar × uchar × uchar) (i : Nat)
    (hi : s.transparent_c ≠ some i) : substitute s u i = s.colors i := by
  unfold substitute
  cases hk : s.transparent_c with
  | none => rfl
  | some k =>
    have hne : i ≠ k := by
      intro h
      apply hi
      rw [hk, h]
    simp only [Function.update_noteq hne]

/-- Named encoding with background substitution enabled and pairwise distinct codes: the
pixels of the last rejected colour line carry the resolver's colour, the pixels of every
other colour line carry the entry that line stored. -/
theorem convert_named_subst
    (fl_parse_color : List uchar → Option (uchar × uchar × uchar))
    (colors0 : ColorTable) (out : Buffer) (bg : uchar × uchar × uchar) (g : Globals)
    (header : List uchar) (pre post rows : List (List uchar)) (last : List uchar)
    (w h : Nat) (c : Int)
    (hv : header_ints header =
      [(w : Int), (h : Int), ((pre ++ last :: post).length : Int), c])
    (hw : 0 < w) (hh : 0 < h) (hc : c = 1 ∨ c = 2)
    (hd : (pre ++ last :: post).Pairwise (fun a b => entry_code c a ≠ entry_code c b))
    (hneed : g.need_pixmap_bg_color ≠ 0)
    (hlast : fl_parse_color (entry_spec c last) = none)
    (hpost : ∀ l ∈ post, fl_parse_color (entry_spec c l) ≠ none)
    (r : ConvertResult)
    (hr : fl_convert_pixmap fl_parse_color colors0
      (header :: ((pre ++ last :: post) ++ rows)) out bg g = some r) :
    ∃ u, make_unused_color_loop (named_used fl_parse_color c (pre ++ last :: post))
          rgb_space 2 3 4 = some u ∧
      r.ret = 1 ∧
      r.g.used_colors = named_used fl_parse_color c (pre ++ last :: post) ∧
      r.g.need_pixmap_bg_color = RGB u.1 u.2.1 u.2.2 ∧
      (colormap fl_parse_color colors0 bg true ((pre ++ last :: post).length : Int) c
        g.used_colors ((pre ++ last :: post) ++ rows)).transparent_c =
          some (entry_code c last) ∧
      (∀ Y X, Y < h → X < w → pixel_code c (rows.getD Y []) X = entry_code c last →
        pixel_at r.out (Y * w + X) = (u.1, u.2.1, u.2.2, 255)) ∧
      (∀ l ∈ pre ++ last :: post, entry_code c l ≠ entry_code c last →
        ∀ Y X, Y < h → X < w → pixel_code c (rows.getD Y []) X = entry_code c l →
        pixel_at r.out (Y * w + X) = entry_color fl_parse_color bg c l) := by
  obtain ⟨u, hu, hret, hout, hg⟩ := fl_convert_pixmap_subst fl_parse_color colors0
    (header :: ((pre ++ last :: post) ++ rows)) out bg g w h _ c hv hw hh hc hneed r hr
  obtain ⟨hcol, hused, htr, hdata, -⟩ := colormap_eq fl_parse_color colors0 bg true
    ((pre ++ last :: post).length : Int) c g.used_colors ((pre ++ last :: post) ++ rows)
  rw [List.tail_cons] at hu hout hg
  have hlines : take_lines (pre ++ last :: post).length ((pre ++ last :: post) ++ rows) =
      pre ++ last :: post := take_lines_append _ _
  have hnn : ¬ (((pre ++ last :: post).length : Int) < 0) := by omega
  have hused' : (colormap fl_parse_color colors0 bg true ((pre ++ last :: post).length : Int)
      c g.used_colors ((pre ++ last :: post) ++ rows)).used =
      named_used fl_parse_color c (pre ++ last :: post) := by
    rw [hused]
    simp only [if_true, colormap_used, if_neg hnn, Int.toNat_natCast, hlines]
  have htr' : (colormap fl_parse_color colors0 bg true ((pre ++ last :: post).length : Int)
      c g.used_colors ((pre ++ last :: post) ++ rows)).transparent_c =
      some (entry_code c last) := by
    rw [htr]
    simp only [if_true, colormap_transparent, if_neg hnn, Int.toNat_natCast, hlines]
    exact named_transparent_last fl_parse_color c pre post last none hlast hpost
  have hcol' : (colormap fl_parse_color colors0 bg true ((pre ++ last :: post).length : Int)
      c g.used_colors ((pre ++ last :: post) ++ rows)).colors =
      (pre ++ last :: post).foldl (fun tb l => Function.update tb (entry_code c l)
        (entry_color fl_parse_color bg c l)) colors0 := by
    rw [hcol]
    simp only [colormap_updates, if_neg hnn, Int.toNat_natCast, hlines]
    rw [apply_updates_map]
    rfl
  have hdata' : (colormap fl_parse_color colors0 bg true ((pre ++ last :: post).length : Int)
      c g.used_colors ((pre ++ last :: post) ++ rows)).data = rows := by
    rw [hdata]
    simp only [colormap_rows, if_neg hnn, Int.toNat_natCast, List.drop_left]
  rw [hused'] at hu hg
  refine ⟨u, hu, hret, by rw [hg], by rw [hg], htr', ?_, ?_⟩
  · intro Y X hY hX hcode
    rw [hout, hdata', raster_pixel _ _ _ _ _ _ _ _ hY hX, hcode, substitute_same _ _ _ htr',
      hcol']
    rw [foldl_update_mem (entry_code c) (entry_color fl_parse_color bg c) _ colors0 hd last
      (by simp)]
    unfold entry_color
    rw [hlast]
  · intro l hl hne Y X hY hX hcode
    rw [hout, hdata', raster_pixel _ _ _ _ _ _ _ _ hY hX, hcode,
      substitute_other _ _ _ (by rw [htr']; intro he; exact hne (Option.some.inj he).symm),
      hcol']
    exact foldl_update_mem (entry_code c) (entry_color fl_parse_color bg c) _ colors0 hd l hl

/-- The table builder on a compressed colormap given by its tuples, background substitution
enabled. -/
theorem colormap_compact_need (fl_parse_color : List uchar → Option (uchar × uchar × uchar))
    (colors0 : ColorTable) (bg : uchar × uchar × uchar) (c : Int)
    (used : List UsedColor) (t : uchar × uchar × uchar × uchar)
    (ts : List (uchar × uchar × uchar × uchar)) (rest : List uchar)
    (rows : List (List uchar)) :
    (t.1 = 32 →
      (colormap fl_parse_color colors0 bg true (-((t :: ts).length : Int)) c used
          ((compact_bytes (t :: ts) ++ rest) :: rows)).colors =
        ts.foldl (fun (tb : ColorTable) x =>
            Function.update tb x.1.val (x.2.1, x.2.2.1, x.2.2.2, 255))
          (Function.update colors0 32 (bg.1, bg.2.1, bg.2.2, 0)) ∧
      (colormap fl_parse_color colors0 bg true (-((t :: ts).length : Int)) c used
          ((compact_bytes (t :: ts) ++ rest) :: rows)).used = ts.map tuple_used ∧
      (colormap fl_parse_color colors0 bg true (-((t :: ts).length : Int)) c used
          ((compact_bytes (t :: ts) ++ rest) :: rows)).transparent_c = some 32 ∧
      (colormap fl_parse_color colors0 bg true (-((t :: ts).length : Int)) c used
          ((compact_bytes (t :: ts) ++ rest) :: rows)).ncolors = ts.length) ∧
    (t.1 ≠ 32 →
      (colormap fl_parse_color colors0 bg true (-((t :: ts).length : Int)) c used
          ((compact_bytes (t :: ts) ++ rest) :: rows)).colors =
        (t :: ts).foldl (fun (tb : ColorTable) x =>
            Function.update tb x.1.val (x.2.1, x.2.2.1, x.2.2.2, 255)) colors0 ∧
      (colormap fl_parse_color colors0 bg true (-((t :: ts).length : Int)) c used
          ((compact_bytes (t :: ts) ++ rest) :: rows)).used = (t :: ts).map tuple_used ∧
      (colormap fl_parse_color colors0 bg true (-((t :: ts).length : Int)) c used
          ((compact_bytes (t :: ts) ++ rest) :: rows)).transparent_c = none ∧
      (colormap fl_parse_color colors0 bg true (-((t :: ts).length : Int)) c used
          ((compact_bytes (t :: ts) ++ rest) :: rows)).ncolors = (t :: ts).length) ∧
    (colormap fl_parse_color colors0 bg true (-((t :: ts).length : Int)) c used
        ((compact_bytes (t :: ts) ++ rest) :: rows)).data = rows := by
  obtain ⟨hcol, hused, htr, hdata, hnc⟩ := colormap_eq fl_parse_color colors0 bg true
    (-((t :: ts).length : Int)) c used ((compact_bytes (t :: ts) ++ rest) :: rows)
  have hneg : -((t :: ts).length : Int) < 0 := by
    simp only [List.length_cons]
    omega
  have hpk : peek (compact_bytes (t :: ts) ++ rest) = t.1 := rfl
  have hl1 : (-(-((t :: ts).length : Int)) - 1).toNat = ts.length := by
    simp only [List.length_cons, Int.neg_neg]
    omega
  have hl2 : (-(-((t :: ts).length : Int))).toNat = (t :: ts).length := by
    rw [Int.neg_neg, Int.toNat_natCast]
  have hdrop : (compact_bytes (t :: ts) ++ rest).drop 4 = compact_bytes ts ++ rest := by
    simp [compact_bytes]
  refine ⟨fun ht => ?_, fun ht => ?_, ?_⟩
  · have h32 : (peek (compact_bytes (t :: ts) ++ rest)).val = 32 := by
      rw [hpk, ht]
      rfl
    refine ⟨?_, ?_, ?_, ?_⟩
    · rw [hcol]
      simp only [colormap_updates, if_pos hneg, List.headD_cons, if_pos h32, hl1, hdrop,
        take_tuples_bytes]
      simp only [apply_updates, List.foldl_cons]
      exact apply_updates_map tuple_update ts _
    · rw [hused]
      simp only [if_true, colormap_used, if_pos hneg, List.headD_cons, if_pos h32, hl1, hdrop,
        take_tuples_bytes]
    · rw [htr]
      simp only [if_true, colormap_transparent, if_pos hneg, List.headD_cons, if_pos h32]
    · rw [hnc]
      simp only [if_pos hneg, List.headD_cons, if_pos h32]
      simp only [List.length_cons, Int.neg_neg]
      omega
  · have h32 : ¬ (peek (compact_bytes (t :: ts) ++ rest)).val = 32 := by
      rw [hpk]
      intro hv
      exact ht (Fin.ext hv)
    refine ⟨?_, ?_, ?_, ?_⟩
    · rw [hcol]
      simp only [colormap_updates, if_pos hneg, List.headD_cons, if_neg h32, hl2,
        take_tuples_bytes]
      exact apply_updates_map tuple_update (t :: ts) _
    · rw [hused]
      simp only [if_true, colormap_used, if_pos hneg, List.headD_cons, if_neg h32, hl2,
        take_tuples_bytes]
    · rw [htr]
      simp only [if_true, colormap_transparent, if_pos hneg, List.headD_cons, if_neg h32]
    · rw [hnc]
      simp only [if_pos hneg, List.headD_cons, if_neg h32, Int.neg_neg]
  · rw [hdata]
    simp only [colormap_rows, if_pos hneg, List.tail_cons]

/-- Compact encoding with background substitution enabled, a first tuple of code `' '` and
pairwise distinct codes: the pixels of code `' '` carry the resolver's colour with alpha 0,
the pixels of every other tuple its literal colour with alpha 255. -/
theorem convert_compact_subst
    (fl_parse_color : List uchar → Option (uchar × uchar × uchar))
    (colors0 : ColorTable) (out : Buffer) (bg : uchar × uchar × uchar) (g : Globals)
    (header : List uchar) (t : uchar × uchar × uchar × uchar)
    (ts : List (uchar × uchar × uchar × uchar)) (rest : List uchar)
    (rows : List (List uchar)) (w h : Nat) (c : Int)
    (hv : header_ints header = [(w : Int), (h : Int), -((t :: ts).length : Int), c])
    (hw : 0 < w) (hh : 0 < h) (hc : c = 1 ∨ c = 2)
    (hd : (t :: ts).Pairwise (fun a b => a.1 ≠ b.1))
    (hneed : g.need_pixmap_bg_color ≠ 0) (ht : t.1 = 32)
    (r : ConvertResult)
    (hr : fl_convert_pixmap fl_parse_color colors0
      (header :: (compact_bytes (t :: ts) ++ rest) :: rows) out bg g = some r) :
    ∃ u, make_unused_color_loop (ts.map tuple_used) rgb_space 2 3 4 = some u ∧
      r.ret = 1 ∧
      r.g.used_colors = ts.map tuple_used ∧
      r.g.need_pixmap_bg_color = RGB u.1 u.2.1 u.2.2 ∧
      (∀ Y X, Y < h → X < w → pixel_code c (rows.getD Y []) X = 32 →
        pixel_at r.out (Y * w + X) = (u.1, u.2.1, u.2.2, 0)) ∧
      (∀ x ∈ ts, ∀ Y X, Y < h → X < w → pixel_code c (rows.getD Y []) X = x.1.val →
        pixel_at r.out (Y * w + X) = (x.2.1, x.2.2.1, x.2.2.2, 255)) := by
  obtain ⟨u, hu, hret, hout, hg⟩ := fl_convert_pixmap_subst fl_parse_color colors0
    (header :: (compact_bytes (t :: ts) ++ rest) :: rows) out bg g w h _ c hv hw hh hc hneed
    r hr
  obtain ⟨h1, -, hdata⟩ := colormap_compact_need fl_parse_color colors0 bg c g.used_colors
    t ts rest rows
  obtain ⟨hcol, hused, htr, -⟩ := h1 ht
  rw [List.tail_cons] at hu hout hg
  rw [hused] at hu hg
  rw [List.pairwise_cons] at hd
  have hdv : ts.Pairwise (fun a b => a.1.val ≠ b.1.val) :=
    hd.2.imp (fun hab hv => hab (Fin.ext hv))
  have hne32 : ∀ x ∈ ts, x.1.val ≠ 32 := by
    intro x hx hv
    exact hd.1 x hx (by rw [ht]; exact Fin.ext hv.symm)
  refine ⟨u, hu, hret, by rw [hg], by rw [hg], ?_, ?_⟩
  · intro Y X hY hX hcode
    rw [hout, hdata, raster_pixel _ _ _ _ _ _ _ _ hY hX, hcode, substitute_same _ _ _ htr,
      hcol]
    rw [foldl_update_other (fun x : uchar × uchar × uchar × uchar => x.1.val) _ 32 ts _ hne32]
    simp only [Function.update_same]
  · intro x hx Y X hY hX hcode
    rw [hout, hdata, raster_pixel _ _ _ _ _ _ _ _ hY hX, hcode,
      substitute_other _ _ _ (by rw [htr]; intro he; exact hne32 x hx (Option.some.inj he).symm),
      hcol]
    exact foldl_update_mem (fun x : uchar × uchar × uchar × uchar => x.1.val)
      (fun x => (x.2.1, x.2.2.1, x.2.2.2, 255)) ts _ hdv x hx

theorem colormap_used_named (fl_parse_color : List uchar → Option (uchar × uchar × uchar))
    (c : Int) (lines rows : List (List uchar)) :
    colormap_used fl_parse_color (lines.length : Int) c (lines ++ rows) =
      named_used fl_parse_color c lines := by
  unfold colormap_used
  rw [if_neg (by omega), Int.toNat_natCast, take_lines_append]

theorem colormap_used_compact (fl_parse_color : List uchar → Option (uchar × uchar × uchar))
    (c : Int) (t : uchar × uchar × uchar × uchar) (ts : List (uchar × uchar × uchar × uchar))
    (rest : List uchar) (rows : List (List uchar)) :
    colormap_used fl_parse_color (-((t :: ts).length : Int)) c
        ((compact_bytes (t :: ts) ++ rest) :: rows) =
      if t.1 = 32 then ts.map tuple_used else (t :: ts).map tuple_used := by
  have hneg : -((t :: ts).length : Int) < 0 := by
    simp only [List.length_cons]
    omega
  have hpk : peek (compact_bytes (t :: ts) ++ rest) = t.1 := rfl
  have hl1 : (-(-((t :: ts).length : Int)) - 1).toNat = ts.length := by
    simp only [List.length_cons, Int.neg_neg]
    omega
  have hl2 : (-(-((t :: ts).length : Int))).toNat = (t :: ts).length := by
    rw [Int.neg_neg, Int.toNat_natCast]
  have hdrop : (compact_bytes (t :: ts) ++ rest).drop 4 = compact_bytes ts ++ rest := by
    simp [compact_bytes]
  unfold colormap_used
  rw [if_pos hneg, List.headD_cons, hpk]
  by_cases ht : t.1 = 32
  · have h32 : t.1.val = 32 := by rw [ht]; rfl
    rw [if_pos h32, if_pos ht, hl1, hdrop, take_tuples_bytes]
  · have h32 : ¬ t.1.val = 32 := fun hv => ht (Fin.ext hv)
    rw [if_neg h32, if_neg ht, hl2, take_tuples_bytes]

theorem named_used_length (fl_parse_color : List uchar → Option (uchar × uchar × uchar))
    (c : Int) (lines : List (List uchar)) :
    (named_used fl_parse_color c lines).length =
      (lines.filter (fun l => (fl_parse_color (entry_spec c l)).isSome)).length := by
  unfold named_used
  induction lines with
  | nil => rfl
  | cons l ls ih =>
    cases hp : fl_parse_color (entry_spec c l) <;>
      simp [List.filterMap_cons, List.filter_cons, hp, ih]

/-- The successor that the loop of `make_unused_color_` computes is the step of the
enumeration in the words of the specification. -/
theorem next_color_eq_odometer_step (c : uchar × uchar × uchar) :
    next_color c = odometer_step c := by
  obtain ⟨r, g, b⟩ := c
  unfold next_color odometer_step
  simp only []
  by_cases hr : r.val < 255
  · have h1 : r + 1 ≠ 0 := by
      intro h
      have := congrArg Fin.val h
      simp only [Fin.val_add, Fin.val_one, Fin.val_zero] at this
      omega
    simp [hr, h1]
  · have h1 : r + 1 = 0 := by
      apply Fin.ext
      have := r.isLt
      simp only [Fin.val_add, Fin.val_one, Fin.val_zero]
      omega
    by_cases hg : g.val < 255
    · have h2 : g + 1 ≠ 0 := by
        intro h
        have := congrArg Fin.val h
        simp only [Fin.val_add, Fin.val_one, Fin.val_zero] at this
        omega
      simp [hr, hg, h1, h2]
    · have h2 : g + 1 = 0 := by
        apply Fin.ext
        have := g.isLt
        simp only [Fin.val_add, Fin.val_one, Fin.val_zero]
        omega
      simp [hr, hg, h1, h2]

theorem next_color_iterate_eq (k : Nat) : next_color^[k] (2, 3, 4) = spec_enumeration k := by
  unfold spec_enumeration
  have h : next_color = odometer_step := funext next_color_eq_odometer_step
  rw [h]

theorem RGB_eq (r g b : uchar) : RGB r g b = r.val + 256 * g.val + 65536 * b.val := by
  have hr : r.val < 2 ^ 8 := r.isLt
  have hg : g.val < 256 := g.isLt
  have h1 : r.val ||| (g.val <<< 8) = 2 ^ 8 * g.val + r.val := by
    rw [Nat.mul_add_lt_is_or hr, Nat.shiftLeft_eq, Nat.lor_comm, Nat.mul_comm]
  have h2 : 2 ^ 8 * g.val + r.val < 2 ^ 16 := by
    norm_num
    omega
  unfold RGB
  rw [h1, Nat.lor_comm, Nat.shiftLeft_eq, Nat.mul_comm, ← Nat.mul_add_lt_is_or h2]
  norm_num
  omega

theorem RGB_eq_color_index (c : uchar × uchar × uchar) :
    RGB c.1 c.2.1 c.2.2 = color_index c := by
  rw [RGB_eq]
  rfl

/-- Running `i + m` iterations of the named loop is running `i` and then `m`. -/
theorem named_loop_add (fl_parse_color : List uchar → Option (uchar × uchar × uchar))
    (bg : uchar × uchar × uchar) (need : Bool) (c : Int) (m : Nat) :
    ∀ (i : Nat) (s : TableState),
      named_loop fl_parse_color bg need c (i + m) s =
        named_loop fl_parse_color bg need c m (named_loop fl_parse_color bg need c i s) := by
  intro i
  induction i with
  | zero => intro s; simp [named_loop]
  | succ i ih =>
    intro s
    rw [Nat.succ_add_eq_add_succ, Nat.add_succ, named_loop, named_loop]
    exact ih _

/-- Running `i + m` iterations of the compact loop is running `i` and then `m`. -/
theorem compact_loop_add (need : Bool) (m : Nat) :
    ∀ (i : Nat) (p : List uchar) (colors : ColorTable) (used : List UsedColor),
      compact_loop need (i + m) p colors used =
        compact_loop need m (compact_loop need i p colors used).2.2
          (compact_loop need i p colors used).1 (compact_loop need i p colors used).2.1 := by
  intro i
  induction i with
  | zero => intro p colors used; simp [compact_loop]
  | succ i ih =>
    intro p colors used
    rw [Nat.succ_add_eq_add_succ, Nat.add_succ, compact_loop, compact_loop]
    exact ih _ _ _

theorem table_size_one : table_size 1 = 256 := by decide

theorem table_size_two : table_size 2 = 65536 := by decide

/-- The pixel code read at a pointer is an index of the colour table. -/
theorem read_code_lt (c : Int) (hc : c = 1 ∨ c = 2) (p : List uchar) :
    (read_code c p).1 < table_size c := by
  unfold read_code
  rcases hc with rfl | rfl
  · rw [if_neg (by decide), table_size_one]
    exact (peek p).isLt
  · rw [if_pos (by decide), table_size_two, shl_or_eq]
    have h1 := (peek p).isLt
    have h2 := (peek p.tail).isLt
    simp only []
    omega

/-- The index `transparent_c` points to after some colour lines is the one it pointed to
before them or the code of one of the lines. -/
theorem named_transparent_mem (fl_parse_color : List uchar → Option (uchar × uchar × uchar))
    (c : Int) (ind : Nat) :
    ∀ (lines : List (List uchar)) (t : Option Nat),
      named_transparent fl_parse_color c lines t = some ind →
      t = some ind ∨ ∃ l ∈ lines, ind = entry_code c l := by
  intro lines
  induction lines with
  | nil => intro t h; left; exact h
  | cons l ls ih =>
    intro t h
    rw [named_transparent] at h
    rcases ih _ h with h1 | ⟨l', hl', e⟩
    · cases hp : fl_parse_color (entry_spec c l) with
      | none =>
        rw [hp] at h1
        right
        refine ⟨l, List.mem_cons_self _ _, ?_⟩
        simp only [Option.some.injEq] at h1
        exact h1.symm
      | some rgb =>
        rw [hp] at h1
        left
        exact h1
    · right
      exact ⟨l', List.mem_cons_of_mem _ hl', e⟩

/-- Every index that the table builder writes is inside the colour table. -/
theorem colormap_updates_lt (fl_parse_color : List uchar → Option (uchar × uchar × uchar))
    (bg : uchar × uchar × uchar) (n c : Int) (hc : c = 1 ∨ c = 2) (data : List (List uchar))
    (u : Nat × uchar4) (hu : u ∈ colormap_updates fl_parse_color bg n c data) :
    u.1 < table_size c := by
  have h256 : 256 ≤ table_size c := by
    rcases hc with rfl | rfl
    · rw [table_size_one]
    · rw [table_size_two]; omega
  unfold colormap_updates at hu
  split at hu
  · split at hu
    · rcases List.mem_cons.1 hu with rfl | hm
      · simp only []
        omega
      · obtain ⟨x, -, rfl⟩ := List.mem_map.1 hm
        have := x.1.isLt
        simp only [tuple_update]
        omega
    · obtain ⟨x, -, rfl⟩ := List.mem_map.1 hu
      have := x.1.isLt
      simp only [tuple_update]
      omega
  · obtain ⟨l, -, rfl⟩ := List.mem_map.1 hu
    exact read_code_lt c hc l

/-- The entry `transparent_c` points to is inside the colour table. -/
theorem colormap_transparent_lt (fl_parse_color : List uchar → Option (uchar × uchar × uchar))
    (n c : Int) (hc : c = 1 ∨ c = 2) (data : List (List uchar)) (ind : Nat)
    (h : colormap_transparent fl_parse_color n c data = some ind) : ind < table_size c := by
  have h256 : 256 ≤ table_size c := by
    rcases hc with rfl | rfl
    · rw [table_size_one]
    · rw [table_size_two]; omega
  unfold colormap_transparent at h
  split at h
  · split at h
    · simp only [Option.some.injEq] at h
      omega
    · exact absurd h (by simp)
  · rcases named_transparent_mem fl_parse_color c ind _ _ h with h0 | ⟨l, -, rfl⟩
    · exact absurd h0 (by simp)
    · exact read_code_lt c hc l

/-- The pixel code of a column of a pixel row is inside the colour table. -/
theorem pixel_code_lt (c : Int) (hc : c = 1 ∨ c = 2) (row : List uchar) (X : Nat) :
    pixel_code c row X < table_size c := by
  unfold pixel_code
  rcases hc with rfl | rfl
  · rw [if_pos (by decide), table_size_one]
    exact (peek _).isLt
  · rw [if_neg (by decide), table_size_two]
    have h1 := (peek (row.drop (2 * X))).isLt
    have h2 := (peek (row.drop (2 * X + 1))).isLt
    omega

/-- The entry at an index that the table builder writes does not depend on the initial
content of the table. -/
theorem apply_updates_listed :
    ∀ (us : List (Nat × uchar4)) (t t' : ColorTable) (i : Nat),
      (i ∈ us.map Prod.fst ∨ t i = t' i) → apply_updates us t i = apply_updates us t' i := by
  intro us
  induction us with
  | nil =>
    intro t t' i h
    rcases h with h | h
    · cases h
    · exact h
  | cons u us ih =>
    intro t t' i h
    show apply_updates us (Function.update t u.1 u.2) i =
      apply_updates us (Function.update t' u.1 u.2) i
    apply ih
    by_cases hi : i = u.1
    · right
      rw [hi, Function.update_same, Function.update_same]
    · rcases h with h | h
      · rw [List.map_cons, List.mem_cons] at h
        rcases h with h | h
        · exact absurd h hi
        · left; exact h
      · right
        rw [Function.update_noteq hi, Function.update_noteq hi]
        exact h

/-- The table after the substitute colour is stored agrees at an index for two builder
states with the same `transparent_c` whose tables agree at that index. -/
theorem substitute_congr (s s' : TableState) (u : uchar × uchar × uchar) (i : Nat)
    (ht : s.transparent_c = s'.transparent_c) (hc : s.colors i = s'.colors i) :
    substitute s u i = substitute s' u i := by
  unfold substitute
  rw [← ht]
  cases hk : s.transparent_c with
  | none => exact hc
  | some k =>
    by_cases hi : i = k
    · subst hi
      simp only [Function.update_same, hc]
    · simp only [Function.update_noteq hi, hc]

/-- Two rasterizations of the same rows into the same buffer are equal when the tables
agree at every pixel code of the grid. -/
theorem raster_eq_of_agree (c : Int) (TA TB : ColorTable) (w h : Nat)
    (rows : List (List uchar)) (out : Buffer)
    (htab : ∀ Y X, Y < h → X < w →
      TA (pixel_code c (rows.getD Y []) X) = TB (pixel_code c (rows.getD Y []) X)) :
    raster c TA w h rows 0 out = raster c TB w h rows 0 out := by
  funext a
  by_cases ha : a < 4 * (h * w)
  · exact raster_agree c TA TB w h rows rows out out id (fun _ _ _ _ => rfl)
      (fun Y X hY hX => (htab Y X hY hX).symm) a ha
  · rw [raster_outside c TA w h rows out a (by omega),
      raster_outside c TB w h rows out a (by omega)]

/-- The return value and the buffer of a decode of an accepted image whose pixel codes are
all written by the table builder do not depend on the file-scope variables or on the
initial content of the colour table, the substitution flag being the same. -/
theorem convert_independent
    (fl_parse_color : List uchar → Option (uchar × uchar × uchar))
    (colors0 colors1 : ColorTable) (cdata : List (List uchar)) (out : Buffer)
    (bg : uchar × uchar × uchar) (g g1 : Globals) (w h n c : Int)
    (hv : header_ints (cdata.headD []) = [w, h, n, c]) (hw : 0 < w) (hh : 0 < h)
    (hc : c = 1 ∨ c = 2)
    (hflag : g.need_pixmap_bg_color = 0 ↔ g1.need_pixmap_bg_color = 0)
    (hlisted : ∀ Y X, Y < h.toNat → X < w.toNat →
      pixel_code c ((colormap_rows n cdata.tail).getD Y []) X ∈
        (colormap_updates fl_parse_color bg n c cdata.tail).map Prod.fst) :
    (fl_convert_pixmap fl_parse_color colors0 cdata out bg g).map (fun r => (r.ret, r.out)) =
    (fl_convert_pixmap fl_parse_color colors1 cdata out bg g1).map
      (fun r => (r.ret, r.out)) := by
  rw [fl_convert_pixmap_accepted fl_parse_color colors0 cdata out bg g w h n c hv hw hh hc,
    fl_convert_pixmap_accepted fl_parse_color colors1 cdata out bg g1 w h n c hv hw hh hc]
  by_cases hneed : g.need_pixmap_bg_color = 0
  · have hneed1 : g1.need_pixmap_bg_color = 0 := hflag.1 hneed
    rw [if_neg (by simp [hneed]), if_neg (by simp [hneed1])]
    obtain ⟨a1, -, -, a4, -⟩ := colormap_eq fl_parse_color colors0 bg false n c g.used_colors
      cdata.tail
    obtain ⟨b1, -, -, b4, -⟩ := colormap_eq fl_parse_color colors1 bg false n c
      g1.used_colors cdata.tail
    simp only [Option.map_some', Option.some.injEq, Prod.mk.injEq, true_and]
    rw [a1, a4, b1, b4]
    apply raster_eq_of_agree
    intro Y X hY hX
    exact apply_updates_listed _ _ _ _ (Or.inl (hlisted Y X hY hX))
  · have hneed1 : g1.need_pixmap_bg_color ≠ 0 := fun h0 => hneed (hflag.2 h0)
    rw [if_pos hneed, if_pos hneed1]
    obtain ⟨a1, a2, a3, a4, -⟩ := colormap_eq fl_parse_color colors0 bg true n c
      g.used_colors cdata.tail
    obtain ⟨b1, b2, b3, b4, -⟩ := colormap_eq fl_parse_color colors1 bg true n c
      g1.used_colors cdata.tail
    rw [a2, b2]
    simp only [if_true]
    cases make_unused_color_loop (colormap_used fl_parse_color n c cdata.tail) rgb_space
        2 3 4 with
    | none => rfl
    | some u =>
      simp only [Option.map_some', Option.some.injEq, Prod.mk.injEq, true_and]
      rw [a4, b4]
      apply raster_eq_of_agree
      intro Y X hY hX
      apply substitute_congr
      · rw [a3, b3]
      · rw [a1, b1]
        exact apply_updates_listed _ _ _ _ (Or.inl (hlisted Y X hY hX))

theorem isspace_ne_zero (c : uchar) (h : isspace c = true) : c.val ≠ 0 := by
  intro h0
  unfold isspace at h
  rw [h0] at h
  exact absurd h (by decide)

theorem skip_spaces_append (ws t : List uchar) (h : ∀ c ∈ ws, isspace c = true) :
    skip_spaces (ws ++ t) = skip_spaces t := by
  induction ws with
  | nil => rfl
  | cons c cs ih =>
    have hc := h c (List.mem_cons_self _ _)
    rw [List.cons_append, skip_spaces, if_pos ⟨isspace_ne_zero c hc, hc⟩]
    exact ih (fun d hd => h d (List.mem_cons_of_mem _ hd))

theorem skip_spaces_stop (t : List uchar) (h : isspace (peek t) = false) :
    skip_spaces t = t := by
  cases t with
  | nil => rfl
  | cons c cs =>
    have hc : isspace c = false := h
    rw [skip_spaces, if_neg (by simp [hc])]

theorem skip_word_append (tok t : List uchar)
    (h : ∀ c ∈ tok, c.val ≠ 0 ∧ isspace c = false) :
    skip_word (tok ++ t) = skip_word t := by
  induction tok with
  | nil => rfl
  | cons c cs ih =>
    rw [List.cons_append, skip_word, if_pos (h c (List.mem_cons_self _ _))]
    exact ih (fun d hd => h d (List.mem_cons_of_mem _ hd))

theorem skip_word_stop (t : List uchar)
    (h : (peek t).val = 0 ∨ isspace (peek t) = true) : skip_word t = t := by
  cases t with
  | nil => rfl
  | cons c cs =>
    have hc : c.val = 0 ∨ isspace c = true := h
    rw [skip_word, if_neg]
    rcases hc with hc | hc
    · simp [hc]
    · simp [hc]

theorem is_token_spec (t : List uchar) (h : is_token t = true) :
    (∃ c cs, t = c :: cs) ∧ ∀ c ∈ t, c.val ≠ 0 ∧ isspace c = false := by
  unfold is_token at h
  rw [Bool.and_eq_true] at h
  obtain ⟨h1, h2⟩ := h
  refine ⟨?_, ?_⟩
  · cases t with
    | nil => exact absurd h1 (by decide)
    | cons c cs => exact ⟨c, cs, rfl⟩
  · intro c hc
    have := List.all_eq_true.1 h2 c hc
    simpa using this

theorem is_gap_spec (s : List uchar) (h : is_gap s = true) :
    (∃ c cs, s = c :: cs) ∧ ∀ c ∈ s, isspace c = true := by
  unfold is_gap at h
  rw [Bool.and_eq_true] at h
  obtain ⟨h1, h2⟩ := h
  refine ⟨?_, ?_⟩
  · cases s with
    | nil => exact absurd h1 (by decide)
    | cons c cs => exact ⟨c, cs, rfl⟩
  · exact List.all_eq_true.1 h2

/-- One pass of the scan over a key/value pair: the key is found behind the first gap, and
the pointer stops at the value. -/
theorem scan_pair (x : KeyValue) (hx : x.wf = true) (T : List uchar) :
    peek (skip_spaces (x.gap1 ++ (x.key ++ (x.gap2 ++ (x.value ++ T))))) = peek x.key ∧
    skip_spaces (skip_word
      (skip_spaces (x.gap1 ++ (x.key ++ (x.gap2 ++ (x.value ++ T))))).tail) = x.value ++ T ∧
    (peek (x.value ++ T)).val ≠ 0 ∧
    skip_word (x.value ++ T) = skip_word T := by
  unfold KeyValue.wf at hx
  simp only [Bool.and_eq_true] at hx
  obtain ⟨⟨⟨hg1, hk⟩, hg2⟩, hval⟩ := hx
  obtain ⟨-, g1⟩ := is_gap_spec _ hg1
  obtain ⟨⟨k, ks, ek⟩, k1⟩ := is_token_spec _ hk
  obtain ⟨⟨s, ss, es⟩, g2⟩ := is_gap_spec _ hg2
  obtain ⟨⟨v, vs, ev⟩, v1⟩ := is_token_spec _ hval
  have hkk := k1 k (by rw [ek]; exact List.mem_cons_self _ _)
  have hvv := v1 v (by rw [ev]; exact List.mem_cons_self _ _)
  have hss := g2 s (by rw [es]; exact List.mem_cons_self _ _)
  have e1 : skip_spaces (x.gap1 ++ (x.key ++ (x.gap2 ++ (x.value ++ T)))) =
      x.key ++ (x.gap2 ++ (x.value ++ T)) := by
    rw [skip_spaces_append _ _ g1]
    apply skip_spaces_stop
    rw [ek]
    exact hkk.2
  have e2 : skip_word (x.key ++ (x.gap2 ++ (x.value ++ T))).tail =
      x.gap2 ++ (x.value ++ T) := by
    rw [ek, List.cons_append, List.tail_cons,
      skip_word_append _ _ (fun c hc => k1 c (by rw [ek]; exact List.mem_cons_of_mem _ hc))]
    apply skip_word_stop
    right
    rw [es]
    exact hss
  have e3 : skip_spaces (x.gap2 ++ (x.value ++ T)) = x.value ++ T := by
    rw [skip_spaces_append _ _ g2]
    apply skip_spaces_stop
    rw [ev]
    exact hvv.2
  refine ⟨?_, ?_, ?_, ?_⟩
  · rw [e1, ek]
    rfl
  · rw [e1, e2, e3]
  · rw [ev]
    exact hvv.1
  · exact skip_word_append _ _ v1

/-- The scan stops at the value of a pair whose key begins with `'c'`. -/
theorem color_word_loop_c (fuel : Nat) (x : KeyValue) (hx : x.wf = true)
    (hc : (peek x.key).val = 99) (T prev : List uchar) :
    color_word_loop (fuel + 1) (x.gap1 ++ (x.key ++ (x.gap2 ++ (x.value ++ T)))) prev =
      x.value ++ T := by
  obtain ⟨h1, h2, h3, -⟩ := scan_pair x hx T
  rw [color_word_loop]
  simp only [h1, h2]
  rw [if_neg h3, if_pos hc]

/-- The scan passes a pair whose key does not begin with `'c'` and remembers its value. -/
theorem color_word_loop_other (fuel : Nat) (x : KeyValue) (hx : x.wf = true)
    (hc : (peek x.key).val ≠ 99) (T prev : List uchar)
    (hT : (peek T).val = 0 ∨ isspace (peek T) = true) :
    color_word_loop (fuel + 1) (x.gap1 ++ (x.key ++ (x.gap2 ++ (x.value ++ T)))) prev =
      color_word_loop fuel T (x.value ++ T) := by
  obtain ⟨h1, h2, h3, h4⟩ := scan_pair x hx T
  rw [color_word_loop]
  simp only [h1, h2]
  rw [if_neg h3, if_neg hc, h4, skip_word_stop T hT]

/-- A word ends where a gap starts, or where the white space before a terminator does. -/
theorem stops_append (ws z : List uchar) (hws : ∀ c ∈ ws, isspace c = true)
    (hz : (peek z).val = 0) :
    (peek (ws ++ z)).val = 0 ∨ isspace (peek (ws ++ z)) = true := by
  cases ws with
  | nil => left; exact hz
  | cons c cs => right; exact hws c (List.mem_cons_self _ _)

theorem skip_spaces_terminator (ws z : List uchar) (hws : ∀ c ∈ ws, isspace c = true)
    (hz : (peek z).val = 0) : skip_spaces (ws ++ z) = z := by
  rw [skip_spaces_append _ _ hws]
  apply skip_spaces_stop
  cases hs : isspace (peek z) with
  | false => rfl
  | true => exact absurd hz (isspace_ne_zero _ hs)

/-- The scan at the end of a line whose terminator is followed by a zero byte (or by the
end of the modelled memory) returns the remembered word. -/
theorem color_word_loop_end (fuel : Nat) (ws z prev : List uchar)
    (hws : ∀ c ∈ ws, isspace c = true) (hz : (peek z).val = 0)
    (hz1 : (peek z.tail).val = 0) :
    color_word_loop (fuel + 1) (ws ++ z) prev = prev := by
  rw [color_word_loop]
  simp only [skip_spaces_terminator ws z hws hz]
  rw [skip_word_stop z.tail (Or.inl hz1)]
  have e := skip_spaces_terminator [] z.tail (fun c hc => by cases hc) hz1
  rw [List.nil_append] at e
  rw [e, if_pos hz1]

/-- The scan at a last key that has no value returns the remembered word. -/
theorem color_word_loop_key (fuel : Nat) (g k ws z prev : List uchar)
    (hg : is_gap g = true) (hk : is_token k = true)
    (hws : ∀ c ∈ ws, isspace c = true) (hz : (peek z).val = 0) :
    color_word_loop (fuel + 1) (g ++ (k ++ (ws ++ z))) prev = prev := by
  obtain ⟨-, g1⟩ := is_gap_spec _ hg
  obtain ⟨⟨c, cs, ek⟩, k1⟩ := is_token_spec _ hk
  have hcc := k1 c (by rw [ek]; exact List.mem_cons_self _ _)
  have e1 : skip_spaces (g ++ (k ++ (ws ++ z))) = k ++ (ws ++ z) := by
    rw [skip_spaces_append _ _ g1]
    apply skip_spaces_stop
    rw [ek]
    exact hcc.2
  have e2 : skip_word (k ++ (ws ++ z)).tail = ws ++ z := by
    rw [ek, List.cons_append, List.tail_cons,
      skip_word_append _ _ (fun d hd => k1 d (by rw [ek]; exact List.mem_cons_of_mem _ hd))]
    exact skip_word_stop _ (stops_append ws z hws hz)
  rw [color_word_loop]
  simp only [e1, e2, skip_spaces_terminator ws z hws hz]
  rw [if_pos hz]

/-- The scan over a run of key/value pairs agrees with the specification, when one of the
keys begins with `'c'` or the scan of what follows the pairs returns the remembered
word. -/
theorem color_word_loop_pairs (rest : List uchar) :
    ∀ (pairs : List KeyValue), (∀ x ∈ pairs, x.wf = true) →
      ((∃ x ∈ pairs, (peek x.key).val = 99) ∨
        (((peek rest).val = 0 ∨ isspace (peek rest) = true) ∧
          ∀ f prev, color_word_loop (f + 1) rest prev = prev)) →
      ∀ (f : Nat) (prev : List uchar),
        color_word_loop (pairs.length + f + 1) (pairs_bytes pairs rest) prev =
          spec_color_word pairs rest prev := by
  intro pairs
  induction pairs with
  | nil =>
    intro _ hE f prev
    rcases hE with ⟨x, hx, -⟩ | ⟨-, h⟩
    · cases hx
    · simp only [List.length_nil, Nat.zero_add, pairs_bytes, spec_color_word]
      exact h f prev
  | cons x xs ih =>
    intro hwf hE f prev
    have hx := hwf x (List.mem_cons_self _ _)
    have hxs : ∀ y ∈ xs, y.wf = true := fun y hy => hwf y (List.mem_cons_of_mem _ hy)
    have hfuel : (x :: xs).length + f + 1 = (xs.length + f + 1) + 1 := by
      rw [List.length_cons]; omega
    rw [hfuel, pairs_bytes, spec_color_word]
    by_cases hc : (peek x.key).val = 99
    · rw [if_pos hc]
      exact color_word_loop_c _ x hx hc _ _
    · rw [if_neg hc]
      have hE1 : (∃ y ∈ xs, (peek y.key).val = 99) ∨
          (((peek rest).val = 0 ∨ isspace (peek rest) = true) ∧
            ∀ f prev, color_word_loop (f + 1) rest prev = prev) := by
        rcases hE with ⟨y, hy, hyc⟩ | h
        · rcases List.mem_cons.1 hy with rfl | hy1
          · exact absurd hyc hc
          · left; exact ⟨y, hy1, hyc⟩
        · right; exact h
      have hT : (peek (pairs_bytes xs rest)).val = 0 ∨
          isspace (peek (pairs_bytes xs rest)) = true := by
        cases xs with
        | nil =>
          rcases hE1 with ⟨y, hy, -⟩ | ⟨h, -⟩
          · cases hy
          · exact h
        | cons y ys =>
          right
          have hy := hxs y (List.mem_cons_self _ _)
          unfold KeyValue.wf at hy
          simp only [Bool.and_eq_true] at hy
          obtain ⟨⟨s, ss, es⟩, g1⟩ := is_gap_spec _ hy.1.1.1
          rw [pairs_bytes, es]
          exact g1 s (by rw [es]; exact List.mem_cons_self _ _)
      rw [color_word_loop_other _ x hx hc _ _ hT]
      exact ih hxs hE1 f _

/-- The scan of `color_word` follows the specification on a run of key/value pairs when
one of the keys begins with `'c'`, when the pairs are followed by a key without a value, and
when the line ends after the pairs with a terminator that a zero byte follows.  The last
case is the one in which the scan reads the byte behind the terminator. -/
theorem color_word_eq_spec (pairs : List KeyValue) (rest : List uchar)
    (hwf : ∀ x ∈ pairs, x.wf = true)
    (h : (∃ x ∈ pairs, (peek x.key).val = 99) ∨
      (∃ ws z, rest = ws ++ z ∧ (∀ c ∈ ws, isspace c = true) ∧ (peek z).val = 0 ∧
        (peek z.tail).val = 0) ∨
      (∃ g k ws z, rest = g ++ (k ++ (ws ++ z)) ∧ is_gap g = true ∧ is_token k = true ∧
        (∀ c ∈ ws, isspace c = true) ∧ (peek z).val = 0)) :
    color_word (pairs_bytes pairs rest) =
      spec_color_word pairs rest (pairs_bytes pairs rest) := by
  have hE : (∃ x ∈ pairs, (peek x.key).val = 99) ∨
      (((peek rest).val = 0 ∨ isspace (peek rest) = true) ∧
        ∀ f prev, color_word_loop (f + 1) rest prev = prev) := by
    rcases h with h | ⟨ws, z, rfl, hws, hz, hz1⟩ | ⟨g, k, ws, z, rfl, hg, hk, hws, hz⟩
    · left; exact h
    · right
      exact ⟨stops_append ws z hws hz, fun f prev => color_word_loop_end f ws z prev hws hz hz1⟩
    · right
      refine ⟨?_, fun f prev => color_word_loop_key f g k ws z prev hg hk hws hz⟩
      obtain ⟨⟨s, ss, es⟩, g1⟩ := is_gap_spec _ hg
      right
      rw [es]
      exact g1 s (by rw [es]; exact List.mem_cons_self _ _)
  rw [← color_word_fuel (pairs.length + (pairs_bytes pairs rest).length + 1) _ (by omega)]
  exact color_word_loop_pairs rest pairs hwf hE _ _

/-- The text handed to the colour parser for a colour line made of a pixel code of
`chars_per_pixel` bytes and a run of key/value pairs, in the cases of
`color_word_eq_spec`. -/
theorem entry_spec_eq_spec (c : Int) (hc : c = 1 ∨ c = 2) (code : List uchar)
    (hcode : (code.length : Int) = c) (pairs : List KeyValue) (rest : List uchar)
    (hwf : ∀ x ∈ pairs, x.wf = true)
    (h : (∃ x ∈ pairs, (peek x.key).val = 99) ∨
      (∃ ws z, rest = ws ++ z ∧ (∀ c ∈ ws, isspace c = true) ∧ (peek z).val = 0 ∧
        (peek z.tail).val = 0) ∨
      (∃ g k ws z, rest = g ++ (k ++ (ws ++ z)) ∧ is_gap g = true ∧ is_token k = true ∧
        (∀ c ∈ ws, isspace c = true) ∧ (peek z).val = 0)) :
    entry_spec c (code ++ pairs_bytes pairs rest) =
      cstring (spec_color_word pairs rest (pairs_bytes pairs rest)) := by
  have e : (read_code c (code ++ pairs_bytes pairs rest)).2 = pairs_bytes pairs rest := by
    unfold read_code
    rcases hc with rfl | rfl
    · rw [if_neg (by decide)]
      match code, hcode with
      | [a], _ => rfl
    · rw [if_pos (by decide)]
      match code, hcode with
      | [a, b], _ => rfl
  unfold entry_spec
  rw [e, color_word_eq_spec pairs rest hwf h]

/-- With background substitution enabled, the decode of an accepted image calls the
resolver on the list that the table builder collected: the file-scope variables after the
decode are the ones the resolver leaves, and the decode returns exactly when the resolver
does. -/
theorem convert_resolver_state
    (fl_parse_color : List uchar → Option (uchar × uchar × uchar))
    (colors0 : ColorTable) (cdata : List (List uchar)) (out : Buffer)
    (bg : uchar × uchar × uchar) (g : Globals) (w h : Nat) (n c : Int)
    (hv : header_ints (cdata.headD []) = [(w : Int), (h : Int), n, c]) (hw : 0 < w)
    (hh : 0 < h) (hc : c = 1 ∨ c = 2) (hneed : g.need_pixmap_bg_color ≠ 0) :
    ∃ G : Globals,
      G.used_colors = colormap_used fl_parse_color n c cdata.tail ∧
      (fl_convert_pixmap fl_parse_color colors0 cdata out bg g).map (fun r => r.g) =
        (make_unused_color_ G).map Prod.snd := by
  obtain ⟨-, hused, -, -, -⟩ := colormap_eq fl_parse_color colors0 bg true n c g.used_colors
    cdata.tail
  rw [if_pos rfl] at hused
  refine ⟨
    { ncolors := (colormap fl_parse_color colors0 bg true n c g.used_colors cdata.tail).ncolors,
      chars_per_pixel := c,
      used_colors := colormap_used fl_parse_color n c cdata.tail,
      need_pixmap_bg_color := g.need_pixmap_bg_color }, rfl, ?_⟩
  rw [fl_convert_pixmap_accepted fl_parse_color colors0 cdata out bg g w h n c hv
    (by omega) (by omega) hc, if_pos hneed]
  unfold make_unused_color_
  simp only [hused]
  cases make_unused_color_loop (colormap_used fl_parse_color n c cdata.tail) rgb_space
      2 3 4 with
  | none => rfl
  | some u => rfl

/-- C11, as the code behaves: `transparent_c` is assigned at every colour line the parser
rejects, so the last such line is the marked one.  In the image "2 1 2 1" / "a c None" /
"b c None" / "ab", decoded with background substitution enabled and the background colour
(7,8,9), the pixel of the first rejected line keeps the background colour and the pixel of
the second one carries the substitute colour (2,3,4). -/
theorem fl_convert_pixmap_marks_last_rejected :
    (fl_convert_pixmap parse_sample sample_table
        [ascii "2 1 2 1", ascii "a c None", ascii "b c None", ascii "ab"] sample_buffer
        (7, 8, 9) sample_globals_subst).map (fun r => (List.range 8).map r.out) =
      some [7, 8, 9, 255, 2, 3, 4, 255] := by
  decide

/-- C11 as amended: in a named-encoding decode with background substitution enabled, of an
image whose colour lines have pairwise distinct codes, at most one entry is marked
transparent and it is the last colour line whose colour specification the parser rejects:
`transparent_c` points to its table entry, its pixels carry the substitute colour of the
resolver with alpha 255, and the pixels of every earlier rejected line keep the caller's
background colour.  The decode returns when there are fewer colour lines than RGB
triples. -/
theorem fl_convert_pixmap_named_marked_last
    (fl_parse_color : List uchar → Option (uchar × uchar × uchar))
    (colors0 : ColorTable) (out : Buffer) (bg : uchar × uchar × uchar) (g : Globals)
    (header : List uchar) (pre post rows : List (List uchar)) (last : List uchar)
    (w h : Nat) (c : Int)
    (hv : header_ints header =
      [(w : Int), (h : Int), ((pre ++ last :: post).length : Int), c])
    (hw : 0 < w) (hh : 0 < h) (hc : c = 1 ∨ c = 2)
    (hd : (pre ++ last :: post).Pairwise (fun a b => entry_code c a ≠ entry_code c b))
    (hneed : g.need_pixmap_bg_color ≠ 0)
    (hlast : fl_parse_color (entry_spec c last) = none)
    (hpost : ∀ l ∈ post, fl_parse_color (entry_spec c l) ≠ none) :
    ((pre ++ last :: post).length < 16777216 →
      ∃ r, fl_convert_pixmap fl_parse_color colors0
        (header :: ((pre ++ last :: post) ++ rows)) out bg g = some r) ∧
    ∀ r, fl_convert_pixmap fl_parse_color colors0
        (header :: ((pre ++ last :: post) ++ rows)) out bg g = some r →
      ∃ u, make_unused_color_loop r.g.used_colors rgb_space 2 3 4 = some u ∧
        r.g.need_pixmap_bg_color = RGB u.1 u.2.1 u.2.2 ∧
        (colormap fl_parse_color colors0 bg true ((pre ++ last :: post).length : Int) c
          g.used_colors ((pre ++ last :: post) ++ rows)).transparent_c =
            some (entry_code c last) ∧
        (∀ Y X, Y < h → X < w → pixel_code c (rows.getD Y []) X = entry_code c last →
          pixel_at r.out (Y * w + X) = (u.1, u.2.1, u.2.2, 255)) ∧
        (∀ l ∈ pre, fl_parse_color (entry_spec c l) = none →
          ∀ Y X, Y < h → X < w → pixel_code c (rows.getD Y []) X = entry_code c l →
          pixel_at r.out (Y * w + X) = (bg.1, bg.2.1, bg.2.2, 255)) := by
  refine ⟨fun hlen => ?_, fun r hr => ?_⟩
  · obtain ⟨r, hr, -⟩ := fl_convert_pixmap_returns fl_parse_color colors0
      (header :: ((pre ++ last :: post) ++ rows)) out bg g w h _ c hv (by omega) (by omega) hc
      (Or.inr (by omega))
    exact ⟨r, hr⟩
  · obtain ⟨u, hu, -, hused, hrgb, htr, hlastpx, hother⟩ := convert_named_subst fl_parse_color
      colors0 out bg g header pre post rows last w h c hv hw hh hc hd hneed hlast hpost r hr
    refine ⟨u, by rw [hused]; exact hu, hrgb, htr, hlastpx, ?_⟩
    intro l hl hrej Y X hY hX hcode
    have hne : entry_code c l ≠ entry_code c last := by
      rw [List.pairwise_append] at hd
      exact hd.2.2 l hl last (List.mem_cons_self _ _)
    rw [hother l (List.mem_append_left _ hl) hne Y X hY hX hcode]
    unfold entry_color
    rw [hrej]

/-- C11 as amended, at the image "2 1 2 1" / "a c None" / "b c None" / "ab". -/
theorem fl_convert_pixmap_named_marked_last_witness :
    ∃ r, fl_convert_pixmap parse_sample sample_table
        (ascii "2 1 2 1" :: (([ascii "a c None"] ++ ascii "b c None" :: []) ++ [ascii "ab"]))
        sample_buffer (7, 8, 9) sample_globals_subst = some r ∧
      ∃ u, make_unused_color_loop r.g.used_colors rgb_space 2 3 4 = some u ∧
        pixel_at r.out 1 = (u.1, u.2.1, u.2.2, 255) ∧ pixel_at r.out 0 = (7, 8, 9, 255) := by
  have key := fl_convert_pixmap_named_marked_last parse_sample sample_table sample_buffer
    (7, 8, 9) sample_globals_subst (ascii "2 1 2 1") [ascii "a c None"] [] [ascii "ab"]
    (ascii "b c None") 2 1 1 (by decide) (by decide) (by decide) (by decide) (by decide)
    (by decide) (by decide) (by simp)
  obtain ⟨r, hr⟩ := key.1 (by decide)
  obtain ⟨u, hu, -, -, h1, h0⟩ := key.2 r hr
  exact ⟨r, hr, u, hu, h1 0 1 (by decide) (by decide) (by decide),
    h0 (ascii "a c None") (by simp) (by decide) 0 0 (by decide) (by decide) (by decide)⟩

/-- C12: whenever some triple is not in `used_colors`, `make_unused_color_` returns the
first triple not contained in the list, in the enumeration that starts at (2,3,4) and steps
red first, carrying into green when red wraps from 255 to 0 and into blue when green wraps:
every triple enumerated before the result is in the list, and the result is (2,3,4) when
(2,3,4) is not in the list. -/
theorem make_unused_color_first_unused (G : Globals)
    (hex : ∃ c : uchar × uchar × uchar, as_used c ∉ G.used_colors) :
    spec_enumeration 0 = (2, 3, 4) ∧
    ∃ k, k < 16777216 ∧
      (make_unused_color_ G).map Prod.fst = some (spec_enumeration k) ∧
      as_used (spec_enumeration k) ∉ G.used_colors ∧
      (∀ j, j < k → as_used (spec_enumeration j) ∈ G.used_colors) ∧
      ((⟨2, 3, 4⟩ : UsedColor) ∉ G.used_colors → spec_enumeration k = (2, 3, 4)) := by
  refine ⟨rfl, ?_⟩
  cases hl : make_unused_color_loop G.used_colors rgb_space 2 3 4 with
  | none =>
    obtain ⟨c, hc⟩ := hex
    exact absurd ((make_unused_color_loop_none_iff G.used_colors).1 hl c) hc
  | some u =>
    obtain ⟨k, hk, hu, hnot, hall⟩ := make_unused_color_loop_some G.used_colors rgb_space
      (2, 3, 4) u hl
    rw [next_color_iterate_eq] at hu
    refine ⟨k, hk, ?_, by rw [← hu]; exact hnot, ?_, ?_⟩
    · rw [← hu, make_unused_color_eq G u hl]
      rfl
    · intro j hj
      rw [← next_color_iterate_eq]
      exact hall j hj
    · intro h234
      have hk0 : k = 0 := by
        by_contra hne
        exact h234 (hall 0 (by omega))
      rw [hk0]
      rfl

/-- C12 at the list [(2,3,4), (3,3,4)]: the result is the third triple of the enumeration,
(4,3,4). -/
theorem make_unused_color_first_unused_witness :
    spec_enumeration 2 = (4, 3, 4) ∧ spec_enumeration 0 = (2, 3, 4) ∧
    ∃ k, k < 16777216 ∧
      (make_unused_color_ ⟨0, 0, [⟨2, 3, 4⟩, ⟨3, 3, 4⟩], 1⟩).map Prod.fst =
        some (spec_enumeration k) ∧
      as_used (spec_enumeration k) ∉
        (⟨0, 0, [⟨2, 3, 4⟩, ⟨3, 3, 4⟩], 1⟩ : Globals).used_colors ∧
      (∀ j, j < k → as_used (spec_enumeration j) ∈
        (⟨0, 0, [⟨2, 3, 4⟩, ⟨3, 3, 4⟩], 1⟩ : Globals).used_colors) ∧
      ((⟨2, 3, 4⟩ : UsedColor) ∉ (⟨0, 0, [⟨2, 3, 4⟩, ⟨3, 3, 4⟩], 1⟩ : Globals).used_colors →
        spec_enumeration k = (2, 3, 4)) :=
  ⟨by decide, make_unused_color_first_unused ⟨0, 0, [⟨2, 3, 4⟩, ⟨3, 3, 4⟩], 1⟩
    ⟨(9, 9, 9), by decide⟩⟩

/-- C13, at a line without a `'c'` key whose terminator is followed by the next line of the
image: the XPM "2 1 2 1" / "a m red" / "b c blue" / "ab" with its strings stored one behind
the other, so that the memory at the first colour line reads "a m red", NUL, "b c blue".
The line is the code `a` and the one pair (`m`, `red`), and the specification hands "red" to
the colour parser.  The scan reads `what = *p++` at the terminator, steps behind it and goes
on through the next string: the parser is handed "c blue", rejects it, and the pixel `a` is
the background colour (7,8,9) instead of red.  With a zero byte behind the terminator the
parser is handed "red". -/
theorem entry_spec_reads_past_terminator :
    ascii "a m red" ++ 0 :: ascii "b c blue" =
      ascii "a" ++ pairs_bytes [⟨ascii " ", ascii "m", ascii " ", ascii "red"⟩]
        (0 :: ascii "b c blue") ∧
    cstring (spec_color_word [⟨ascii " ", ascii "m", ascii " ", ascii "red"⟩]
      (0 :: ascii "b c blue")
      (pairs_bytes [⟨ascii " ", ascii "m", ascii " ", ascii "red"⟩] (0 :: ascii "b c blue")))
      = ascii "red" ∧
    entry_spec 1 (ascii "a m red" ++ 0 :: ascii "b c blue") = ascii "c blue" ∧
    entry_spec 1 (ascii "a m red" ++ [0, 0]) = ascii "red" ∧
    entry_spec 1 (ascii "a m red") = ascii "red" ∧
    (fl_convert_pixmap parse_sample sample_table
        [ascii "2 1 2 1", ascii "a m red" ++ 0 :: ascii "b c blue", ascii "b c blue",
          ascii "ab"] sample_buffer (7, 8, 9) sample_globals).map
        (fun r => (List.range 8).map r.out) =
      some [7, 8, 9, 255, 0, 0, 255, 255] ∧
    (fl_convert_pixmap parse_sample sample_table
        [ascii "2 1 2 1", ascii "a m red" ++ [0, 0], ascii "b c blue",
          ascii "ab"] sample_buffer (7, 8, 9) sample_globals).map
        (fun r => (List.range 8).map r.out) =
      some [255, 0, 0, 255, 0, 0, 255, 255] := by
  refine ⟨by decide, by decide, by decide, by decide, by decide, by decide, by decide⟩

/-- C14: with background substitution enabled, the decode of an accepted image calls the
resolver in a state `G` of the file-scope variables (the variables after the decode are the
ones the resolver leaves from `G`, and the decode returns exactly when the resolver does)
in which `used_colors` holds, in colour-table order, exactly the colours assigned to the
non-transparent entries: in named encoding the parsed colour of every colour line the
parser accepts (and nothing for a rejected line), in compact encoding the literal colour
of every tuple but a first tuple of code `' '`; `color_count` is the number of those
colours. -/
theorem fl_convert_pixmap_used_colors
    (fl_parse_color : List uchar → Option (uchar × uchar × uchar))
    (colors0 : ColorTable) (out : Buffer) (bg : uchar × uchar × uchar) (g : Globals)
    (header : List uchar) (rows : List (List uchar)) (w h : Nat) (c : Int)
    (hw : 0 < w) (hh : 0 < h) (hc : c = 1 ∨ c = 2)
    (hneed : g.need_pixmap_bg_color ≠ 0) :
    (∀ lines : List (List uchar),
      header_ints header = [(w : Int), (h : Int), (lines.length : Int), c] →
      ∃ G : Globals,
        (fl_convert_pixmap fl_parse_color colors0 (header :: (lines ++ rows)) out bg g).map
            (fun r => r.g) = (make_unused_color_ G).map Prod.snd ∧
        G.used_colors =
          lines.filterMap (fun l =>
            (fl_parse_color (entry_spec c l)).map
              (fun rgb => UsedColor.mk rgb.1 rgb.2.1 rgb.2.2)) ∧
        G.color_count =
          (lines.filter (fun l => (fl_parse_color (entry_spec c l)).isSome)).length) ∧
    (∀ (t : uchar × uchar × uchar × uchar) (ts : List (uchar × uchar × uchar × uchar))
      (rest : List uchar),
      header_ints header = [(w : Int), (h : Int), -((t :: ts).length : Int), c] →
      ∃ G : Globals,
        (fl_convert_pixmap fl_parse_color colors0
            (header :: (compact_bytes (t :: ts) ++ rest) :: rows) out bg g).map
            (fun r => r.g) = (make_unused_color_ G).map Prod.snd ∧
        G.used_colors =
          (if t.1 = 32 then ts else t :: ts).map
            (fun x => UsedColor.mk x.2.1 x.2.2.1 x.2.2.2) ∧
        G.color_count = (if t.1 = 32 then ts.length else ts.length + 1)) := by
  refine ⟨fun lines hv => ?_, fun t ts rest hv => ?_⟩
  · obtain ⟨G, hG, hcall⟩ := convert_resolver_state fl_parse_color colors0
      (header :: (lines ++ rows)) out bg g w h _ c hv hw hh hc hneed
    rw [List.tail_cons, colormap_used_named] at hG
    refine ⟨G, hcall, hG, ?_⟩
    unfold Globals.color_count
    rw [hG]
    exact named_used_length fl_parse_color c lines
  · obtain ⟨G, hG, hcall⟩ := convert_resolver_state fl_parse_color colors0
      (header :: (compact_bytes (t :: ts) ++ rest) :: rows) out bg g w h _ c hv hw hh hc
      hneed
    rw [List.tail_cons, colormap_used_compact] at hG
    refine ⟨G, hcall, ?_, ?_⟩
    · rw [hG]
      split <;> rfl
    · unfold Globals.color_count
      rw [hG]
      split <;> simp

/-- C14 at the named image "2 1 2 1" / "a c red" / "b c None" / "ab": the resolver is
called on the one-element list [(255,0,0)]. -/
theorem fl_convert_pixmap_used_colors_witness :
    ∃ G : Globals,
      (fl_convert_pixmap parse_sample sample_table
        (ascii "2 1 2 1" :: ([ascii "a c red", ascii "b c None"] ++ [ascii "ab"]))
        sample_buffer (7, 8, 9) sample_globals_subst).map (fun r => r.g) =
        (make_unused_color_ G).map Prod.snd ∧
      G.used_colors = [⟨255, 0, 0⟩] ∧ G.color_count = 1 := by
  obtain ⟨G, hcall, hused, hcount⟩ :=
    (fl_convert_pixmap_used_colors parse_sample sample_table sample_buffer (7, 8, 9)
      sample_globals_subst (ascii "2 1 2 1") [ascii "ab"] 2 1 1 (by decide) (by decide)
      (by decide) (by decide)).1 [ascii "a c red", ascii "b c None"] (by decide)
  have e1 : [ascii "a c red", ascii "b c None"].filterMap (fun l =>
      (parse_sample (entry_spec 1 l)).map (fun rgb => UsedColor.mk rgb.1 rgb.2.1 rgb.2.2)) =
      [⟨255, 0, 0⟩] := by decide
  have e2 : ([ascii "a c red", ascii "b c None"].filter (fun l =>
      (parse_sample (entry_spec 1 l)).isSome)).length = 1 := by decide
  rw [e1] at hused
  rw [e2] at hcount
  exact ⟨G, hcall, hused, hcount⟩

/-- C15: for an image whose header is accepted (`fl_measure_pixmap` returns 1 and leaves
`c = chars_per_pixel` at 1 or 2), every index with which `fl_convert_pixmap` reads or
writes the colour table is a natural number below the table size
`1<<(chars_per_pixel*8) = 2^(8*c)`: the indices the table builder writes (the table is the
initial one with the writes `colormap_updates` applied, in both encodings), the index
`transparent_c` points to, where the substitute colour is stored, and the index the
rasterizer reads for every pixel (the byte under the row pointer, or
`(first<<8)|second`).  Every pixel written is the table entry at the pixel code of its
column, listed in the colour section or not. -/
theorem fl_convert_pixmap_index_in_table
    (fl_parse_color : List uchar → Option (uchar × uchar × uchar))
    (colors0 : ColorTable) (cdata : List (List uchar)) (bg : uchar × uchar × uchar)
    (g : Globals) (need : Bool) (w h n c : Int)
    (hv : header_ints (cdata.headD []) = [w, h, n, c]) (hw : 0 < w) (hh : 0 < h)
    (hc : c = 1 ∨ c = 2) :
    fl_measure_pixmap (cdata.headD []) 0 0 g =
      { ret := 1, w := w, h := h, g := { g with ncolors := n, chars_per_pixel := c } } ∧
    table_size c = 2 ^ (8 * c.toNat) ∧
    (colormap fl_parse_color colors0 bg need n c g.used_colors cdata.tail).colors =
      apply_updates (colormap_updates fl_parse_color bg n c cdata.tail) colors0 ∧
    (∀ u ∈ colormap_updates fl_parse_color bg n c cdata.tail, u.1 < table_size c) ∧
    (∀ ind, (colormap fl_parse_color colors0 bg need n c g.used_colors
        cdata.tail).transparent_c = some ind → ind < table_size c) ∧
    (∀ p : List uchar,
      (if c ≤ 1 then (peek p).val else ((peek p).val <<< 8) ||| (peek p.tail).val)
        < table_size c) ∧
    (∀ (colors : ColorTable) (rows : List (List uchar)) (out : Buffer) (Y X : Nat),
      Y < h.toNat → X < w.toNat →
      pixel_code c (rows.getD Y []) X < table_size c ∧
      pixel_at (raster c colors w.toNat h.toNat rows 0 out) (Y * w.toNat + X) =
        colors (pixel_code c (rows.getD Y []) X)) := by
  obtain ⟨e1, -, e3, -, -⟩ := colormap_eq fl_parse_color colors0 bg need n c g.used_colors
    cdata.tail
  refine ⟨?_, ?_, e1, ?_, ?_, ?_, ?_⟩
  · rcases fl_measure_pixmap_eq (cdata.headD []) 0 0 g with
      ⟨w', h', n', c', hv', -, -, -, he⟩ | ⟨hn, -⟩
    · rw [hv] at hv'
      simp only [List.cons.injEq, and_true] at hv'
      obtain ⟨rfl, rfl, rfl, rfl⟩ := hv'
      exact he
    · exact absurd ⟨w, h, n, c, hv, hw, hh, hc⟩ hn
  · rcases hc with rfl | rfl
    · decide
    · decide
  · intro u hu
    exact colormap_updates_lt fl_parse_color bg n c hc cdata.tail u hu
  · intro ind hind
    rw [e3] at hind
    cases need with
    | false => exact absurd hind (by simp)
    | true => exact colormap_transparent_lt fl_parse_color n c hc cdata.tail ind hind
  · intro p
    have h1 := (peek p).isLt
    have h2 := (peek p.tail).isLt
    rcases hc with rfl | rfl
    · rw [if_pos (by decide), table_size_one]
      exact h1
    · rw [if_neg (by decide), table_size_two, shl_or_eq]
      omega
  · intro colors rows out Y X hY hX
    refine ⟨pixel_code_lt c hc _ X, ?_⟩
    have hs := (raster_spec c colors w.toNat h.toNat rows 0 out).1 Y X hY hX
    rw [Nat.zero_add] at hs
    exact hs

/-- C15 at the image "2 1 2 1" / "a c red" / "b c None" / "ab": the table has 256 entries,
the builder writes the entries 97 and 98, and both pixels read entries below 256. -/
theorem fl_convert_pixmap_index_in_table_witness :
    table_size 1 = 2 ^ (8 * (1 : Int).toNat) ∧
    (∀ u ∈ colormap_updates parse_sample (7, 8, 9) 2 1
        [ascii "a c red", ascii "b c None", ascii "ab"], u.1 < table_size 1) ∧
    (colormap_updates parse_sample (7, 8, 9) 2 1
        [ascii "a c red", ascii "b c None", ascii "ab"]).map Prod.fst = [97, 98] ∧
    pixel_code 1 (ascii "ab") 1 = 98 := by
  obtain ⟨-, h2, -, h4, -⟩ := fl_convert_pixmap_index_in_table parse_sample sample_table
    [ascii "2 1 2 1", ascii "a c red", ascii "b c None", ascii "ab"] (7, 8, 9)
    sample_globals true 2 1 2 1 (by decide) (by decide) (by decide) (by decide)
  exact ⟨h2, h4, by decide, by decide⟩

/-- C16: a decode does not depend on what earlier calls left in the file-scope variables.
For two states `g` and `g1` of the variables with the same substitution flag
(`need_pixmap_bg_color` zero in both or non-zero in both) and any values of `ncolors`,
`chars_per_pixel`, `used_colors` and `color_count`, and for any two initial contents of
the colour table, the decodes of the same image data into the same buffer with the same
background colour return the same value and write the same buffer (or both never return),
provided every pixel code of the image is the code of an entry of its colour section. -/
theorem fl_convert_pixmap_independent
    (fl_parse_color : List uchar → Option (uchar × uchar × uchar))
    (colors0 colors1 : ColorTable) (cdata : List (List uchar)) (out : Buffer)
    (bg : uchar × uchar × uchar) (g g1 : Globals)
    (hflag : g.need_pixmap_bg_color = 0 ↔ g1.need_pixmap_bg_color = 0)
    (hlisted : ∀ w h n c : Int, header_ints (cdata.headD []) = [w, h, n, c] →
      ∀ Y X, Y < h.toNat → X < w.toNat →
        pixel_code c ((colormap_rows n cdata.tail).getD Y []) X ∈
          (colormap_updates fl_parse_color bg n c cdata.tail).map Prod.fst) :
    (fl_convert_pixmap fl_parse_color colors0 cdata out bg g).map (fun r => (r.ret, r.out)) =
    (fl_convert_pixmap fl_parse_color colors1 cdata out bg g1).map
      (fun r => (r.ret, r.out)) := by
  rcases fl_measure_pixmap_eq (cdata.headD []) 0 0 g with
    ⟨w, h, n, c, hv, hw, hh, hc, -⟩ | ⟨hn, hret, -⟩
  · exact convert_independent fl_parse_color colors0 colors1 cdata out bg g g1 w h n c hv hw
      hh hc hflag (hlisted w h n c hv)
  · rcases fl_measure_pixmap_eq (cdata.headD []) 0 0 g1 with
      ⟨w, h, n, c, hv, hw, hh, hc, -⟩ | ⟨-, hret1, -⟩
    · exact absurd ⟨w, h, n, c, hv, hw, hh, hc⟩ hn
    · rw [fl_convert_pixmap_rejected fl_parse_color colors0 cdata out bg g hret,
        fl_convert_pixmap_rejected fl_parse_color colors1 cdata out bg g1 hret1]
      rfl

/-- C16 at the image "2 1 2 1" / "a c red" / "b c None" / "ab": the decode after a compact
two-byte decode that left `ncolors = 3`, `chars_per_pixel = 2` and a used colour, into a
zeroed table, gives the same result as the decode from the initial state. -/
theorem fl_convert_pixmap_independent_witness :
    (fl_convert_pixmap parse_sample sample_table
      [ascii "2 1 2 1", ascii "a c red", ascii "b c None", ascii "ab"] sample_buffer
      (7, 8, 9) sample_globals).map (fun r => (r.ret, r.out)) =
    (fl_convert_pixmap parse_sample (fun _ => (0, 0, 0, 0))
      [ascii "2 1 2 1", ascii "a c red", ascii "b c None", ascii "ab"] sample_buffer
      (7, 8, 9) ⟨3, 2, [⟨1, 2, 3⟩], 0⟩).map (fun r => (r.ret, r.out)) := by
  apply fl_convert_pixmap_independent
  · decide
  · intro w h n c hv
    have e : header_ints ([ascii "2 1 2 1", ascii "a c red", ascii "b c None",
        ascii "ab"].headD []) = [2, 1, 2, 1] := by decide
    rw [e] at hv
    simp only [List.cons.injEq, and_true] at hv
    obtain ⟨rfl, rfl, rfl, rfl⟩ := hv
    intro Y X hY hX
    have hY0 : Y = 0 := by
      have : (1 : Int).toNat = 1 := rfl
      omega
    have hX01 : X = 0 ∨ X = 1 := by
      have : (2 : Int).toNat = 2 := rfl
      omega
    subst hY0
    rcases hX01 with rfl | rfl
    · decide
    · decide

/-- C17, as the code behaves: when two colour lines have the same code, the table entry of
that code is both the marked transparent entry and the entry of a parsed colour.  In the
image "2 1 2 1" / "a c None" / "a c red" / "aa", decoded with background substitution
enabled, both pixels use the code of the marked entry and the code of the line "a c red",
and both carry the substitute colour (2,3,4). -/
theorem fl_convert_pixmap_shared_code_same_rgb :
    (fl_convert_pixmap parse_sample sample_table
        [ascii "2 1 2 1", ascii "a c None", ascii "a c red", ascii "aa"] sample_buffer
        (7, 8, 9) sample_globals_subst).map (fun r => (List.range 8).map r.out) =
      some [2, 3, 4, 255, 2, 3, 4, 255] := by
  decide

/-- C17 as amended: when background substitution is enabled and the image, whose colour
entries have pairwise distinct codes, has a transparent entry (compact: a first tuple of
code `' '`; named: a colour line the parser rejects), then in the buffer written every
pixel with the code of the marked transparent entry carries the colour `u` of the resolver,
every pixel with the code of a non-transparent entry carries the colour assigned to that
entry, and the two colours differ; the alpha of the transparent entry is the one the table
builder set (0 in compact encoding, 255 in named encoding).  The decode returns when there
are fewer colour entries than RGB triples. -/
theorem fl_convert_pixmap_substitute_differs
    (fl_parse_color : List uchar → Option (uchar × uchar × uchar))
    (colors0 : ColorTable) (out : Buffer) (bg : uchar × uchar × uchar) (g : Globals)
    (header : List uchar) (rows : List (List uchar)) (w h : Nat) (c : Int)
    (hw : 0 < w) (hh : 0 < h) (hc : c = 1 ∨ c = 2)
    (hneed : g.need_pixmap_bg_color ≠ 0) :
    (∀ (pre post : List (List uchar)) (last : List uchar),
      header_ints header = [(w : Int), (h : Int), ((pre ++ last :: post).length : Int), c] →
      (pre ++ last :: post).Pairwise (fun a b => entry_code c a ≠ entry_code c b) →
      fl_parse_color (entry_spec c last) = none →
      (∀ l ∈ post, fl_parse_color (entry_spec c l) ≠ none) →
      ((pre ++ last :: post).length < 16777216 →
        ∃ r, fl_convert_pixmap fl_parse_color colors0
          (header :: ((pre ++ last :: post) ++ rows)) out bg g = some r) ∧
      ∀ r, fl_convert_pixmap fl_parse_color colors0
          (header :: ((pre ++ last :: post) ++ rows)) out bg g = some r →
        ∃ u, make_unused_color_loop r.g.used_colors rgb_space 2 3 4 = some u ∧
          (∀ Y X, Y < h → X < w → pixel_code c (rows.getD Y []) X = entry_code c last →
            pixel_at r.out (Y * w + X) = (u.1, u.2.1, u.2.2, 255)) ∧
          (∀ l ∈ pre ++ last :: post, ∀ rgb, fl_parse_color (entry_spec c l) = some rgb →
            rgb ≠ u ∧
            ∀ Y X, Y < h → X < w → pixel_code c (rows.getD Y []) X = entry_code c l →
              pixel_at r.out (Y * w + X) = (rgb.1, rgb.2.1, rgb.2.2, 255))) ∧
    (∀ (t : uchar × uchar × uchar × uchar) (ts : List (uchar × uchar × uchar × uchar))
      (rest : List uchar),
      header_ints header = [(w : Int), (h : Int), -((t :: ts).length : Int), c] →
      (t :: ts).Pairwise (fun a b => a.1 ≠ b.1) →
      t.1 = 32 →
      ((t :: ts).length < 16777216 →
        ∃ r, fl_convert_pixmap fl_parse_color colors0
          (header :: (compact_bytes (t :: ts) ++ rest) :: rows) out bg g = some r) ∧
      ∀ r, fl_convert_pixmap fl_parse_color colors0
          (header :: (compact_bytes (t :: ts) ++ rest) :: rows) out bg g = some r →
        ∃ u, make_unused_color_loop r.g.used_colors rgb_space 2 3 4 = some u ∧
          (∀ Y X, Y < h → X < w → pixel_code c (rows.getD Y []) X = 32 →
            pixel_at r.out (Y * w + X) = (u.1, u.2.1, u.2.2, 0)) ∧
          (∀ x ∈ ts, (x.2.1, x.2.2.1, x.2.2.2) ≠ u ∧
            ∀ Y X, Y < h → X < w → pixel_code c (rows.getD Y []) X = x.1.val →
              pixel_at r.out (Y * w + X) = (x.2.1, x.2.2.1, x.2.2.2, 255))) := by
  refine ⟨fun pre post last hv hd hlast hpost => ⟨fun hlen => ?_, fun r hr => ?_⟩,
    fun t ts rest hv hd ht => ⟨fun hlen => ?_, fun r hr => ?_⟩⟩
  · obtain ⟨r, hr, -⟩ := fl_convert_pixmap_returns fl_parse_color colors0
      (header :: ((pre ++ last :: post) ++ rows)) out bg g w h _ c hv (by omega) (by omega) hc
      (Or.inr (by omega))
    exact ⟨r, hr⟩
  · obtain ⟨u, hu, -, hused, -, -, hlastpx, hother⟩ := convert_named_subst fl_parse_color
      colors0 out bg g header pre post rows last w h c hv hw hh hc hd hneed hlast hpost r hr
    obtain ⟨-, -, -, hnot, -⟩ := make_unused_color_loop_some _ rgb_space (2, 3, 4) u hu
    refine ⟨u, by rw [hused]; exact hu, hlastpx, ?_⟩
    intro l hl rgb hp
    have hmem := mem_named_used fl_parse_color c _ l rgb hl hp
    refine ⟨fun he => hnot (he ▸ hmem), ?_⟩
    intro Y X hY hX hcode
    have hne : l ≠ last := by
      intro he
      rw [he, hlast] at hp
      exact absurd hp (by simp)
    have hsym : Symmetric (fun a b : List uchar => entry_code c a ≠ entry_code c b) :=
      fun a b hab => Ne.symm hab
    have hcne : entry_code c l ≠ entry_code c last :=
      hd.forall hsym hl (by simp) hne
    rw [hother l hl hcne Y X hY hX hcode]
    unfold entry_color
    rw [hp]
  · obtain ⟨r, hr, -⟩ := fl_convert_pixmap_returns fl_parse_color colors0
      (header :: (compact_bytes (t :: ts) ++ rest) :: rows) out bg g w h _ c hv (by omega)
      (by omega) hc (Or.inr (by omega))
    exact ⟨r, hr⟩
  · obtain ⟨u, hu, -, hused, -, h32, hother⟩ := convert_compact_subst fl_parse_color colors0
      out bg g header t ts rest rows w h c hv hw hh hc hd hneed ht r hr
    obtain ⟨-, -, -, hnot, -⟩ := make_unused_color_loop_some _ rgb_space (2, 3, 4) u hu
    refine ⟨u, by rw [hused]; exact hu, h32, ?_⟩
    intro x hx
    refine ⟨fun he => hnot ?_, hother x hx⟩
    rw [← he]
    exact List.mem_map.2 ⟨x, hx, rfl⟩

/-- C17 as amended, at the named image "2 1 2 1" / "a c red" / "b c None" / "ab": the
pixel of the rejected line carries the resolver's colour, the other one is red. -/
theorem fl_convert_pixmap_substitute_differs_witness :
    ∃ r, fl_convert_pixmap parse_sample sample_table
        (ascii "2 1 2 1" :: (([ascii "a c red"] ++ ascii "b c None" :: []) ++ [ascii "ab"]))
        sample_buffer (7, 8, 9) sample_globals_subst = some r ∧
      ∃ u, make_unused_color_loop r.g.used_colors rgb_space 2 3 4 = some u ∧
        pixel_at r.out 1 = (u.1, u.2.1, u.2.2, 255) ∧ (255, 0, 0) ≠ u ∧
        pixel_at r.out 0 = (255, 0, 0, 255) := by
  obtain ⟨hret, hall⟩ :=
    (fl_convert_pixmap_substitute_differs parse_sample sample_table sample_buffer (7, 8, 9)
      sample_globals_subst (ascii "2 1 2 1") [ascii "ab"] 2 1 1 (by decide) (by decide)
      (by decide) (by decide)).1 [ascii "a c red"] [] (ascii "b c None") (by decide)
      (by decide) (by decide) (by simp)
  obtain ⟨r, hr⟩ := hret (by decide)
  obtain ⟨u, hu, h1, h2⟩ := hall r hr
  obtain ⟨hne, hpx⟩ := h2 (ascii "a c red") (by simp) (255, 0, 0) (by decide)
  exact ⟨r, hr, u, hu, h1 0 1 (by decide) (by decide) (by decide), hne,
    hpx 0 0 (by decide) (by decide) (by decide)⟩

/-- C18: for every `used_colors` list of at most 65536 triples, the triple that
`make_unused_color_` returns is not (0,0,0), so the value
`need_pixmap_bg_color = r + 256*g + 65536*b` that it records is not zero, and background
substitution stays enabled for the following decode. -/
theorem make_unused_color_keeps_flag (G : Globals) (hlen : G.color_count ≤ 65536) :
    ∃ (r g b : uchar) (G1 : Globals),
      make_unused_color_ G = some ((r, g, b), G1) ∧
      (r, g, b) ≠ ((0, 0, 0) : uchar × uchar × uchar) ∧
      G1.need_pixmap_bg_color = r.val + 256 * g.val + 65536 * b.val ∧
      G1.need_pixmap_bg_color ≠ 0 := by
  have hlen' : G.used_colors.length ≤ 65536 := hlen
  obtain ⟨k, hk, -, -, hf⟩ := make_unused_color_first G.used_colors (by omega)
  have hl := hf rgb_space (by unfold rgb_space; omega)
  have hidx : color_index (next_color^[k] (2, 3, 4)) = 262914 + k := by
    rw [color_index_iterate]
    have h0 : color_index ((2, 3, 4) : uchar × uchar × uchar) = 262914 := by decide
    rw [h0]
    omega
  refine ⟨(next_color^[k] (2, 3, 4)).1, (next_color^[k] (2, 3, 4)).2.1,
    (next_color^[k] (2, 3, 4)).2.2, _, make_unused_color_eq G _ hl, ?_, ?_, ?_⟩
  · intro h0
    have h1 := congrArg color_index h0
    rw [hidx] at h1
    have h2 : color_index ((0, 0, 0) : uchar × uchar × uchar) = 0 := by decide
    omega
  · exact RGB_eq _ _ _
  · show RGB _ _ _ ≠ 0
    rw [RGB_eq_color_index, hidx]
    omega

/-- C18 at the list [(2,3,4), (3,3,4)]. -/
theorem make_unused_color_keeps_flag_witness :
    ∃ (r g b : uchar) (G1 : Globals),
      make_unused_color_ ⟨0, 0, [⟨2, 3, 4⟩, ⟨3, 3, 4⟩], 1⟩ = some ((r, g, b), G1) ∧
      (r, g, b) ≠ ((0, 0, 0) : uchar × uchar × uchar) ∧
      G1.need_pixmap_bg_color = r.val + 256 * g.val + 65536 * b.val ∧
      G1.need_pixmap_bg_color ≠ 0 :=
  make_unused_color_keeps_flag ⟨0, 0, [⟨2, 3, 4⟩, ⟨3, 3, 4⟩], 1⟩ (by decide)

/-- C19: in a decode with background substitution enabled, every write
`used_colors[color_count]` is inside the array of `abs(ncolors)` entries.  The table
construction starts from `start_state` (`color_count = 0`).  Named path: the loop of
`ncolors` iterations is, for every `i` below `ncolors`, `i` iterations followed by the
rest, and the state in which iteration `i` runs has `color_count < abs(ncolors)`.  Compact
path: the loop runs `abs(ncolors) - 1` iterations behind a skipped first `' '` tuple and
`abs(ncolors)` iterations otherwise, and in both cases the state in which iteration `i`
runs has `color_count < abs(ncolors)`. -/
theorem used_colors_write_in_bounds
    (fl_parse_color : List uchar → Option (uchar × uchar × uchar))
    (colors0 : ColorTable) (bg : uchar × uchar × uchar) (n c : Int)
    (used : List UsedColor) (data : List (List uchar)) :
    (colormap fl_parse_color colors0 bg true n c used data =
      if n < 0 then (compact_colormap bg true (start_state colors0 n data)).1
      else named_loop fl_parse_color bg true c n.toNat (start_state colors0 n data)) ∧
    (0 ≤ n → ∀ i, i < n.toNat →
      named_loop fl_parse_color bg true c n.toNat (start_state colors0 n data) =
        named_loop fl_parse_color bg true c (n.toNat - i)
          (named_loop fl_parse_color bg true c i (start_state colors0 n data)) ∧
      (named_loop fl_parse_color bg true c i (start_state colors0 n data)).used.length
        < n.natAbs) ∧
    (n < 0 → (peek (data.headD [])).val = 32 →
      (compact_colormap bg true (start_state colors0 n data)).1.used =
        (compact_loop true (-n - 1).toNat ((data.headD []).drop 4)
          (Function.update colors0 32 (bg.1, bg.2.1, bg.2.2, 0)) []).2.1 ∧
      ∀ i, i < (-n - 1).toNat →
        compact_loop true (-n - 1).toNat ((data.headD []).drop 4)
            (Function.update colors0 32 (bg.1, bg.2.1, bg.2.2, 0)) [] =
          compact_loop true ((-n - 1).toNat - i)
            (compact_loop true i ((data.headD []).drop 4)
              (Function.update colors0 32 (bg.1, bg.2.1, bg.2.2, 0)) []).2.2
            (compact_loop true i ((data.headD []).drop 4)
              (Function.update colors0 32 (bg.1, bg.2.1, bg.2.2, 0)) []).1
            (compact_loop true i ((data.headD []).drop 4)
              (Function.update colors0 32 (bg.1, bg.2.1, bg.2.2, 0)) []).2.1 ∧
        (compact_loop true i ((data.headD []).drop 4)
          (Function.update colors0 32 (bg.1, bg.2.1, bg.2.2, 0)) []).2.1.length
          < n.natAbs) ∧
    (n < 0 → (peek (data.headD [])).val ≠ 32 →
      (compact_colormap bg true (start_state colors0 n data)).1.used =
        (compact_loop true (-n).toNat (data.headD []) colors0 []).2.1 ∧
      ∀ i, i < (-n).toNat →
        compact_loop true (-n).toNat (data.headD []) colors0 [] =
          compact_loop true ((-n).toNat - i)
            (compact_loop true i (data.headD []) colors0 []).2.2
            (compact_loop true i (data.headD []) colors0 []).1
            (compact_loop true i (data.headD []) colors0 []).2.1 ∧
        (compact_loop true i (data.headD []) colors0 []).2.1.length < n.natAbs) := by
  refine ⟨rfl, ?_, ?_, ?_⟩
  · intro hn i hi
    refine ⟨?_, ?_⟩
    · have e : n.toNat = i + (n.toNat - i) := by omega
      conv_lhs => rw [e]
      exact named_loop_add fl_parse_color bg true c _ i _
    · have h := named_loop_used_length fl_parse_color bg true c i (start_state colors0 n data)
      have h0 : (start_state colors0 n data).used.length = 0 := rfl
      omega
  · intro hn h32
    refine ⟨?_, ?_⟩
    · unfold compact_colormap
      simp only [start_state]
      rw [if_pos h32]
    · intro i hi
      refine ⟨?_, ?_⟩
      · have e : (-n - 1).toNat = i + ((-n - 1).toNat - i) := by omega
        conv_lhs => rw [e]
        exact compact_loop_add true _ i _ _ _
      · have h := compact_loop_used_length true i ((data.headD []).drop 4)
          (Function.update colors0 32 (bg.1, bg.2.1, bg.2.2, 0)) []
        simp only [List.length_nil] at h
        omega
  · intro hn h32
    refine ⟨?_, ?_⟩
    · unfold compact_colormap
      simp only [start_state]
      rw [if_neg h32]
    · intro i hi
      refine ⟨?_, ?_⟩
      · have e : (-n).toNat = i + ((-n).toNat - i) := by omega
        conv_lhs => rw [e]
        exact compact_loop_add true _ i _ _ _
      · have h := compact_loop_used_length true i (data.headD []) colors0 []
        simp only [List.length_nil] at h
        omega

/-! ## Permuted colour entries -/

theorem pairs_bytes_append (z : List uchar) :
    ∀ (xs : List KeyValue) (r : List uchar),
      pairs_bytes xs (r ++ z) = pairs_bytes xs r ++ z := by
  intro xs
  induction xs with
  | nil => intro r; rfl
  | cons x xs ih =>
    intro r
    rw [pairs_bytes, pairs_bytes, ih r]
    simp only [List.append_assoc]

theorem spec_color_word_append (z : List uchar) :
    ∀ (xs : List KeyValue) (r start : List uchar),
      spec_color_word xs (r ++ z) (start ++ z) = spec_color_word xs r start ++ z := by
  intro xs
  induction xs with
  | nil => intro r start; rfl
  | cons x xs ih =>
    intro r start
    rw [spec_color_word, spec_color_word]
    split
    · rw [pairs_bytes_append, List.append_assoc]
    · rw [pairs_bytes_append, ← List.append_assoc, ih]

/-- The string at a pointer does not depend on the memory from its terminator on. -/
theorem cstring_append_behind (z : List uchar) (hz : (peek z).val = 0) :
    ∀ s : List uchar, cstring (s ++ z) = cstring s := by
  intro s
  induction s with
  | nil =>
    cases z with
    | nil => rfl
    | cons c t =>
      have hc : c.val = 0 := hz
      simp [cstring, hc]
  | cons c cs ih =>
    rw [List.cons_append, cstring, cstring, ih]

theorem ColorLine.wf_spec (c : Int) (l : ColorLine) (h : l.wf c = true) :
    (l.code.length : Int) = c ∧ (∀ x ∈ l.pairs, x.wf = true) ∧
    (∀ d ∈ l.trail, isspace d = true) ∧ (peek l.behind).val = 0 ∧
    ((is_gap l.last_gap = true ∧ is_token l.last_key = true) ∨
      (l.last_gap = [] ∧ l.last_key = [] ∧ ∃ x ∈ l.pairs, (peek x.key).val = 99)) := by
  unfold ColorLine.wf at h
  simp only [Bool.and_eq_true, Bool.or_eq_true, decide_eq_true_eq, List.all_eq_true,
    List.any_eq_true, List.isEmpty_iff] at h
  obtain ⟨⟨⟨⟨h1, h2⟩, h3⟩, h4⟩, h5⟩ := h
  exact ⟨h1, h2, h3, h4, h5.imp id (fun h => ⟨h.1.1, h.1.2, h.2⟩)⟩

/-- For a colour line on which the scan stays inside the string, the text handed to the
colour parser is the one the scan finds in the text of the line alone, whatever is stored
behind the string; the code is the one of the code bytes. -/
theorem entry_spec_text (c : Int) (hc : c = 1 ∨ c = 2) (l : ColorLine)
    (h : l.wf c = true) :
    entry_spec c l.bytes = cstring (color_word l.text) := by
  obtain ⟨hlen, hp, htr, hz, hk⟩ := ColorLine.wf_spec c l h
  have hcases : (∃ x ∈ l.pairs, (peek x.key).val = 99) ∨
      (is_gap l.last_gap = true ∧ is_token l.last_key = true) := by
    rcases hk with hk | ⟨-, -, hk⟩
    · right; exact hk
    · left; exact hk
  have e1 : entry_spec c l.bytes = cstring (spec_color_word l.pairs
      (l.last_gap ++ (l.last_key ++ (l.trail ++ l.behind)))
      (pairs_bytes l.pairs (l.last_gap ++ (l.last_key ++ (l.trail ++ l.behind))))) := by
    apply entry_spec_eq_spec c hc l.code hlen l.pairs _ hp
    rcases hcases with hk | hk
    · left; exact hk
    · right; right
      exact ⟨l.last_gap, l.last_key, l.trail, l.behind, rfl, hk.1, hk.2, htr, hz⟩
  have e2 : color_word l.text = spec_color_word l.pairs
      (l.last_gap ++ (l.last_key ++ l.trail))
      (pairs_bytes l.pairs (l.last_gap ++ (l.last_key ++ l.trail))) := by
    apply color_word_eq_spec l.pairs _ hp
    rcases hcases with hk | hk
    · left; exact hk
    · right; right
      exact ⟨l.last_gap, l.last_key, l.trail, [], by rw [List.append_nil], hk.1, hk.2, htr,
        rfl⟩
  have e3 : l.last_gap ++ (l.last_key ++ (l.trail ++ l.behind)) =
      (l.last_gap ++ (l.last_key ++ l.trail)) ++ l.behind := by
    simp only [List.append_assoc]
  rw [e1, e2, e3, pairs_bytes_append, spec_color_word_append,
    cstring_append_behind l.behind hz]

/-- Two named-encoding images decode to the same pixels when every colour line of the first
has a colour line in the second with the renamed code and the same text handed to the
colour parser, the pixel grid being renamed alike. -/
theorem convert_matched_named
    (fl_parse_color : List uchar → Option (uchar × uchar × uchar))
    (colorsA colorsB : ColorTable) (outA outB : Buffer) (bg : uchar × uchar × uchar)
    (gA gB : Globals) (headerA headerB : List uchar) (linesA linesB : List (List uchar))
    (rowsA rowsB : List (List uchar)) (w h : Nat) (c : Int) (σ : Nat → Nat)
    (hvA : header_ints headerA = [(w : Int), (h : Int), (linesA.length : Int), c])
    (hvB : header_ints headerB = [(w : Int), (h : Int), (linesB.length : Int), c])
    (hw : 0 < w) (hh : 0 < h) (hc : c = 1 ∨ c = 2)
    (hdA : linesA.Pairwise (fun a b => entry_code c a ≠ entry_code c b))
    (hdB : linesB.Pairwise (fun a b => entry_code c a ≠ entry_code c b))
    (hmatch : ∀ l ∈ linesA, ∃ l' ∈ linesB,
      entry_code c l' = σ (entry_code c l) ∧ entry_spec c l' = entry_spec c l)
    (hlisted : ∀ Y X, Y < h → X < w →
      ∃ l ∈ linesA, entry_code c l = pixel_code c (rowsA.getD Y []) X)
    (hgrid : ∀ Y X, Y < h → X < w →
      pixel_code c (rowsB.getD Y []) X = σ (pixel_code c (rowsA.getD Y []) X))
    (hneedA : gA.need_pixmap_bg_color = 0) (hneedB : gB.need_pixmap_bg_color = 0) :
    ∃ rA rB,
      fl_convert_pixmap fl_parse_color colorsA (headerA :: (linesA ++ rowsA)) outA bg gA =
        some rA ∧
      fl_convert_pixmap fl_parse_color colorsB (headerB :: (linesB ++ rowsB)) outB bg gB =
        some rB ∧
      rA.ret = 1 ∧ rB.ret = 1 ∧ ∀ a, a < 4 * (h * w) → rA.out a = rB.out a := by
  obtain ⟨rA, hrA, hretA, houtA, -⟩ := fl_convert_pixmap_plain fl_parse_color colorsA
    (headerA :: (linesA ++ rowsA)) outA bg gA w h linesA.length c hvA hw hh hc hneedA
  obtain ⟨rB, hrB, hretB, houtB, -⟩ := fl_convert_pixmap_plain fl_parse_color colorsB
    (headerB :: (linesB ++ rowsB)) outB bg gB w h linesB.length c hvB hw hh hc hneedB
  obtain ⟨hcolA, hdataA, -⟩ := colormap_named fl_parse_color colorsA bg false c
    gA.used_colors linesA rowsA
  obtain ⟨hcolB, hdataB, -⟩ := colormap_named fl_parse_color colorsB bg false c
    gB.used_colors linesB rowsB
  refine ⟨rA, rB, hrA, hrB, hretA, hretB, ?_⟩
  rw [houtA, houtB, List.tail_cons, List.tail_cons, hcolA, hcolB, hdataA, hdataB]
  apply raster_agree c _ _ w h rowsA rowsB outA outB σ hgrid
  intro Y X hY hX
  obtain ⟨l, hl, hcode⟩ := hlisted Y X hY hX
  obtain ⟨l', hl', he1, he2⟩ := hmatch l hl
  rw [← hcode, ← he1,
    foldl_update_mem (entry_code c) (entry_color fl_parse_color bg c) linesB colorsB hdB l' hl',
    foldl_update_mem (entry_code c) (entry_color fl_parse_color bg c) linesA colorsA hdA l hl]
  unfold entry_color
  rw [he2]

/-- Two named-encoding images whose colour lines carry the same texts in any order, with
the codes renamed by `σ` and the pixel grid renamed alike, decode to the same pixels,
whatever is stored behind the strings of the colour lines, when the scan for the colour
text stays inside the string on every colour line. -/
theorem convert_permuted_text
    (fl_parse_color : List uchar → Option (uchar × uchar × uchar))
    (colorsA colorsB : ColorTable) (outA outB : Buffer) (bg : uchar × uchar × uchar)
    (gA gB : Globals) (headerA headerB : List uchar) (LA LB : List ColorLine)
    (rowsA rowsB : List (List uchar)) (w h : Nat) (c : Int) (σ : Nat → Nat)
    (hvA : header_ints headerA = [(w : Int), (h : Int), (LA.length : Int), c])
    (hvB : header_ints headerB = [(w : Int), (h : Int), (LB.length : Int), c])
    (hw : 0 < w) (hh : 0 < h) (hc : c = 1 ∨ c = 2)
    (hwfA : ∀ l ∈ LA, l.wf c = true) (hwfB : ∀ l ∈ LB, l.wf c = true)
    (hdA : LA.Pairwise (fun a b => entry_code c a.bytes ≠ entry_code c b.bytes))
    (hdB : LB.Pairwise (fun a b => entry_code c a.bytes ≠ entry_code c b.bytes))
    (hperm : List.Perm
      (LA.map (fun l => (σ (entry_code c l.bytes), l.text)))
      (LB.map (fun l => (entry_code c l.bytes, l.text))))
    (hlisted : ∀ Y X, Y < h → X < w →
      ∃ l ∈ LA, entry_code c l.bytes = pixel_code c (rowsA.getD Y []) X)
    (hgrid : ∀ Y X, Y < h → X < w →
      pixel_code c (rowsB.getD Y []) X = σ (pixel_code c (rowsA.getD Y []) X))
    (hneedA : gA.need_pixmap_bg_color = 0) (hneedB : gB.need_pixmap_bg_color = 0) :
    ∃ rA rB,
      fl_convert_pixmap fl_parse_color colorsA
        (headerA :: (LA.map ColorLine.bytes ++ rowsA)) outA bg gA = some rA ∧
      fl_convert_pixmap fl_parse_color colorsB
        (headerB :: (LB.map ColorLine.bytes ++ rowsB)) outB bg gB = some rB ∧
      rA.ret = 1 ∧ rB.ret = 1 ∧ ∀ a, a < 4 * (h * w) → rA.out a = rB.out a := by
  apply convert_matched_named fl_parse_color colorsA colorsB outA outB bg gA gB headerA
    headerB (LA.map ColorLine.bytes) (LB.map ColorLine.bytes) rowsA rowsB w h c σ
    (by rw [List.length_map]; exact hvA) (by rw [List.length_map]; exact hvB) hw hh hc
    (List.pairwise_map.2 hdA) (List.pairwise_map.2 hdB) ?_ ?_ hgrid hneedA hneedB
  · intro b hb
    obtain ⟨l, hl, rfl⟩ := List.mem_map.1 hb
    have hmem : (σ (entry_code c l.bytes), l.text) ∈
        LB.map (fun l => (entry_code c l.bytes, l.text)) :=
      hperm.subset (List.mem_map.2 ⟨l, hl, rfl⟩)
    obtain ⟨l', hl', he⟩ := List.mem_map.1 hmem
    simp only [Prod.mk.injEq] at he
    refine ⟨l'.bytes, List.mem_map.2 ⟨l', hl', rfl⟩, he.1, ?_⟩
    rw [entry_spec_text c hc l' (hwfB l' hl'), entry_spec_text c hc l (hwfA l hl), he.2]
  · intro Y X hY hX
    obtain ⟨l, hl, hcode⟩ := hlisted Y X hY hX
    exact ⟨l.bytes, List.mem_map.2 ⟨l, hl, rfl⟩, hcode⟩

/-- C8, as the code behaves: in compact encoding only a first tuple of code `' '` is
transparent.  The image "1 1 -2 1" with the tuples (' ',1,2,3), ('a',4,5,6) and the pixel
`' '` decodes to the background colour with alpha 0; with the two tuples in the other
order and the same pixel, and also with the codes of the two tuples swapped and the pixel
re-expressed as `'a'`, it decodes to (1,2,3,255). -/
theorem fl_convert_pixmap_permuted_compact_differ :
    (fl_convert_pixmap parse_nothing sample_table
        [ascii "1 1 -2 1", compact_bytes [(32, 1, 2, 3), (97, 4, 5, 6)], ascii " "]
        sample_buffer (7, 8, 9) sample_globals).map (fun r => (List.range 4).map r.out) =
      some [7, 8, 9, 0] ∧
    (fl_convert_pixmap parse_nothing sample_table
        [ascii "1 1 -2 1", compact_bytes [(97, 4, 5, 6), (32, 1, 2, 3)], ascii " "]
        sample_buffer (7, 8, 9) sample_globals).map (fun r => (List.range 4).map r.out) =
      some [1, 2, 3, 255] ∧
    (fl_convert_pixmap parse_nothing sample_table
        [ascii "1 1 -2 1", compact_bytes [(97, 1, 2, 3), (32, 4, 5, 6)], ascii "a"]
        sample_buffer (7, 8, 9) sample_globals).map (fun r => (List.range 4).map r.out) =
      some [1, 2, 3, 255] := by
  decide

/-- The named-encoding images "1 1 2 1" / "a m red" / "b c blue" / "a" and "1 1 2 1" /
"b c blue" / "a m red" / "a", each with its strings stored one behind the other: the colour
line "a m red" has no `'c'` key, the scan reads behind its terminator, and the pixel is the
background colour in the first image and red in the second. -/
theorem convert_permuted_named_contiguous_differ :
    (fl_convert_pixmap parse_sample sample_table
        [ascii "1 1 2 1", ascii "a m red" ++ 0 :: (ascii "b c blue" ++ 0 :: ascii "a"),
          ascii "b c blue" ++ 0 :: ascii "a", ascii "a"]
        sample_buffer (7, 8, 9) sample_globals).map (fun r => (List.range 4).map r.out) =
      some [7, 8, 9, 255] ∧
    (fl_convert_pixmap parse_sample sample_table
        [ascii "1 1 2 1", ascii "b c blue" ++ 0 :: (ascii "a m red" ++ 0 :: ascii "a"),
          ascii "a m red" ++ 0 :: ascii "a", ascii "a"]
        sample_buffer (7, 8, 9) sample_globals).map (fun r => (List.range 4).map r.out) =
      some [255, 0, 0, 255] := by
  decide

/-- C8 as amended: two valid images that differ only by a permutation of their colour-table
entries (the entries of the second are those of the first in any order, with the codes
renamed by `σ`, and the pixel grid is re-expressed with the renamed codes), decoded with the
same background colour and substitution disabled, give the same `width*height` pixels.  In
named encoding this holds when every colour line is a pixel code followed by key/value
pairs and has a last key without a value or a key that begins with `'c'` and has a value
(the scan for the colour text then stays inside the string); the entries are the codes with
the texts of the lines, and what is stored behind the strings is arbitrary and may differ
between the images.  In compact encoding it holds when both first tuples are the
transparent `' '` tuple, left in place by the permutation, or neither first tuple has the
code `' '`. -/
theorem fl_convert_pixmap_permuted_entries
    (fl_parse_color : List uchar → Option (uchar × uchar × uchar))
    (colorsA colorsB : ColorTable) (outA outB : Buffer) (bg : uchar × uchar × uchar)
    (gA gB : Globals) (headerA headerB : List uchar)
    (rowsA rowsB : List (List uchar)) (w h : Nat) (c : Int) (σ : Nat → Nat)
    (hw : 0 < w) (hh : 0 < h) (hc : c = 1 ∨ c = 2)
    (hgrid : ∀ Y X, Y < h → X < w →
      pixel_code c (rowsB.getD Y []) X = σ (pixel_code c (rowsA.getD Y []) X))
    (hneedA : gA.need_pixmap_bg_color = 0) (hneedB : gB.need_pixmap_bg_color = 0) :
    (∀ LA LB : List ColorLine,
      header_ints headerA = [(w : Int), (h : Int), (LA.length : Int), c] →
      header_ints headerB = [(w : Int), (h : Int), (LB.length : Int), c] →
      (∀ l ∈ LA, l.wf c = true) → (∀ l ∈ LB, l.wf c = true) →
      LA.Pairwise (fun a b => entry_code c a.bytes ≠ entry_code c b.bytes) →
      LB.Pairwise (fun a b => entry_code c a.bytes ≠ entry_code c b.bytes) →
      List.Perm
        (LA.map (fun l => (σ (entry_code c l.bytes), l.text)))
        (LB.map (fun l => (entry_code c l.bytes, l.text))) →
      (∀ Y X, Y < h → X < w →
        ∃ l ∈ LA, entry_code c l.bytes = pixel_code c (rowsA.getD Y []) X) →
      ∃ rA rB,
        fl_convert_pixmap fl_parse_color colorsA
          (headerA :: (LA.map ColorLine.bytes ++ rowsA)) outA bg gA = some rA ∧
        fl_convert_pixmap fl_parse_color colorsB
          (headerB :: (LB.map ColorLine.bytes ++ rowsB)) outB bg gB = some rB ∧
        rA.ret = 1 ∧ rB.ret = 1 ∧ ∀ a, a < 4 * (h * w) → rA.out a = rB.out a) ∧
    (∀ (tA tB : uchar × uchar × uchar × uchar)
      (tsA tsB : List (uchar × uchar × uchar × uchar)) (restA restB : List uchar),
      header_ints headerA = [(w : Int), (h : Int), -((tA :: tsA).length : Int), c] →
      header_ints headerB = [(w : Int), (h : Int), -((tB :: tsB).length : Int), c] →
      (tA :: tsA).Pairwise (fun a b => a.1 ≠ b.1) →
      (tB :: tsB).Pairwise (fun a b => a.1 ≠ b.1) →
      ((tA.1 = 32 ∧ tB.1 = 32 ∧ σ 32 = 32 ∧
          List.Perm (tsA.map (fun t => (σ t.1.val, t.2)))
            (tsB.map (fun t => (t.1.val, t.2)))) ∨
        (tA.1 ≠ 32 ∧ tB.1 ≠ 32 ∧
          List.Perm ((tA :: tsA).map (fun t => (σ t.1.val, t.2)))
            ((tB :: tsB).map (fun t => (t.1.val, t.2))))) →
      (∀ Y X, Y < h → X < w →
        ∃ t ∈ tA :: tsA, t.1.val = pixel_code c (rowsA.getD Y []) X) →
      ∃ rA rB,
        fl_convert_pixmap fl_parse_color colorsA
          (headerA :: (compact_bytes (tA :: tsA) ++ restA) :: rowsA) outA bg gA = some rA ∧
        fl_convert_pixmap fl_parse_color colorsB
          (headerB :: (compact_bytes (tB :: tsB) ++ restB) :: rowsB) outB bg gB = some rB ∧
        rA.ret = 1 ∧ rB.ret = 1 ∧ ∀ a, a < 4 * (h * w) → rA.out a = rB.out a) := by
  refine ⟨?_, ?_⟩
  · intro LA LB hvA hvB hwfA hwfB hdA hdB hperm hlisted
    exact convert_permuted_text fl_parse_color colorsA colorsB outA outB bg gA gB headerA
      headerB LA LB rowsA rowsB w h c σ hvA hvB hw hh hc hwfA hwfB hdA hdB hperm hlisted
      hgrid hneedA hneedB
  · intro tA tB tsA tsB restA restB hvA hvB hdA hdB hperm hlisted
    exact convert_permuted_compact fl_parse_color colorsA colorsB outA outB bg gA gB headerA
      headerB tA tB tsA tsB restA restB rowsA rowsB w h c σ hvA hvB hw hh hc hdA hdB hperm
      hlisted hgrid hneedA hneedB

/-- C8 as amended, at the named image "1 1 2 1" / "a c red" / "b c blue" / "a" and the image
with the two colour lines in the other order and the two codes swapped, "1 1 2 1" /
"a c blue" / "b c red" / "b", each with its strings stored one behind the other, so that
different bytes follow the terminators of the colour lines in the two images. -/
theorem fl_convert_pixmap_permuted_entries_witness :
    [ascii "a c red" ++ 0 :: (ascii "b c blue" ++ 0 :: ascii "a"),
      ascii "b c blue" ++ 0 :: ascii "a"] =
      [(⟨ascii "a", [⟨ascii " ", ascii "c", ascii " ", ascii "red"⟩], [], [], [],
          0 :: (ascii "b c blue" ++ 0 :: ascii "a")⟩ : ColorLine),
        ⟨ascii "b", [⟨ascii " ", ascii "c", ascii " ", ascii "blue"⟩], [], [], [],
          0 :: ascii "a"⟩].map ColorLine.bytes ∧
    ∃ rA rB,
      fl_convert_pixmap parse_sample sample_table
        (ascii "1 1 2 1" ::
          ([(⟨ascii "a", [⟨ascii " ", ascii "c", ascii " ", ascii "red"⟩], [], [], [],
              0 :: (ascii "b c blue" ++ 0 :: ascii "a")⟩ : ColorLine),
            ⟨ascii "b", [⟨ascii " ", ascii "c", ascii " ", ascii "blue"⟩], [], [], [],
              0 :: ascii "a"⟩].map ColorLine.bytes ++ [ascii "a"]))
        sample_buffer (7, 8, 9) sample_globals = some rA ∧
      fl_convert_pixmap parse_sample sample_table
        (ascii "1 1 2 1" ::
          ([(⟨ascii "a", [⟨ascii " ", ascii "c", ascii " ", ascii "blue"⟩], [], [], [],
              0 :: (ascii "b c red" ++ 0 :: ascii "b")⟩ : ColorLine),
            ⟨ascii "b", [⟨ascii " ", ascii "c", ascii " ", ascii "red"⟩], [], [], [],
              0 :: ascii "b"⟩].map ColorLine.bytes ++ [ascii "b"]))
        sample_buffer (7, 8, 9) sample_globals = some rB ∧
      rA.ret = 1 ∧ rB.ret = 1 ∧ ∀ a, a < 4 * (1 * 1) → rA.out a = rB.out a :=
  ⟨by decide,
    (fl_convert_pixmap_permuted_entries parse_sample sample_table sample_table sample_buffer
      sample_buffer (7, 8, 9) sample_globals sample_globals (ascii "1 1 2 1")
      (ascii "1 1 2 1") [ascii "a"] [ascii "b"] 1 1 1 swap_ab (by decide) (by decide)
      (by decide)
      (by
        intro Y X hY hX
        have hY0 : Y = 0 := by omega
        have hX0 : X = 0 := by omega
        subst hY0 hX0
        decide)
      rfl rfl).1
      [⟨ascii "a", [⟨ascii " ", ascii "c", ascii " ", ascii "red"⟩], [], [], [],
          0 :: (ascii "b c blue" ++ 0 :: ascii "a")⟩,
        ⟨ascii "b", [⟨ascii " ", ascii "c", ascii " ", ascii "blue"⟩], [], [], [],
          0 :: ascii "a"⟩]
      [⟨ascii "a", [⟨ascii " ", ascii "c", ascii " ", ascii "blue"⟩], [], [], [],
          0 :: (ascii "b c red" ++ 0 :: ascii "b")⟩,
        ⟨ascii "b", [⟨ascii " ", ascii "c", ascii " ", ascii "red"⟩], [], [], [],
          0 :: ascii "b"⟩]
      (by decide) (by decide) (by decide) (by decide) (by decide) (by decide)
      (List.Perm.swap _ _ _)
      (by
        intro Y X hY hX
        have hY0 : Y = 0 := by omega
        have hX0 : X = 0 := by omega
        subst hY0 hX0
        exact ⟨_, List.mem_cons_self _ _, by decide⟩)⟩

end FlDrawPixmap
